import Mathlib

/-!
# The `sign` command of base-org/contracts (`cmd/sign/main.go`)

A shallow embedding of the signing tool and theorems about it.

Go strings and byte slices are sequences of bytes; a byte is a `Nat` below 256
and byte arithmetic is written with an explicit `% 256` where it can overflow.
Functions of the Go standard library and of go-ethereum that `main.go` calls and
that are pure (`strings.Index`, `strings.TrimSpace`, `common.FromHex`,
`hex.EncodeToString`) are embedded from their library sources.
-/

namespace Sign

/-- A Go `string` or `[]byte`: a sequence of bytes. -/
abbrev Bytes := List Nat

/-- Bytes of an ASCII literal. -/
def ascii (s : String) : Bytes := s.toList.map Char.toNat

/-- Every element is a byte value. -/
def IsBytes (s : Bytes) : Prop := ∀ b ∈ s, b < 256

instance (s : Bytes) : Decidable (IsBytes s) := by
  unfold IsBytes; infer_instance

/-! ## `strings.Index` -/

/-- Scan of `strings.Index`: the least `i` such that `substr` is a prefix of the text
at offset `i`; `rest` is the text from offset `i` on. -/
def indexFrom (substr : Bytes) : Bytes → Nat → Option Nat
  | [], i => if substr = [] then some i else none
  | c :: rest, i =>
    if substr.isPrefixOf (c :: rest) then some i else indexFrom substr rest (i + 1)

/-- Go `strings.Index(s, substr)`: the index of the first instance of `substr` in `s`,
or `-1` if `substr` is not present in `s`. -/
def Index (s substr : Bytes) : Int :=
  match indexFrom substr s 0 with
  | some i => (i : Int)
  | none => -1

/-! ## `unicode/utf8` and `unicode.IsSpace`, as used by `strings.TrimSpace` -/

/-- Go `utf8.RuneError`. -/
def RuneError : Nat := 0xFFFD

/-- Go `utf8.RuneSelf`: bytes below it are single-byte runes. -/
def RuneSelf : Nat := 0x80

/-- Go `utf8.UTFMax`. -/
def UTFMax : Nat := 4

/-- Information of the `first` table of `unicode/utf8` about a leading byte. -/
inductive FirstInfo where
  /-- An ASCII byte (`as`). -/
  | as
  /-- An invalid leading byte (`xx`). -/
  | xx
  /-- A leading byte of a sequence of `size` bytes whose second byte lies in `lo..hi`. -/
  | multi (size lo hi : Nat)
  deriving DecidableEq, Repr

/-- The `first` table of `unicode/utf8` with its accept ranges. -/
def first (b : Nat) : FirstInfo :=
  if b < 0x80 then .as
  else if b < 0xC2 then .xx
  else if b < 0xE0 then .multi 2 0x80 0xBF
  else if b = 0xE0 then .multi 3 0xA0 0xBF
  else if b < 0xED then .multi 3 0x80 0xBF
  else if b = 0xED then .multi 3 0x80 0x9F
  else if b < 0xF0 then .multi 3 0x80 0xBF
  else if b = 0xF0 then .multi 4 0x90 0xBF
  else if b < 0xF4 then .multi 4 0x80 0xBF
  else if b = 0xF4 then .multi 4 0x80 0x8F
  else .xx

/-- Go `utf8.DecodeRuneInString`: the first rune of `s` and its width in bytes;
`(RuneError, 0)` on the empty string and `(RuneError, 1)` on an invalid encoding. -/
def DecodeRuneInString (s : Bytes) : Nat × Nat :=
  match s with
  | [] => (RuneError, 0)
  | s0 :: _ =>
    match first s0 with
    | .as => (s0, 1)
    | .xx => (RuneError, 1)
    | .multi sz lo hi =>
      if s.length < sz then (RuneError, 1)
      else
        let s1 := s.getD 1 0
        if s1 < lo ∨ hi < s1 then (RuneError, 1)
        else if sz ≤ 2 then (((s0 &&& 0x1F) <<< 6) ||| (s1 &&& 0x3F), 2)
        else
          let s2 := s.getD 2 0
          if s2 < 0x80 ∨ 0xBF < s2 then (RuneError, 1)
          else if sz ≤ 3 then
            (((s0 &&& 0x0F) <<< 12) ||| ((s1 &&& 0x3F) <<< 6) ||| (s2 &&& 0x3F), 3)
          else
            let s3 := s.getD 3 0
            if s3 < 0x80 ∨ 0xBF < s3 then (RuneError, 1)
            else
              (((s0 &&& 0x07) <<< 18) ||| ((s1 &&& 0x3F) <<< 12) ||| ((s2 &&& 0x3F) <<< 6)
                ||| (s3 &&& 0x3F), 4)

/-- Go `utf8.RuneStart`: the byte is not a continuation byte. -/
def RuneStart (b : Nat) : Bool := (b &&& 0xC0) != 0x80

/-- The backward scan of `utf8.DecodeLastRuneInString`:
`for start--; start >= lim; start-- { if RuneStart(s[start]) { break } }`,
entered with `start` already decremented; it runs at most `UTFMax` times. -/
def lastRuneScan (s : Bytes) (lim : Int) : Nat → Int → Int
  | 0, start => start
  | fuel + 1, start =>
    if start ≥ lim then
      if RuneStart (s.getD start.toNat 0) then start else lastRuneScan s lim fuel (start - 1)
    else start

/-- Go `utf8.DecodeLastRuneInString`: the last rune of `s` and its width. -/
def DecodeLastRuneInString (s : Bytes) : Nat × Nat :=
  let fin := s.length
  if fin = 0 then (RuneError, 0)
  else
    let r := s.getD (fin - 1) 0
    if r < RuneSelf then (r, 1)
    else
      let lim : Int := if (fin : Int) - UTFMax < 0 then 0 else (fin : Int) - UTFMax
      let start := lastRuneScan s lim UTFMax ((fin : Int) - 1 - 1)
      let start := if start < 0 then 0 else start
      let (r, size) := DecodeRuneInString (s.drop start.toNat)
      if start.toNat + size ≠ fin then (RuneError, 1) else (r, size)

/-- Go `unicode.IsSpace`: the Latin-1 spaces and the other code points of `White_Space`. -/
def IsSpace (r : Nat) : Bool :=
  if r ≤ 0xFF then
    r = 0x09 ∨ r = 0x0A ∨ r = 0x0B ∨ r = 0x0C ∨ r = 0x0D ∨ r = 0x20 ∨ r = 0x85 ∨ r = 0xA0
  else
    r = 0x1680 ∨ (0x2000 ≤ r ∧ r ≤ 0x200A) ∨ r = 0x2028 ∨ r = 0x2029 ∨ r = 0x202F
      ∨ r = 0x205F ∨ r = 0x3000

/-- The `asciiSpace` table of package `strings`. -/
def asciiSpace (c : Nat) : Bool :=
  c = 0x09 ∨ c = 0x0A ∨ c = 0x0B ∨ c = 0x0C ∨ c = 0x0D ∨ c = 0x20

/-! ## `strings.TrimSpace` -/

/-- The loop of `strings.indexFunc`, `for i, r := range s`, at byte offset `i` with `s`
the text from `i` on; every round consumes at least one byte, so `fuel = len(s)` is
enough. -/
def indexFuncLoop (f : Nat → Bool) (truth : Bool) : Nat → Bytes → Nat → Int
  | 0, _, _ => -1
  | fuel + 1, s, i =>
    if s = [] then -1
    else
      let (r, size) := DecodeRuneInString s
      if f r = truth then (i : Int) else indexFuncLoop f truth fuel (s.drop size) (i + size)

/-- Go `strings.indexFunc`. -/
def indexFunc (s : Bytes) (f : Nat → Bool) (truth : Bool) : Int :=
  indexFuncLoop f truth s.length s 0

/-- The loop of `strings.lastIndexFunc`, `for i := len(s); i > 0;`, at offset `i`. -/
def lastIndexFuncLoop (s : Bytes) (f : Nat → Bool) (truth : Bool) : Nat → Nat → Int
  | 0, _ => -1
  | fuel + 1, i =>
    if i = 0 then -1
    else
      let (r, size) := DecodeLastRuneInString (s.take i)
      let i := i - size
      if f r = truth then (i : Int) else lastIndexFuncLoop s f truth fuel i

/-- Go `strings.lastIndexFunc`. -/
def lastIndexFunc (s : Bytes) (f : Nat → Bool) (truth : Bool) : Int :=
  lastIndexFuncLoop s f truth s.length s.length

/-- Go `strings.TrimLeftFunc`. -/
def TrimLeftFunc (s : Bytes) (f : Nat → Bool) : Bytes :=
  let i := indexFunc s f false
  if i = -1 then [] else s.drop i.toNat

/-- Go `strings.TrimRightFunc`. -/
def TrimRightFunc (s : Bytes) (f : Nat → Bool) : Bytes :=
  let i := lastIndexFunc s f false
  if i ≥ 0 ∧ s.getD i.toNat 0 ≥ RuneSelf then
    let wid := (DecodeRuneInString (s.drop i.toNat)).2
    s.take (i.toNat + wid)
  else s.take (i + 1).toNat

/-- Go `strings.TrimFunc`. -/
def TrimFunc (s : Bytes) (f : Nat → Bool) : Bytes :=
  TrimRightFunc (TrimLeftFunc s f) f

/-- Second loop of `strings.TrimSpace`, `for ; stop > start; stop--`, on `s[start:]`
with `stop` counted from `start`. -/
def trimSpaceStop (s : Bytes) : Nat → Bytes
  | 0 => []
  | stop + 1 =>
    let c := s.getD stop 0
    if c ≥ RuneSelf then TrimRightFunc (s.take (stop + 1)) IsSpace
    else if asciiSpace c then trimSpaceStop s stop
    else s.take (stop + 1)

/-- First loop of `strings.TrimSpace`, `for ; start < len(s); start++`, on `s[start:]`,
followed by the rest of the function. -/
def trimSpaceStart : Bytes → Bytes
  | [] => trimSpaceStop [] 0
  | c :: s =>
    if c ≥ RuneSelf then TrimFunc (c :: s) IsSpace
    else if asciiSpace c then trimSpaceStart s
    else trimSpaceStop (c :: s) (c :: s).length

/-- Go `strings.TrimSpace`: `s` without leading and trailing white space, as defined by
Unicode. -/
def TrimSpace (s : Bytes) : Bytes := trimSpaceStart s

/-! ## `encoding/hex` and `common.FromHex` -/

/-- The `reverseHexTable` of `encoding/hex`: the value of a hex digit, `none` for the
entries `0xff` of the other bytes. -/
def fromHexChar (c : Nat) : Option Nat :=
  if 0x30 ≤ c ∧ c ≤ 0x39 then some (c - 0x30)
  else if 0x61 ≤ c ∧ c ≤ 0x66 then some (c - 0x61 + 10)
  else if 0x41 ≤ c ∧ c ≤ 0x46 then some (c - 0x41 + 10)
  else none

/-- Errors of `encoding/hex`. -/
inductive HexError where
  /-- Go `hex.InvalidByteError`. -/
  | invalidByte (b : Nat)
  /-- Go `hex.ErrLength`: odd length hex string. -/
  | errLength
  deriving DecidableEq, Repr

/-- Go `hex.DecodeString`: the bytes decoded before the first error, and that error. -/
def DecodeString : Bytes → Bytes × Option HexError
  | [] => ([], none)
  | [p] =>
    match fromHexChar p with
    | none => ([], some (.invalidByte p))
    | some _ => ([], some .errLength)
  | p :: q :: rest =>
    match fromHexChar p, fromHexChar q with
    | none, _ => ([], some (.invalidByte p))
    | some _, none => ([], some (.invalidByte q))
    | some a, some b =>
      let (dst, err) := DecodeString rest
      ((((a <<< 4) ||| b) % 256) :: dst, err)

/-- Go-ethereum `common.Hex2Bytes`: `h, _ := hex.DecodeString(str); return h`. -/
def Hex2Bytes (str : Bytes) : Bytes := (DecodeString str).1

/-- Go-ethereum `has0xPrefix`: the string begins with `0x` or `0X`. -/
def has0xPrefix (str : Bytes) : Bool :=
  str.length ≥ 2 && str.getD 0 0 == 0x30 && (str.getD 1 0 == 0x78 || str.getD 1 0 == 0x58)

/-- Go-ethereum `common.FromHex`: the bytes represented by the hexadecimal string `s`,
which may be prefixed with `0x`; an odd-length string is left-padded with `0`. -/
def FromHex (s : Bytes) : Bytes :=
  let s := if has0xPrefix s then s.drop 2 else s
  let s := if s.length % 2 = 1 then 0x30 :: s else s
  Hex2Bytes s

/-- The first two statements of `common.FromHex`: the digit string that is handed to
`Hex2Bytes`. -/
def fromHexDigits (s : Bytes) : Bytes :=
  let s := if has0xPrefix s then s.drop 2 else s
  if s.length % 2 = 1 then 0x30 :: s else s

/-- The `hextable` of `encoding/hex`, `"0123456789abcdef"`, at a nibble. -/
def hextable (n : Nat) : Nat := if n < 10 then 0x30 + n else 0x61 + (n - 10)

/-- Go `hex.EncodeToString`: two lower-case hex digits per byte. -/
def EncodeToString : Bytes → Bytes
  | [] => []
  | v :: rest => hextable (v >>> 4) :: hextable (v &&& 0x0f) :: EncodeToString rest

/-! ## Values of the external libraries -/

/-- Go `ecdsa.PublicKey`: a curve point. -/
structure PublicKey where
  /-- Coordinate `X`. -/
  X : Nat
  /-- Coordinate `Y`. -/
  Y : Nat
  deriving DecidableEq, Repr

/-- Go `ecdsa.PrivateKey`: the embedded public key and the secret scalar `D`. -/
structure PrivateKey where
  /-- The embedded `PublicKey`. -/
  PublicKey : PublicKey
  /-- The secret scalar. -/
  D : Nat
  deriving DecidableEq, Repr

/-- A `hdkeychain.ExtendedKey`, named by its serialisation. -/
structure ExtendedKey where
  /-- The serialised key. -/
  ser : Bytes
  deriving DecidableEq, Repr

/-- An `accounts.Wallet` handle, named by its URL. -/
structure Wallet where
  /-- The wallet URL. -/
  url : Nat
  deriving DecidableEq, Repr

/-- Go-ethereum `accounts.Account`. -/
structure Account where
  /-- The 20-byte address. -/
  Address : Bytes
  /-- The account URL. -/
  URL : Nat
  deriving DecidableEq, Repr

/-- Go-ethereum `accounts.DerivationPath`: a sequence of `uint32` indices. -/
abbrev DerivationPath := List Nat

/-- The message contexts of the `fmt.Errorf("...: %w", err)` calls of `createSigner`. -/
inductive ErrContext where
  /-- Text `error parsing private key`. -/
  | parsingPrivateKey
  /-- Text `error deriving key from mnemonic`. -/
  | derivingKeyFromMnemonic
  /-- Text `error starting ledger`. -/
  | startingLedger
  /-- Text `error opening ledger`. -/
  | openingLedger
  /-- Text `error deriving ledger account (have you unlocked?)`. -/
  | derivingLedgerAccount
  deriving DecidableEq, Repr

/-- A Go `error` value. -/
inductive GoError where
  /-- An error returned by an external library or by the system. -/
  | lib (code : Nat)
  /-- Go `fmt.Errorf("<context>: %w", err)`. -/
  | errorf (ctx : ErrContext) (err : GoError)
  /-- Go `fmt.Errorf("no ledgers found, please connect your ledger")`. -/
  | noLedgers
  /-- Go `fmt.Errorf("multiple ledgers found, please use one ledger at a time")`. -/
  | multipleLedgers
  deriving DecidableEq, Repr

/-- The `log.Fatalf` calls of `main`; each ends the process. -/
inductive Fatal where
  /-- Line 51: `One (and only one) of --private-key, --ledger, --mnemonic must be set`. -/
  | credentials
  /-- Line 59: `Error reading from stdin: %v`. -/
  | readingStdin (err : GoError)
  /-- Line 64: `Error running process: %v`. -/
  | runningProcess (err : GoError)
  /-- Line 79: `Expected EIP-712 hex string with 66 bytes, got %d bytes, value: %s`, with
  the two values that are formatted. -/
  | digestLength (got : Nat) (value : Bytes)
  /-- Line 84: `Error creating signer: %v`. -/
  | creatingSigner (err : GoError)
  /-- Line 100: `Error signing data: %v`. -/
  | signingData (err : GoError)
  deriving DecidableEq, Repr

/-- Run-time panics of the Go code. -/
inductive Panic where
  /-- An index or slice bound out of range. -/
  | indexOutOfRange
  deriving DecidableEq, Repr

/-- What is written on standard output. -/
inductive Output where
  /-- The subprocess output echoed by `io.MultiWriter(os.Stdout, &buffer)` in `run`. -/
  | subprocess (out : Bytes)
  /-- Line 66: `\n%s exited with code 0\n`. -/
  | exited (name : Bytes)
  /-- Line 76: `fmt.Println()`. -/
  | blank
  /-- Line 89: `Domain hash: 0x%s\n`. -/
  | domainHash (hex : Bytes)
  /-- Line 90: `Message hash: 0x%s\n`. -/
  | messageHash (hex : Bytes)
  /-- Line 93: `Data sent to ledger, awaiting signature...`. -/
  | awaitingLedger
  /-- Line 97: `done`. -/
  | done
  /-- Line 103: `\nData: 0x%s\n`. -/
  | data (hex : Bytes)
  /-- Line 104: `Signer: %s\n`. -/
  | signerLine (address : Bytes)
  /-- Line 105: `Signature: %s\n`. -/
  | signature (hex : Bytes)
  deriving DecidableEq, Repr

/-- The interactions of a run with the outside, in the order they happen. -/
inductive Event where
  /-- A write on standard output. -/
  | stdout (o : Output)
  /-- Call `io.ReadAll(os.Stdin)`. -/
  | readStdin
  /-- Call `cmd.Run()` of `exec.Command(name, args...)` in `workdir`. -/
  | runCommand (workdir name : Bytes) (args : List Bytes)
  /-- Call `accounts.ParseDerivationPath`. -/
  | parseDerivationPath (hdPath : Bytes)
  /-- Call `crypto.HexToECDSA`. -/
  | hexToECDSA (privateKey : Bytes)
  /-- Call `bip39.NewSeedWithErrorChecking`. -/
  | newSeed (mnemonic password : Bytes)
  /-- Call `hdkeychain.NewMaster`. -/
  | newMaster (seed : Bytes)
  /-- Call `ExtendedKey.Child`. -/
  | child (key : ExtendedKey) (i : Nat)
  /-- Call `ExtendedKey.SerializedPrivKey`. -/
  | serializedPrivKey (key : ExtendedKey)
  /-- Call `crypto.ToECDSA`. -/
  | toECDSA (d : Bytes)
  /-- Call `usbwallet.NewLedgerHub`. -/
  | newLedgerHub
  /-- Call `Hub.Wallets`. -/
  | wallets
  /-- Call `Wallet.Open`. -/
  | walletOpen (w : Wallet) (passphrase : Bytes)
  /-- Call `Wallet.Derive`. -/
  | walletDerive (w : Wallet) (path : DerivationPath) (pin : Bool)
  /-- Call `Wallet.Close`. -/
  | walletClose (w : Wallet)
  /-- Call `Wallet.SignData`. -/
  | signData (w : Wallet) (account : Account) (mimeType data : Bytes)
  /-- Call `crypto.Sign`. -/
  | cryptoSign (digestHash : Bytes) (prv : PrivateKey)
  deriving DecidableEq, Repr

/-- The external collaborators of the tool: input sources, the key libraries, the
device transport and the signing primitive. Each answers as a function of its
arguments. -/
structure Env where
  /-- Go `io.ReadAll(os.Stdin)`. -/
  readAllStdin : Except GoError Bytes
  /-- The captured standard output of the subprocess and the result of `cmd.Run()`. -/
  cmdRun : Bytes → Bytes → List Bytes → Bytes × Option GoError
  /-- Go-ethereum `accounts.ParseDerivationPath`. -/
  ParseDerivationPath : Bytes → Except GoError DerivationPath
  /-- Go-ethereum `crypto.HexToECDSA`. -/
  HexToECDSA : Bytes → Except GoError PrivateKey
  /-- Go `bip39.NewSeedWithErrorChecking(mnemonic, password)`. -/
  NewSeedWithErrorChecking : Bytes → Bytes → Except GoError Bytes
  /-- Go `hdkeychain.NewMaster(seed, net)` with the private and public version bytes of
  `net`. -/
  NewMaster : Bytes → Bytes → Bytes → Except GoError ExtendedKey
  /-- Go `ExtendedKey.Child(i)`. -/
  Child : ExtendedKey → Nat → Except GoError ExtendedKey
  /-- Go `ExtendedKey.SerializedPrivKey()`. -/
  SerializedPrivKey : ExtendedKey → Except GoError Bytes
  /-- Go-ethereum `crypto.ToECDSA`. -/
  ToECDSA : Bytes → Except GoError PrivateKey
  /-- Go-ethereum `usbwallet.NewLedgerHub()`: an error, or a hub with its `Wallets()`. -/
  NewLedgerHub : Except GoError (List Wallet)
  /-- Go `Wallet.Open(passphrase)`. -/
  Open : Wallet → Bytes → Option GoError
  /-- Go `Wallet.Derive(path, pin)`. -/
  Derive : Wallet → DerivationPath → Bool → Except GoError Account
  /-- Go `Wallet.SignData(account, mimeType, data)`. -/
  SignData : Wallet → Account → Bytes → Bytes → Bytes × Option GoError
  /-- Go-ethereum `crypto.Keccak256`. -/
  Keccak256 : Bytes → Bytes
  /-- Go-ethereum `crypto.Sign(digestHash, prv)`. -/
  Sign : Bytes → PrivateKey → Except GoError Bytes
  /-- Go-ethereum `crypto.PubkeyToAddress`. -/
  PubkeyToAddress : PublicKey → Bytes
  /-- Go-ethereum `Address.String()`. -/
  AddressString : Bytes → Bytes

/-! ## Runs -/

/-- How a computation ends. -/
inductive Outcome (α : Type) where
  /-- It returns a value. -/
  | ok (a : α)
  /-- It ends the process through `log.Fatalf`. -/
  | fatal (f : Fatal)
  /-- It panics. -/
  | panic (p : Panic)
  deriving DecidableEq, Repr

/-- A computation: the events it causes, in order, and how it ends. -/
structure Run (α : Type) where
  /-- The events, oldest first. -/
  trace : List Event
  /-- The end. -/
  out : Outcome α
  deriving DecidableEq, Repr

/-- Sequencing: the second computation runs only if the first returns. -/
def Run.bind {α β : Type} (r : Run α) (f : α → Run β) : Run β :=
  match r.out with
  | .ok a => ⟨r.trace ++ (f a).trace, (f a).out⟩
  | .fatal e => ⟨r.trace, .fatal e⟩
  | .panic p => ⟨r.trace, .panic p⟩

instance : Monad Run where
  pure a := ⟨[], .ok a⟩
  bind := Run.bind

/-- One event. -/
def emit (e : Event) : Run Unit := ⟨[e], .ok ()⟩

/-- Go `log.Fatalf`. -/
def fatalf {α : Type} (f : Fatal) : Run α := ⟨[], .fatal f⟩

/-- A run-time panic. -/
def goPanic {α : Type} (p : Panic) : Run α := ⟨[], .panic p⟩

/-! ## `cmd/sign/main.go` -/

/-- The flag variables of `main` after `flag.Parse()` (lines 24-38), and the remaining
command-line arguments `flag.Args()`. -/
structure Flags where
  /-- Flag `--private-key`. -/
  privateKey : Bytes
  /-- Flag `--ledger`. -/
  ledger : Bool
  /-- Flag `--mnemonic`. -/
  mnemonic : Bytes
  /-- Flag `--hd-paths`. -/
  hdPath : Bytes
  /-- Flag `--prefix`. -/
  prefix_ : Bytes
  /-- Flag `--suffix`. -/
  suffix_ : Bytes
  /-- Flag `--workdir`. -/
  workdir : Bytes
  /-- The arguments after the flags. -/
  args : List Bytes
  deriving DecidableEq, Repr

/-- The default values of the flags (lines 31-37), with no argument. -/
def Flags.defaults : Flags where
  privateKey := []
  ledger := false
  mnemonic := []
  hdPath := ascii "m/44'/60'/0'/0/0"
  prefix_ := ascii "vvvvvvvv"
  suffix_ := ascii "^^^^^^^^"
  workdir := ascii "."
  args := []

/-- Go slice expression `s[lo:hi]` for `lo ≤ hi ≤ len(s)`. -/
def slice (s : Bytes) (lo hi : Nat) : Bytes := (s.take hi).drop lo

/-- Go-ethereum `crypto.RecoveryIDOffset`. -/
def RecoveryIDOffset : Nat := 64

/-- Go-ethereum `accounts.MimetypeTypedData`. -/
def MimetypeTypedData : Bytes := ascii "data/typed"

/-- Lines 229-237: `fakeNetworkParams.HDPrivKeyVersion`. -/
def fakeNetworkParams.HDPrivKeyVersion : Bytes := [0, 0, 0, 0]

/-- Lines 229-237: `fakeNetworkParams.HDPubKeyVersion`. -/
def fakeNetworkParams.HDPubKeyVersion : Bytes := [0, 0, 0, 0]

/-- Lines 108-118: `run` starts the command in `workdir`, echoes its standard output and
returns the captured output with the error of `cmd.Run()`. -/
def run (env : Env) (workdir name : Bytes) (args : List Bytes) :
    Run (Bytes × Option GoError) := do
  emit (.runCommand workdir name args)
  let res := env.cmdRun workdir name args
  emit (.stdout (.subprocess res.1))
  pure (res.1, res.2)

/-- Lines 172-174: `ecdsaSigner`. -/
structure ecdsaSigner where
  /-- The embedded `*ecdsa.PrivateKey`. -/
  PrivateKey : PrivateKey
  deriving DecidableEq, Repr

/-- Lines 189-192: `walletSigner`. -/
structure walletSigner where
  /-- Field `wallet`. -/
  wallet : Wallet
  /-- Field `account`. -/
  account : Account
  deriving DecidableEq, Repr

/-- Lines 167-170: the implementations of interface `signer`. -/
inductive signer where
  /-- An `*ecdsaSigner`. -/
  | ecdsa (s : ecdsaSigner)
  /-- A `*walletSigner`. -/
  | wallet (s : walletSigner)
  deriving DecidableEq, Repr

/-- Lines 176-178: `ecdsaSigner.address`. -/
def ecdsaSigner.address (env : Env) (s : ecdsaSigner) : Bytes :=
  env.PubkeyToAddress s.PrivateKey.PublicKey

/-- Lines 180-187: `ecdsaSigner.sign`. -/
def ecdsaSigner.sign (env : Env) (s : ecdsaSigner) (data : Bytes) :
    Run (Bytes × Option GoError) := do
  emit (.cryptoSign (env.Keccak256 data) s.PrivateKey)
  match env.Sign (env.Keccak256 data) s.PrivateKey with
  | .error err => pure ([], some err)
  | .ok sig =>
    if h : RecoveryIDOffset < sig.length then
      pure (sig.set RecoveryIDOffset ((sig[RecoveryIDOffset] + 27) % 256), none)
    else goPanic .indexOutOfRange

/-- Lines 194-196: `walletSigner.address`. -/
def walletSigner.address (s : walletSigner) : Bytes := s.account.Address

/-- Lines 198-200: `walletSigner.sign`. -/
def walletSigner.sign (env : Env) (s : walletSigner) (data : Bytes) :
    Run (Bytes × Option GoError) := do
  emit (.signData s.wallet s.account MimetypeTypedData data)
  pure (env.SignData s.wallet s.account MimetypeTypedData data)

/-- Method `address` of interface `signer`. -/
def signer.address (env : Env) : signer → Bytes
  | .ecdsa s => s.address env
  | .wallet s => s.address

/-- Method `sign` of interface `signer`. -/
def signer.sign (env : Env) : signer → Bytes → Run (Bytes × Option GoError)
  | .ecdsa s, data => s.sign env data
  | .wallet s, data => s.sign env data

/-- Lines 214-219: the loop of `derivePrivateKey` over the rest of the path. -/
def derivePath (env : Env) : ExtendedKey → DerivationPath → Run (Except GoError ExtendedKey)
  | privKey, [] => pure (.ok privKey)
  | privKey, child :: path => do
    emit (.child privKey child)
    match env.Child privKey child with
    | .error err => pure (.error err)
    | .ok privKey => derivePath env privKey path

/-- Lines 202-227: `derivePrivateKey`; a returned error comes with a nil key. -/
def derivePrivateKey (env : Env) (mnemonic : Bytes) (path : DerivationPath) :
    Run (Except GoError PrivateKey) := do
  emit (.newSeed mnemonic [])
  match env.NewSeedWithErrorChecking mnemonic [] with
  | .error err => pure (.error err)
  | .ok seed =>
    emit (.newMaster seed)
    match env.NewMaster seed fakeNetworkParams.HDPrivKeyVersion
        fakeNetworkParams.HDPubKeyVersion with
    | .error err => pure (.error err)
    | .ok privKey =>
      match ← derivePath env privKey path with
      | .error err => pure (.error err)
      | .ok privKey =>
        emit (.serializedPrivKey privKey)
        match env.SerializedPrivKey privKey with
        | .error err => pure (.error err)
        | .ok rawPrivKey =>
          emit (.toECDSA rawPrivKey)
          pure (env.ToECDSA rawPrivKey)

/-- Lines 142-164: the ledger branch of `createSigner`. -/
def createLedgerSigner (env : Env) (path : DerivationPath) :
    Run (Except GoError signer) := do
  emit .newLedgerHub
  match env.NewLedgerHub with
  | .error err => pure (.error (.errorf .startingLedger err))
  | .ok wallets =>
    emit .wallets
    if wallets.length = 0 then pure (.error .noLedgers)
    else if wallets.length > 1 then pure (.error .multipleLedgers)
    else
      match wallets with
      | [] => goPanic .indexOutOfRange
      | wallet :: _ =>
        emit (.walletOpen wallet [])
        match env.Open wallet [] with
        | some err => pure (.error (.errorf .openingLedger err))
        | none =>
          emit (.walletDerive wallet path true)
          match env.Derive wallet path true with
          | .error err => pure (.error (.errorf .derivingLedgerAccount err))
          | .ok account => pure (.ok (.wallet ⟨wallet, account⟩))

/-- Lines 120-165: `createSigner`; a returned error comes with a nil signer. -/
def createSigner (env : Env) (privateKey mnemonic hdPath : Bytes) :
    Run (Except GoError signer) := do
  emit (.parseDerivationPath hdPath)
  match env.ParseDerivationPath hdPath with
  | .error err => pure (.error err)
  | .ok path =>
    if privateKey ≠ [] then
      emit (.hexToECDSA privateKey)
      match env.HexToECDSA privateKey with
      | .error err => pure (.error (.errorf .parsingPrivateKey err))
      | .ok key => pure (.ok (.ecdsa ⟨key⟩))
    else if mnemonic ≠ [] then
      match ← derivePrivateKey env mnemonic path with
      | .error err => pure (.error (.errorf .derivingKeyFromMnemonic err))
      | .ok key => pure (.ok (.ecdsa ⟨key⟩))
    else createLedgerSigner env path

/-- Lines 40-52 of `main`: the count of selected credential sources. -/
def countOptions (privateKey : Bytes) (ledger : Bool) (mnemonic : Bytes) : Nat :=
  let options := 0
  let options := if privateKey ≠ [] then options + 1 else options
  let options := if ledger then options + 1 else options
  let options := if mnemonic ≠ [] then options + 1 else options
  options

/-- Lines 40-52 of `main`: the credential check. -/
def checkCredentials (fl : Flags) : Run Unit :=
  if countOptions fl.privateKey fl.ledger fl.mnemonic ≠ 1 then fatalf .credentials
  else pure ()

/-- Lines 54-67 of `main`: the input text, from standard input or from a subprocess. -/
def readInput (env : Env) (fl : Flags) : Run Bytes := do
  if fl.args.length = 0 then
    emit .readStdin
    match env.readAllStdin with
    | .error err => fatalf (.readingStdin err)
    | .ok input => pure input
  else
    let res ← run env fl.workdir (fl.args.getD 0 []) (fl.args.drop 1)
    match res.2 with
    | some err => fatalf (.runningProcess err)
    | none =>
      emit (.stdout (.exited (fl.args.getD 0 [])))
      pure res.1

/-- Lines 69-71 of `main`: cutting at the prefix marker. -/
def cutPrefix (input prefix_ : Bytes) : Bytes :=
  let index := Index input prefix_
  if prefix_ ≠ [] ∧ index ≥ 0 then input.drop (index + prefix_.length).toNat else input

/-- Lines 72-74 of `main`: cutting at the suffix marker. -/
def cutSuffix (input suffix_ : Bytes) : Bytes :=
  let index := Index input suffix_
  if suffix_ ≠ [] ∧ index ≥ 0 then input.take index.toNat else input

/-- Lines 69-80 of `main`: digest extraction from the input text. -/
def extractDigest (input prefix_ suffix_ : Bytes) : Run Bytes := do
  let input := cutPrefix input prefix_
  let input := cutSuffix input suffix_
  emit (.stdout .blank)
  let hash := FromHex (TrimSpace input)
  if hash.length ≠ 66 then fatalf (.digestLength input.length input)
  else pure hash

/-- Lines 82-105 of `main`: signer creation, display, signing and report. -/
def signAndReport (env : Env) (fl : Flags) (hash : Bytes) : Run Unit := do
  match ← createSigner env fl.privateKey fl.mnemonic fl.hdPath with
  | .error err => fatalf (.creatingSigner err)
  | .ok s =>
    let domainHash := slice hash 2 34
    let messageHash := slice hash 34 66
    emit (.stdout (.domainHash (EncodeToString domainHash)))
    emit (.stdout (.messageHash (EncodeToString messageHash)))
    if fl.ledger then emit (.stdout .awaitingLedger) else pure ()
    let res ← s.sign env hash
    if fl.ledger then emit (.stdout .done) else pure ()
    match res.2 with
    | some err => fatalf (.signingData err)
    | none =>
      emit (.stdout (.data (EncodeToString hash)))
      emit (.stdout (.signerLine (env.AddressString (s.address env))))
      emit (.stdout (.signature (EncodeToString res.1)))

/-- Lines 23-106: `main`. -/
def main (env : Env) (fl : Flags) : Run Unit := do
  checkCredentials fl
  let input ← readInput env fl
  let hash ← extractDigest input fl.prefix_ fl.suffix_
  signAndReport env fl hash

/-- The events caused by `createSigner` and by the functions it calls: path parsing,
key parsing and derivation, device discovery and session set-up. -/
def Event.ofCreateSigner : Event → Bool
  | .parseDerivationPath _ => true
  | .hexToECDSA _ => true
  | .newSeed _ _ => true
  | .newMaster _ => true
  | .child _ _ => true
  | .serializedPrivKey _ => true
  | .toECDSA _ => true
  | .newLedgerHub => true
  | .wallets => true
  | .walletOpen _ _ => true
  | .walletDerive _ _ _ => true
  | _ => false

/-- A sample environment: input `0x` followed by 66 bytes `ab` between the default
markers, a key library that accepts everything, one ledger, and a signing primitive
that answers 64 bytes `07` and recovery id 1. -/
def Env.sample : Env where
  readAllStdin := .ok (ascii "log vvvvvvvv0x" ++ (List.replicate 132 0x61) ++ ascii "^^^^^^^^ end")
  cmdRun := fun _ _ _ => (ascii "vvvvvvvv0x1901^^^^^^^^", none)
  ParseDerivationPath := fun _ => .ok [0x8000002C, 0x8000003C, 0x80000000, 0, 0]
  HexToECDSA := fun s => .ok ⟨⟨s.length, 2⟩, 1⟩
  NewSeedWithErrorChecking := fun m _ => .ok m
  NewMaster := fun seed _ _ => .ok ⟨seed⟩
  Child := fun k i => .ok ⟨i :: k.ser⟩
  SerializedPrivKey := fun k => .ok k.ser
  ToECDSA := fun d => .ok ⟨⟨d.length, 3⟩, d.length⟩
  NewLedgerHub := .ok [⟨1⟩]
  Open := fun _ _ => none
  Derive := fun w _ _ => .ok ⟨List.replicate 20 w.url, w.url⟩
  SignData := fun _ _ _ data => (data.take 65, none)
  Keccak256 := fun data => data.take 32
  Sign := fun _ _ => .ok (List.replicate 64 7 ++ [1])
  PubkeyToAddress := fun pk => List.replicate 20 pk.X
  AddressString := fun a => a

/-- Sample flags: a raw private key, default markers, and a command to run. -/
def Flags.sampleCommand : Flags :=
  { Flags.defaults with privateKey := ascii "01", args := [ascii "forge"] }

/-- Sample flags: a raw private key, default markers, input from standard input. -/
def Flags.sampleStdin : Flags :=
  { Flags.defaults with privateKey := ascii "01" }

/-- A sample digest: the scheme bytes `19 01` and 64 bytes `ab`. -/
def sampleDigest : Bytes := 0x19 :: 0x01 :: List.replicate 64 0xab

/-- A sample environment whose libraries check their input: only the default path
string parses, and the empty mnemonic and the empty key string are refused. -/
def Env.strict : Env :=
  { Env.sample with
    ParseDerivationPath := fun s =>
      if s = ascii "m/44'/60'/0'/0/0" then .ok [0x8000002C, 0x8000003C, 0x80000000, 0, 0]
      else .error (.lib 1)
    NewSeedWithErrorChecking := fun m _ => if m = [] then .error (.lib 2) else .ok m
    HexToECDSA := fun s => if s = [] then .error (.lib 3) else .ok ⟨⟨s.length, 2⟩, 1⟩ }

/-- The derivation as the specification words it: the seed of the mnemonic with the
empty passphrase, the master key with the null version bytes, the left-to-right fold of
`Child` over the path in the error monad, then the serialised private scalar of the
final key, converted. -/
def derivePrivateKeySpec (env : Env) (mnemonic : Bytes) (path : DerivationPath) :
    Except GoError PrivateKey :=
  match env.NewSeedWithErrorChecking mnemonic [] with
  | .error err => .error err
  | .ok seed =>
    match env.NewMaster seed [0, 0, 0, 0] [0, 0, 0, 0] with
    | .error err => .error err
    | .ok master =>
      match path.foldlM (fun key i => env.Child key i) master with
      | .error err => .error err
      | .ok key =>
        match env.SerializedPrivKey key with
        | .error err => .error err
        | .ok raw => env.ToECDSA raw

/-- The `Child` calls of a left-to-right walk from `key`: one for each index in turn,
up to and including the first one that fails. -/
def childCalls (env : Env) : ExtendedKey → DerivationPath → List Event
  | _, [] => []
  | key, i :: path =>
    .child key i ::
      (match env.Child key i with
       | .error _ => []
       | .ok next => childCalls env next path)

/-- A sample environment in which the raw key string parses to the key that the sample
derivation gives for the mnemonic `abandon` and the sample path. -/
def Env.sameKey : Env :=
  { Env.sample with HexToECDSA := fun _ => .ok ⟨⟨12, 3⟩, 12⟩ }

/-- The result line that an event writes, if it writes one: domain hash, message hash,
full digest, signer address or signature. -/
def Event.resultLine : Event → Option Output
  | .stdout (.domainHash hex) => some (.domainHash hex)
  | .stdout (.messageHash hex) => some (.messageHash hex)
  | .stdout (.data hex) => some (.data hex)
  | .stdout (.signerLine address) => some (.signerLine address)
  | .stdout (.signature hex) => some (.signature hex)
  | _ => none

/-- The result lines written in a trace, in order. -/
def resultLines (tr : List Event) : List Output := tr.filterMap Event.resultLine

/-- The calls that sign: `crypto.Sign` and `Wallet.SignData`. -/
def Event.isSignCall : Event → Bool
  | .cryptoSign _ _ => true
  | .signData _ _ _ _ => true
  | _ => false

/-- The calls of `Wallet.Close`. -/
def Event.isWalletClose : Event → Bool
  | .walletClose _ => true
  | _ => false

/-- The events of device discovery and session set-up. -/
def Event.ofLedger : Event → Bool
  | .newLedgerHub => true
  | .wallets => true
  | .walletOpen _ _ => true
  | .walletDerive _ _ _ => true
  | _ => false

/-- The events of mnemonic key derivation. -/
def Event.ofDerivation : Event → Bool
  | .newSeed _ _ => true
  | .newMaster _ => true
  | .child _ _ => true
  | .serializedPrivKey _ => true
  | .toECDSA _ => true
  | _ => false

/-- An event that writes no result line, signs nothing and closes no wallet. -/
def Event.quiet (e : Event) : Bool :=
  e.resultLine.isNone && !e.isSignCall && !e.isWalletClose

/-- The note that `main` writes around the sign call in ledger mode (lines 92-98). -/
def ledgerNote (ledger : Bool) (o : Output) : List Event :=
  if ledger then [.stdout o] else []

/-- Sample flags: the ledger, default markers, input from standard input. -/
def Flags.sampleLedger : Flags :=
  { Flags.defaults with ledger := true }

/-- A sample environment whose key parser refuses every key string. -/
def Env.badKey : Env :=
  { Env.sample with HexToECDSA := fun _ => .error (.lib 3) }

/-- A string of hex digits: every byte has a value in `reverseHexTable`. -/
def IsHexDigits (h : Bytes) : Prop := ∀ c ∈ h, (fromHexChar c).isSome = true

instance (h : Bytes) : Decidable (IsHexDigits h) := by
  unfold IsHexDigits; infer_instance

/-- The UTF-8 encodings of the code points that `unicode.IsSpace` accepts: the six ASCII
ones, U+0085, U+00A0, U+1680, U+2000 to U+200A, U+2028, U+2029, U+202F, U+205F and
U+3000. -/
def spaceEncodings : List Bytes :=
  [[0x09], [0x0A], [0x0B], [0x0C], [0x0D], [0x20], [0xC2, 0x85], [0xC2, 0xA0],
   [0xE1, 0x9A, 0x80],
   [0xE2, 0x80, 0x80], [0xE2, 0x80, 0x81], [0xE2, 0x80, 0x82], [0xE2, 0x80, 0x83],
   [0xE2, 0x80, 0x84], [0xE2, 0x80, 0x85], [0xE2, 0x80, 0x86], [0xE2, 0x80, 0x87],
   [0xE2, 0x80, 0x88], [0xE2, 0x80, 0x89], [0xE2, 0x80, 0x8A],
   [0xE2, 0x80, 0xA8], [0xE2, 0x80, 0xA9], [0xE2, 0x80, 0xAF], [0xE2, 0x81, 0x9F],
   [0xE3, 0x80, 0x80]]

/-- A white-space string: a concatenation of encoded white-space code points. -/
def IsWhiteSpace (w : Bytes) : Prop :=
  ∃ rs : List Bytes, (∀ r ∈ rs, r ∈ spaceEncodings) ∧ w = rs.flatten

/-- The twelve-word BIP-39 test phrase: eleven times `abandon`, then `about`. Every word
is in the English word list and the checksum is right. -/
def testMnemonic : Bytes :=
  ascii "abandon abandon abandon abandon abandon abandon abandon abandon abandon abandon abandon about"

/-- Twelve times the word `abandon`: every word is in the English word list, and the
checksum is wrong. -/
def badChecksumMnemonic : Bytes :=
  ascii "abandon abandon abandon abandon abandon abandon abandon abandon abandon abandon abandon abandon"

/-- A sample environment whose libraries check their input as the real ones do on the
sample inputs: the only mnemonic that passes validation is the twelve-word test phrase,
and its seed has 64 bytes; a master key needs a seed of 16 to 64 bytes; a private scalar
has 32 bytes; a raw key string is 64 hex digits; only the default path string parses.
One ledger is connected. -/
def Env.checked : Env :=
  { Env.sample with
    ParseDerivationPath := fun s =>
      if s = ascii "m/44'/60'/0'/0/0" then .ok [0x8000002C, 0x8000003C, 0x80000000, 0, 0]
      else .error (.lib 1)
    HexToECDSA := fun s =>
      if s.length = 64 ∧ IsHexDigits s then .ok ⟨⟨1, 2⟩, 1⟩ else .error (.lib 3)
    NewSeedWithErrorChecking := fun m _ =>
      if m = testMnemonic then .ok (List.replicate 64 0x5e) else .error (.lib 2)
    NewMaster := fun seed _ _ =>
      if 16 ≤ seed.length ∧ seed.length ≤ 64 then .ok ⟨seed.take 32⟩ else .error (.lib 6)
    Child := fun k i => .ok ⟨(i % 256 :: k.ser).take 32⟩
    SerializedPrivKey := fun k => .ok k.ser
    ToECDSA := fun d =>
      if d.length = 32 then .ok ⟨⟨d.length, 3⟩, d.length⟩ else .error (.lib 7) }

/-- A sample environment whose connected ledger refuses to sign: `Wallet.SignData`
returns an error, as it does when the request is rejected on the device. -/
def Env.refusingLedger : Env :=
  { Env.sample with SignData := fun _ _ _ _ => ([], some (.lib 5)) }

/-! ## Runs: basic facts -/

@[simp] theorem Run.pure_def {α : Type} (a : α) : (pure a : Run α) = ⟨[], .ok a⟩ := rfl

@[simp] theorem Run.bind_def {α β : Type} (r : Run α) (f : α → Run β) :
    (r >>= f) = Run.bind r f := rfl

@[simp] theorem Run.bind_ok {α β : Type} (tr : List Event) (a : α) (f : α → Run β) :
    Run.bind ⟨tr, .ok a⟩ f = ⟨tr ++ (f a).trace, (f a).out⟩ := rfl

@[simp] theorem Run.bind_fatal {α β : Type} (tr : List Event) (e : Fatal) (f : α → Run β) :
    Run.bind (⟨tr, .fatal e⟩ : Run α) f = ⟨tr, .fatal e⟩ := rfl

@[simp] theorem Run.bind_panic {α β : Type} (tr : List Event) (p : Panic) (f : α → Run β) :
    Run.bind (⟨tr, .panic p⟩ : Run α) f = ⟨tr, .panic p⟩ := rfl

/-! ## The events of each stage -/

theorem readInput_trace (env : Env) (fl : Flags) :
    ∀ e ∈ (readInput env fl).trace, e.ofCreateSigner = false := by
  intro e he
  unfold readInput run at he
  by_cases h0 : fl.args.length = 0
  · simp only [h0, if_true] at he
    cases hr : env.readAllStdin <;> simp [hr, emit, fatalf, Run.bind] at he <;> subst he <;> rfl
  · simp only [h0, if_false] at he
    generalize env.cmdRun fl.workdir (fl.args.getD 0 []) (List.drop 1 fl.args) = res at he
    obtain ⟨out, err⟩ := res
    cases err with
    | none =>
      simp [emit, Run.bind] at he
      rcases he with he | he | he <;> subst he <;> rfl
    | some err =>
      simp [emit, fatalf, Run.bind] at he
      rcases he with he | he <;> subst he <;> rfl

theorem derivePath_trace (env : Env) (path : DerivationPath) :
    ∀ (k : ExtendedKey), ∀ e ∈ (derivePath env k path).trace, e.ofCreateSigner = true := by
  induction path with
  | nil => intro k e he; simp [derivePath] at he
  | cons c path ih =>
    intro k e he
    unfold derivePath at he
    cases hc : env.Child k c with
    | error err => simp [hc, emit, Run.bind] at he; subst he; rfl
    | ok k2 =>
      simp [hc, emit, Run.bind] at he
      rcases he with he | he
      · subst he; rfl
      · exact ih k2 e he

theorem derivePrivateKey_trace (env : Env) (mnemonic : Bytes) (path : DerivationPath) :
    ∀ e ∈ (derivePrivateKey env mnemonic path).trace, e.ofCreateSigner = true := by
  intro e he
  unfold derivePrivateKey at he
  cases h1 : env.NewSeedWithErrorChecking mnemonic [] with
  | error err => simp [h1, emit, Run.bind] at he; subst he; rfl
  | ok seed =>
    cases h2 : env.NewMaster seed fakeNetworkParams.HDPrivKeyVersion
        fakeNetworkParams.HDPubKeyVersion with
    | error err =>
      simp [h1, h2, emit, Run.bind] at he
      rcases he with he | he <;> subst he <;> rfl
    | ok k =>
      have hp := derivePath_trace env path k
      simp only [h1, h2, emit, Run.bind_def, Run.bind_ok] at he
      rcases hd : derivePath env k path with ⟨tr, o⟩
      rw [hd] at he hp
      simp only [List.mem_append, List.mem_singleton, List.mem_cons, List.not_mem_nil, or_false] at he
      rcases he with he | he | he
      · subst he; rfl
      · subst he; rfl
      · cases o with
        | fatal f => simp at he; exact hp e he
        | panic p => simp at he; exact hp e he
        | ok r =>
          cases r with
          | error err => simp at he; exact hp e he
          | ok k2 =>
            cases h3 : env.SerializedPrivKey k2 with
            | error err =>
              simp [h3] at he
              rcases he with he | he
              · exact hp e he
              · subst he; rfl
            | ok raw =>
              simp [h3] at he
              rcases he with he | he | he
              · exact hp e he
              · subst he; rfl
              · subst he; rfl

theorem createLedgerSigner_trace (env : Env) (path : DerivationPath) :
    ∀ e ∈ (createLedgerSigner env path).trace, e.ofCreateSigner = true := by
  intro e he
  unfold createLedgerSigner at he
  cases h1 : env.NewLedgerHub with
  | error err => simp [h1, emit, Run.bind] at he; subst he; rfl
  | ok ws =>
    match ws with
    | [] =>
      simp [h1, emit, Run.bind] at he
      rcases he with he | he <;> subst he <;> rfl
    | [w] =>
      cases h2 : env.Open w [] with
      | some err =>
        simp [h1, h2, emit, Run.bind] at he
        rcases he with he | he | he <;> subst he <;> rfl
      | none =>
        cases h3 : env.Derive w path true <;> simp [h1, h2, h3, emit, Run.bind] at he <;>
          rcases he with he | he | he | he <;> subst he <;> rfl
    | w :: w2 :: ws =>
      simp [h1, emit, Run.bind] at he
      rcases he with he | he <;> subst he <;> rfl

theorem createSigner_trace (env : Env) (privateKey mnemonic hdPath : Bytes) :
    (∃ tr, (createSigner env privateKey mnemonic hdPath).trace
        = Event.parseDerivationPath hdPath :: tr) ∧
    ∀ e ∈ (createSigner env privateKey mnemonic hdPath).trace, e.ofCreateSigner = true := by
  unfold createSigner
  cases h1 : env.ParseDerivationPath hdPath with
  | error err =>
    refine ⟨⟨[], by simp [emit, Run.bind]⟩, ?_⟩
    intro e he
    simp [emit, Run.bind] at he; subst he; rfl
  | ok path =>
    refine ⟨⟨_, rfl⟩, ?_⟩
    intro e he
    simp only [emit, Run.bind_def, Run.bind_ok, List.singleton_append, List.mem_cons] at he
    rcases he with he | he
    · subst he; rfl
    · by_cases hp : privateKey ≠ []
      · rw [if_pos hp] at he
        cases h2 : env.HexToECDSA privateKey <;> simp [h2] at he <;> subst he <;> rfl
      · rw [if_neg hp] at he
        by_cases hm : mnemonic ≠ []
        · rw [if_pos hm] at he
          have hd := derivePrivateKey_trace env mnemonic path
          rcases hr : derivePrivateKey env mnemonic path with ⟨tr, o⟩
          rw [hr] at he hd
          cases o with
          | fatal f => exact hd e (by simpa using he)
          | panic p => exact hd e (by simpa using he)
          | ok r => cases r <;> exact hd e (by simpa using he)
        · rw [if_neg hm] at he
          exact createLedgerSigner_trace env path e he

/-! ## Digest extraction: the length check -/

theorem extractDigest_eq (input prefix_ suffix_ : Bytes) :
    extractDigest input prefix_ suffix_ =
      if (FromHex (TrimSpace (cutSuffix (cutPrefix input prefix_) suffix_))).length ≠ 66 then
        ⟨[.stdout .blank], .fatal (.digestLength
          (cutSuffix (cutPrefix input prefix_) suffix_).length
          (cutSuffix (cutPrefix input prefix_) suffix_))⟩
      else
        ⟨[.stdout .blank], .ok (FromHex (TrimSpace (cutSuffix (cutPrefix input prefix_) suffix_)))⟩ := by
  unfold extractDigest
  by_cases h : (FromHex (TrimSpace (cutSuffix (cutPrefix input prefix_) suffix_))).length ≠ 66
  · simp [h, emit, fatalf, Run.bind]
  · simp [h, emit, fatalf, Run.bind]

theorem main_eq_of_input (env : Env) (fl : Flags) (tr : List Event) (input : Bytes)
    (hc : countOptions fl.privateKey fl.ledger fl.mnemonic = 1)
    (hin : readInput env fl = ⟨tr, .ok input⟩) :
    main env fl = Run.bind ⟨tr, .ok input⟩ (fun input =>
      Run.bind (extractDigest input fl.prefix_ fl.suffix_) (signAndReport env fl)) := by
  unfold main checkCredentials
  simp [hc, hin]

/-- C1: digest extraction is accepted exactly when the hex-decoded byte string has
length 66, and `main` then goes on to `createSigner` with the decoded bytes; for every
other decoded length the run of `main` ends in the fatal error of line 79 right after
the blank line, before any event of `createSigner`. -/
theorem main_accepts_iff_decoded_length_66 (input prefix_ suffix_ : Bytes) :
    ((extractDigest input prefix_ suffix_).out
        = .ok (FromHex (TrimSpace (cutSuffix (cutPrefix input prefix_) suffix_)))
      ↔ (FromHex (TrimSpace (cutSuffix (cutPrefix input prefix_) suffix_))).length = 66) ∧
    ((FromHex (TrimSpace (cutSuffix (cutPrefix input prefix_) suffix_))).length = 66 →
      ∀ (env : Env) (fl : Flags) (tr : List Event),
        countOptions fl.privateKey fl.ledger fl.mnemonic = 1 →
        readInput env fl = ⟨tr, .ok input⟩ → fl.prefix_ = prefix_ → fl.suffix_ = suffix_ →
        main env fl = ⟨tr ++ ([.stdout .blank] ++ (signAndReport env fl
            (FromHex (TrimSpace (cutSuffix (cutPrefix input prefix_) suffix_)))).trace),
          (signAndReport env fl
            (FromHex (TrimSpace (cutSuffix (cutPrefix input prefix_) suffix_)))).out⟩) ∧
    ((FromHex (TrimSpace (cutSuffix (cutPrefix input prefix_) suffix_))).length ≠ 66 →
      ∀ (env : Env) (fl : Flags) (tr : List Event),
        countOptions fl.privateKey fl.ledger fl.mnemonic = 1 →
        readInput env fl = ⟨tr, .ok input⟩ → fl.prefix_ = prefix_ → fl.suffix_ = suffix_ →
        main env fl = ⟨tr ++ [.stdout .blank], .fatal (.digestLength
          (cutSuffix (cutPrefix input prefix_) suffix_).length
          (cutSuffix (cutPrefix input prefix_) suffix_))⟩ ∧
        ∀ e ∈ (main env fl).trace, e.ofCreateSigner = false) := by
  refine ⟨?_, ?_, ?_⟩
  · rw [extractDigest_eq]
    by_cases h : (FromHex (TrimSpace (cutSuffix (cutPrefix input prefix_) suffix_))).length ≠ 66
    · simp [h]
    · simp only [h, if_false, true_iff]
      exact not_not.mp h
  · intro h env fl tr hc hin hp hs
    rw [main_eq_of_input env fl tr input hc hin, hp, hs, Run.bind_ok, extractDigest_eq,
      if_neg (not_not.mpr h), Run.bind_ok]
  · intro h env fl tr hc hin hp hs
    have hm : main env fl = ⟨tr ++ [.stdout .blank], .fatal (.digestLength
          (cutSuffix (cutPrefix input prefix_) suffix_).length
          (cutSuffix (cutPrefix input prefix_) suffix_))⟩ := by
      rw [main_eq_of_input env fl tr input hc hin, hp, hs, Run.bind_ok, extractDigest_eq,
        if_pos h]
      rfl
    refine ⟨hm, ?_⟩
    intro e he
    rw [hm] at he
    simp only [List.mem_append, List.mem_singleton] at he
    rcases he with he | he
    · have := readInput_trace env fl e
      rw [hin] at this
      exact this he
    · subst he; rfl

theorem main_accepts_iff_decoded_length_66_witness :
    main Env.sample Flags.sampleCommand =
      ⟨[.runCommand (ascii ".") (ascii "forge") [],
        .stdout (.subprocess (ascii "vvvvvvvv0x1901^^^^^^^^")),
        .stdout (.exited (ascii "forge"))] ++ [.stdout .blank],
       .fatal (.digestLength 6 (ascii "0x1901"))⟩ :=
  ((main_accepts_iff_decoded_length_66 (ascii "vvvvvvvv0x1901^^^^^^^^") (ascii "vvvvvvvv")
      (ascii "^^^^^^^^")).2.2 (by decide) Env.sample Flags.sampleCommand
      [.runCommand (ascii ".") (ascii "forge") [],
        .stdout (.subprocess (ascii "vvvvvvvv0x1901^^^^^^^^")),
        .stdout (.exited (ascii "forge"))]
      (by decide) (by decide) (by decide) (by decide)).1

/-- C2, evaluation at the failing input: for the text of 66 characters `0` the decoded
byte string has 33 bytes, and the count formatted into the message of line 79 is 66,
the length `len(input)` of the text. -/
theorem extractDigest_reports_text_length :
    (FromHex (TrimSpace (cutSuffix (cutPrefix (List.replicate 66 0x30) (ascii "vvvvvvvv"))
      (ascii "^^^^^^^^")))).length = 33 ∧
    extractDigest (List.replicate 66 0x30) (ascii "vvvvvvvv") (ascii "^^^^^^^^") =
      ⟨[.stdout .blank], .fatal (.digestLength 66 (List.replicate 66 0x30))⟩ := by
  decide

/-! ## Credential selection -/

/-- C8: the credential check of `main` passes exactly when one and only one of
`privateKey != ""`, `ledger`, `mnemonic != ""` holds; in every other case (none, two or
three of them) it ends in the fatal error of line 51. -/
theorem checkCredentials_iff_exactly_one (fl : Flags) :
    ((checkCredentials fl).out = .ok () ↔
      ((fl.privateKey ≠ [] ∧ fl.ledger = false ∧ fl.mnemonic = []) ∨
       (fl.privateKey = [] ∧ fl.ledger = true ∧ fl.mnemonic = []) ∨
       (fl.privateKey = [] ∧ fl.ledger = false ∧ fl.mnemonic ≠ []))) ∧
    ((checkCredentials fl).out = .ok () ∨ checkCredentials fl = ⟨[], .fatal .credentials⟩) := by
  unfold checkCredentials countOptions
  by_cases hp : fl.privateKey = [] <;> by_cases hm : fl.mnemonic = [] <;>
    cases hl : fl.ledger <;> simp [hp, hm, fatalf]

/-- C9: when the count of selected credential sources is not one, `main` ends in the
fatal error of line 51 with no event at all, so with none of the events of
`createSigner`, which are the path parsing that every call starts with, key parsing
and derivation, hub discovery, wallet open and account derivation. -/
theorem main_bad_credentials_before_createSigner (env : Env) (fl : Flags)
    (h : countOptions fl.privateKey fl.ledger fl.mnemonic ≠ 1) :
    main env fl = ⟨[], .fatal .credentials⟩ ∧
    (∀ e ∈ (main env fl).trace, e.ofCreateSigner = false) ∧
    (∀ privateKey mnemonic hdPath : Bytes,
      (∃ tr, (createSigner env privateKey mnemonic hdPath).trace
          = Event.parseDerivationPath hdPath :: tr) ∧
      ∀ e ∈ (createSigner env privateKey mnemonic hdPath).trace, e.ofCreateSigner = true) := by
  have hm : main env fl = ⟨[], .fatal .credentials⟩ := by
    unfold main checkCredentials
    simp [h, fatalf]
  refine ⟨hm, ?_, fun pk mn hd => createSigner_trace env pk mn hd⟩
  intro e he
  rw [hm] at he
  simp at he

theorem main_bad_credentials_before_createSigner_witness :
    main Env.sample { Flags.defaults with mnemonic := ascii "abandon", ledger := true }
      = ⟨[], .fatal .credentials⟩ :=
  (main_bad_credentials_before_createSigner Env.sample
    { Flags.defaults with mnemonic := ascii "abandon", ledger := true } (by decide)).1

/-! ## The recovery byte of `ecdsaSigner.sign` -/

theorem ecdsaSigner_sign_ok (env : Env) (s : ecdsaSigner) (data sig : Bytes)
    (hs : env.Sign (env.Keccak256 data) s.PrivateKey = .ok sig)
    (hlen : RecoveryIDOffset < sig.length) :
    s.sign env data =
      ⟨[.cryptoSign (env.Keccak256 data) s.PrivateKey],
       .ok (sig.set RecoveryIDOffset ((sig.getD RecoveryIDOffset 0 + 27) % 256), none)⟩ := by
  unfold ecdsaSigner.sign
  simp only [emit, Run.bind_def, Run.bind_ok, hs, dif_pos hlen, Run.pure_def,
    List.append_nil]
  rw [List.getD_eq_getElem _ _ hlen]

/-- C10: when the signing primitive succeeds with a 65-byte signature whose byte 64,
the raw recovery id `v`, is 0 or 1, `ecdsaSigner.sign` returns without error a
65-byte signature whose byte 64 is `v + 27`: it is 27 or 28, never 0 or 1, and the
addition does not wrap around at 256. -/
theorem ecdsaSigner_sign_recovery_byte (env : Env) (s : ecdsaSigner) (data sig : Bytes)
    (v : Nat) (hs : env.Sign (env.Keccak256 data) s.PrivateKey = .ok sig)
    (hlen : sig.length = 65) (hv : sig[64]? = some v) (h01 : v = 0 ∨ v = 1) :
    ∃ out : Bytes, (s.sign env data).out = .ok (out, none) ∧ out.length = 65 ∧
      out[64]? = some (v + 27) ∧ (out[64]? = some 27 ∨ out[64]? = some 28) ∧
      out[64]? ≠ some 0 ∧ out[64]? ≠ some 1 ∧ v + 27 < 256 := by
  have hlt : RecoveryIDOffset < sig.length := by rw [hlen]; decide
  have hget : sig.getD RecoveryIDOffset 0 = v := by
    rw [List.getD_eq_getElem?_getD]
    show (sig[64]?).getD 0 = v
    rw [hv]; rfl
  have hmod : (v + 27) % 256 = v + 27 := by
    rcases h01 with h | h <;> subst h <;> rfl
  refine ⟨sig.set RecoveryIDOffset (v + 27), ?_, ?_, ?_, ?_, ?_, ?_, ?_⟩
  · rw [ecdsaSigner_sign_ok env s data sig hs hlt, hget, hmod]
  · rw [List.length_set, hlen]
  · show (sig.set 64 (v + 27))[64]? = some (v + 27)
    rw [List.getElem?_set_self (by rw [hlen]; decide)]
  · show (sig.set 64 (v + 27))[64]? = some 27 ∨ (sig.set 64 (v + 27))[64]? = some 28
    rw [List.getElem?_set_self (by rw [hlen]; decide)]
    rcases h01 with h | h <;> subst h <;> simp
  · show (sig.set 64 (v + 27))[64]? ≠ some 0
    rw [List.getElem?_set_self (by rw [hlen]; decide)]
    simp
  · show (sig.set 64 (v + 27))[64]? ≠ some 1
    rw [List.getElem?_set_self (by rw [hlen]; decide)]
    simp
  · rcases h01 with h | h <;> subst h <;> decide

theorem ecdsaSigner_sign_recovery_byte_witness :
    ∃ out : Bytes, (ecdsaSigner.sign Env.sample ⟨⟨⟨2, 2⟩, 1⟩⟩ (ascii "digest")).out
        = .ok (out, none) ∧ out.length = 65 ∧
      out[64]? = some (1 + 27) ∧ (out[64]? = some 27 ∨ out[64]? = some 28) ∧
      out[64]? ≠ some 0 ∧ out[64]? ≠ some 1 ∧ 1 + 27 < 256 :=
  ecdsaSigner_sign_recovery_byte Env.sample ⟨⟨⟨2, 2⟩, 1⟩⟩ (ascii "digest")
    (List.replicate 64 7 ++ [1]) 1 rfl (by decide) (by decide) (Or.inr rfl)

/-! ## The components of the digest -/

theorem slice_getElem? (s : Bytes) (lo hi i : Nat) (h : lo + i < hi) :
    (slice s lo hi)[i]? = s[lo + i]? := by
  unfold slice
  rw [List.getElem?_drop, List.getElem?_take_of_lt h]

theorem slice_append_slice (s : Bytes) (a b c : Nat) (hab : a ≤ b) (hbc : b ≤ c) :
    slice s a b ++ slice s b c = slice s a c := by
  unfold slice
  have h1 : List.take b s = List.take b (List.take c s) := by
    rw [List.take_take, Nat.min_eq_left hbc]
  rw [h1]
  generalize List.take c s = t
  have h2 : List.drop b t = List.drop (b - a) (List.drop a t) := by
    rw [List.drop_drop]; congr 1; omega
  have h3 : List.drop a (List.take b t) = List.take (b - a) (List.drop a t) := by
    rw [List.drop_take]
  rw [h2, h3, List.take_append_drop]

/-- C4: for a digest `hash` of 66 bytes, the domain hash that `main` displays is
`hash[2:34]` and the message hash is `hash[34:66]`, byte for byte, each of 32 bytes,
and `hash[0:2]`, the domain hash and the message hash concatenated give `hash` back. -/
theorem digest_split_round_trip (env : Env) (fl : Flags) (hash : Bytes)
    (h : hash.length = 66) :
    (slice hash 2 34).length = 32 ∧ (slice hash 34 66).length = 32 ∧
    (∀ i, i < 32 → (slice hash 2 34)[i]? = hash[2 + i]?) ∧
    (∀ i, i < 32 → (slice hash 34 66)[i]? = hash[34 + i]?) ∧
    slice hash 0 2 ++ slice hash 2 34 ++ slice hash 34 66 = hash ∧
    (∀ (s : signer) (tr : List Event),
      createSigner env fl.privateKey fl.mnemonic fl.hdPath = ⟨tr, .ok (.ok s)⟩ →
      ∃ rest, (signAndReport env fl hash).trace =
        tr ++ [.stdout (.domainHash (EncodeToString (slice hash 2 34))),
               .stdout (.messageHash (EncodeToString (slice hash 34 66)))] ++ rest) := by
  refine ⟨?_, ?_, ?_, ?_, ?_, ?_⟩
  · simp [slice, h]
  · simp [slice, h]
  · intro i hi
    exact slice_getElem? hash 2 34 i (by omega)
  · intro i hi
    exact slice_getElem? hash 34 66 i (by omega)
  · rw [slice_append_slice hash 0 2 34 (by omega) (by omega),
      slice_append_slice hash 0 34 66 (by omega) (by omega)]
    simp [slice, ← h]
  · intro s tr hs
    unfold signAndReport
    rw [Run.bind_def, hs, Run.bind_ok]
    simp only [emit, Run.bind_def, Run.bind_ok, List.singleton_append, List.append_assoc,
      List.cons_append, List.nil_append]
    exact ⟨_, rfl⟩

theorem digest_split_round_trip_witness :
    slice (List.range 66) 0 2 ++ slice (List.range 66) 2 34 ++ slice (List.range 66) 34 66
      = List.range 66 :=
  (digest_split_round_trip Env.sample Flags.sampleStdin (List.range 66) (by decide)).2.2.2.2.1

/-! ## `strings.Index`: the first occurrence -/

theorem indexFrom_some (substr : Bytes) :
    ∀ (s : Bytes) (i j : Nat), indexFrom substr s i = some j →
      ∃ a b, s = a ++ substr ++ b ∧ j = i + a.length ∧
        ∀ a' b', s = a' ++ substr ++ b' → a.length ≤ a'.length := by
  intro s
  induction s with
  | nil =>
    intro i j h
    unfold indexFrom at h
    by_cases hs : substr = []
    · rw [if_pos hs] at h
      refine ⟨[], [], by simp [hs], by simpa using (Option.some.inj h).symm, ?_⟩
      intro a' b' _; simp
    · rw [if_neg hs] at h; cases h
  | cons c rest ih =>
    intro i j h
    unfold indexFrom at h
    by_cases hp : substr.isPrefixOf (c :: rest) = true
    · rw [if_pos hp] at h
      obtain ⟨t, ht⟩ := List.isPrefixOf_iff_prefix.mp hp
      refine ⟨[], t, by simp [ht], by simpa using (Option.some.inj h).symm, ?_⟩
      intro a' b' _; simp
    · rw [if_neg hp] at h
      obtain ⟨a, b, hab, hj, hmin⟩ := ih (i + 1) j h
      refine ⟨c :: a, b, by simp [hab], by simp [hj]; omega, ?_⟩
      intro a' b' h'
      cases a' with
      | nil =>
        exfalso
        apply hp
        apply List.isPrefixOf_iff_prefix.mpr
        exact ⟨b', by simpa using h'.symm⟩
      | cons c' a'' =>
        simp only [List.cons_append, List.cons.injEq] at h'
        have := hmin a'' b' h'.2
        simp only [List.length_cons]
        omega

theorem indexFrom_none (substr : Bytes) :
    ∀ (s : Bytes) (i : Nat), indexFrom substr s i = none →
      ¬ ∃ a b, s = a ++ substr ++ b := by
  intro s
  induction s with
  | nil =>
    intro i h
    unfold indexFrom at h
    by_cases hs : substr = []
    · rw [if_pos hs] at h; cases h
    · rintro ⟨a, b, hab⟩
      apply hs
      have := congrArg List.length hab
      simp only [List.length_nil, List.length_append] at this
      exact List.length_eq_zero.mp (by omega)
  | cons c rest ih =>
    intro i h
    unfold indexFrom at h
    by_cases hp : substr.isPrefixOf (c :: rest) = true
    · rw [if_pos hp] at h; cases h
    · rw [if_neg hp] at h
      rintro ⟨a, b, hab⟩
      cases a with
      | nil =>
        apply hp
        apply List.isPrefixOf_iff_prefix.mpr
        exact ⟨b, by simpa using hab.symm⟩
      | cons c' a' =>
        simp only [List.cons_append, List.cons.injEq] at hab
        exact ih (i + 1) h ⟨a', b, hab.2⟩

theorem Index_found (s substr : Bytes) (h : ∃ a b, s = a ++ substr ++ b) :
    ∃ a b, s = a ++ substr ++ b ∧ Index s substr = (a.length : Int) ∧
      ∀ a' b', s = a' ++ substr ++ b' → a.length ≤ a'.length := by
  unfold Index
  cases hi : indexFrom substr s 0 with
  | none => exact absurd h (indexFrom_none substr s 0 hi)
  | some j =>
    obtain ⟨a, b, hab, hj, hmin⟩ := indexFrom_some substr s 0 j hi
    refine ⟨a, b, hab, ?_, hmin⟩
    simp [hj]

theorem Index_absent (s substr : Bytes) (h : ¬ ∃ a b, s = a ++ substr ++ b) :
    Index s substr = -1 := by
  unfold Index
  cases hi : indexFrom substr s 0 with
  | none => rfl
  | some j =>
    obtain ⟨a, b, hab, _, _⟩ := indexFrom_some substr s 0 j hi
    exact absurd ⟨a, b, hab⟩ h

theorem Index_of_first (a substr b : Bytes)
    (hmin : ∀ a' b', a ++ substr ++ b = a' ++ substr ++ b' → a.length ≤ a'.length) :
    Index (a ++ substr ++ b) substr = (a.length : Int) := by
  obtain ⟨a0, b0, hab, hidx, hmin0⟩ := Index_found (a ++ substr ++ b) substr ⟨a, b, rfl⟩
  have h1 := hmin a0 b0 hab
  have h2 := hmin0 a b rfl
  rw [hidx]
  congr 1
  omega

/-- An occurrence of a marker after a text that lacks the first byte of the marker is
the first occurrence. -/
theorem first_of_not_mem (a b p : Bytes) (c : Nat) (hc : c ∉ a) :
    ∀ a' b', a ++ (c :: p) ++ b = a' ++ (c :: p) ++ b' → a.length ≤ a'.length := by
  intro a' b' h
  by_contra hlt
  have hlt : a'.length < a.length := by omega
  have h1 : (a ++ (c :: p) ++ b)[a'.length]? = a[a'.length]? := by
    rw [List.append_assoc, List.getElem?_append_left hlt]
  have h2 : (a' ++ (c :: p) ++ b')[a'.length]? = some c := by
    rw [List.append_assoc, List.getElem?_append_right (le_refl _)]
    simp
  rw [h, h2] at h1
  apply hc
  have := List.getElem?_eq_some_iff.mp h1.symm
  obtain ⟨hl, he⟩ := this
  rw [← he]
  exact List.getElem_mem hl

/-! ## Marker cutting -/

theorem cutPrefix_of_first (a p b : Bytes) (hp : p ≠ [])
    (hmin : ∀ a' b', a ++ p ++ b = a' ++ p ++ b' → a.length ≤ a'.length) :
    cutPrefix (a ++ p ++ b) p = b := by
  unfold cutPrefix
  rw [Index_of_first a p b hmin]
  have hc : p ≠ [] ∧ (a.length : Int) ≥ 0 := ⟨hp, by omega⟩
  rw [if_pos hc]
  have : ((a.length : Int) + (p.length : Int)).toNat = (a ++ p).length := by
    rw [List.length_append]; omega
  rw [this, List.drop_left]

theorem cutSuffix_of_first (a s b : Bytes) (hs : s ≠ [])
    (hmin : ∀ a' b', a ++ s ++ b = a' ++ s ++ b' → a.length ≤ a'.length) :
    cutSuffix (a ++ s ++ b) s = a := by
  unfold cutSuffix
  rw [Index_of_first a s b hmin]
  have hc : s ≠ [] ∧ (a.length : Int) ≥ 0 := ⟨hs, by omega⟩
  rw [if_pos hc, Int.toNat_ofNat, List.append_assoc, List.take_left]

/-- C5: if the prefix marker `p` is non-empty and occurs in the text `t`, the text
left by lines 69-71 is the part of `t` after the first occurrence of `p`; if `p` is
empty or does not occur in `t`, the text is `t` unchanged. The step is a total
function: it raises no failure. -/
theorem cutPrefix_first_occurrence (t p : Bytes) :
    (p ≠ [] → (∃ a b, t = a ++ p ++ b) →
      ∃ a b, t = a ++ p ++ b ∧ (∀ a' b', t = a' ++ p ++ b' → a.length ≤ a'.length) ∧
        cutPrefix t p = b) ∧
    ((p = [] ∨ ¬ ∃ a b, t = a ++ p ++ b) → cutPrefix t p = t) := by
  refine ⟨?_, ?_⟩
  · intro hp hocc
    obtain ⟨a, b, hab, _, hmin⟩ := Index_found t p hocc
    refine ⟨a, b, hab, hmin, ?_⟩
    subst hab
    exact cutPrefix_of_first a p b hp hmin
  · intro h
    unfold cutPrefix
    rcases h with h | h
    · simp [h]
    · rw [Index_absent t p h]
      simp

theorem cutPrefix_first_occurrence_witness :
    ∃ a b, ascii "log vv 0x12 vv ^^" = a ++ ascii "vv" ++ b ∧
      (∀ a' b', ascii "log vv 0x12 vv ^^" = a' ++ ascii "vv" ++ b' → a.length ≤ a'.length) ∧
      cutPrefix (ascii "log vv 0x12 vv ^^") (ascii "vv") = b :=
  (cutPrefix_first_occurrence (ascii "log vv 0x12 vv ^^") (ascii "vv")).1 (by decide)
    ⟨ascii "log ", ascii " 0x12 vv ^^", by decide⟩

/-- C6: if the suffix marker `s` is non-empty and occurs in the text `r` left by the
prefix cut, the result of lines 72-74 is the part of `r` before the first occurrence of
`s` in `r`; if `s` is empty or does not occur in `r`, the result is `r`. The search is
in `r` alone: for a text `n ++ p ++ r` cut at the first occurrence of the prefix
marker `p`, the result is that of `r`, whatever `n` holds. -/
theorem cutSuffix_first_occurrence (r s : Bytes) :
    (s ≠ [] → (∃ a b, r = a ++ s ++ b) →
      ∃ a b, r = a ++ s ++ b ∧ (∀ a' b', r = a' ++ s ++ b' → a.length ≤ a'.length) ∧
        cutSuffix r s = a) ∧
    ((s = [] ∨ ¬ ∃ a b, r = a ++ s ++ b) → cutSuffix r s = r) ∧
    (∀ n p : Bytes, p ≠ [] →
      (∀ a' b', n ++ p ++ r = a' ++ p ++ b' → n.length ≤ a'.length) →
      cutSuffix (cutPrefix (n ++ p ++ r) p) s = cutSuffix r s) := by
  refine ⟨?_, ?_, ?_⟩
  · intro hs hocc
    obtain ⟨a, b, hab, _, hmin⟩ := Index_found r s hocc
    refine ⟨a, b, hab, hmin, ?_⟩
    subst hab
    exact cutSuffix_of_first a s b hs hmin
  · intro h
    unfold cutSuffix
    rcases h with h | h
    · simp [h]
    · rw [Index_absent r s h]
      simp
  · intro n p hp hmin
    rw [cutPrefix_of_first n p r hp hmin]

theorem cutSuffix_first_occurrence_witness :
    cutSuffix (cutPrefix (ascii "a ^^ " ++ ascii "vv" ++ ascii " 0x12 ^^ b ^^") (ascii "vv"))
        (ascii "^^")
      = cutSuffix (ascii " 0x12 ^^ b ^^") (ascii "^^") :=
  (cutSuffix_first_occurrence (ascii " 0x12 ^^ b ^^") (ascii "^^")).2.2 (ascii "a ^^ ")
    (ascii "vv") (by decide) (first_of_not_mem (ascii "a ^^ ") _ [118] 118 (by decide))


/-! ## Hexadecimal decoding -/

theorem FromHex_eq (s : Bytes) : FromHex s = Hex2Bytes (fromHexDigits s) := rfl

set_option maxRecDepth 100000 in
theorem hex_byte_round_trip :
    ∀ v, v < 256 → fromHexChar (hextable (v >>> 4)) = some (v >>> 4) ∧
      fromHexChar (hextable (v &&& 0x0f)) = some (v &&& 0x0f) ∧
      (((v >>> 4) <<< 4) ||| (v &&& 0x0f)) % 256 = v := by
  decide

theorem DecodeString_EncodeToString :
    ∀ (d : Bytes), IsBytes d → DecodeString (EncodeToString d) = (d, none)
  | [], _ => rfl
  | v :: rest, h => by
    have hv : v < 256 := h v (List.mem_cons_self _ _)
    have hrest : IsBytes rest := fun b hb => h b (List.mem_cons_of_mem _ hb)
    obtain ⟨h1, h2, h3⟩ := hex_byte_round_trip v hv
    unfold EncodeToString DecodeString
    rw [h1, h2]
    simp only [DecodeString_EncodeToString rest hrest, h3]

theorem EncodeToString_length : ∀ (d : Bytes), (EncodeToString d).length = 2 * d.length
  | [] => rfl
  | v :: rest => by
    unfold EncodeToString
    simp only [List.length_cons, EncodeToString_length rest]
    omega

theorem hextable_ne (n c : Nat) (h1 : c < 0x30 ∨ (0x39 < c ∧ c < 0x61)) : hextable n ≠ c := by
  unfold hextable
  split <;> omega

theorem EncodeToString_ne (c : Nat) (h1 : c < 0x30 ∨ (0x39 < c ∧ c < 0x61)) :
    ∀ (d : Bytes), c ∉ EncodeToString d
  | [] => by simp [EncodeToString]
  | v :: rest => by
    unfold EncodeToString
    simp only [List.mem_cons, not_or]
    exact ⟨(hextable_ne _ c h1).symm, (hextable_ne _ c h1).symm, EncodeToString_ne c h1 rest⟩

theorem hextable_ascii :
    ∀ n, n < 16 → hextable n < RuneSelf ∧ asciiSpace (hextable n) = false := by
  decide

set_option maxRecDepth 100000 in
theorem nibbles_lt : ∀ v, v < 256 → v >>> 4 < 16 ∧ v &&& 0x0f < 16 := by
  decide

theorem EncodeToString_ascii :
    ∀ (d : Bytes), IsBytes d → ∀ x ∈ EncodeToString d, x < RuneSelf ∧ asciiSpace x = false
  | [], _ => by simp [EncodeToString]
  | v :: rest, h => by
    have hv : v < 256 := h v (List.mem_cons_self _ _)
    have hrest : IsBytes rest := fun b hb => h b (List.mem_cons_of_mem _ hb)
    obtain ⟨h1, h2⟩ := nibbles_lt v hv
    intro x hx
    unfold EncodeToString at hx
    simp only [List.mem_cons] at hx
    rcases hx with hx | hx | hx
    · subst hx; exact hextable_ascii _ h1
    · subst hx; exact hextable_ascii _ h2
    · exact EncodeToString_ascii rest hrest x hx

/-! ## `strings.TrimSpace` on text without white space at its ends -/

theorem TrimSpace_ascii (s : Bytes) (h : ∀ x ∈ s, x < RuneSelf ∧ asciiSpace x = false) :
    TrimSpace s = s := by
  cases s with
  | nil => rfl
  | cons c s =>
    have hc := h c (List.mem_cons_self _ _)
    unfold TrimSpace trimSpaceStart
    rw [if_neg (by omega), hc.2]
    simp only [Bool.false_eq_true, if_false, List.length_cons]
    unfold trimSpaceStop
    have hl : (c :: s).getD s.length 0 ∈ c :: s := by
      rw [List.getD_eq_getElem _ _ (by simp)]
      exact List.getElem_mem _
    have hlast := h _ hl
    simp only []
    rw [if_neg (by omega), hlast.2]
    simp only [Bool.false_eq_true, if_false]
    exact List.take_of_length_le (by simp)

/-! ## End-to-end extraction -/

theorem fromHexDigits_0x (h : Bytes) (heven : h.length % 2 = 0) :
    fromHexDigits (0x30 :: 0x78 :: h) = h := by
  have hp : has0xPrefix (0x30 :: 0x78 :: h) = true := by simp [has0xPrefix]
  unfold fromHexDigits
  simp only [hp, if_true, List.drop_succ_cons, List.drop_zero]
  rw [if_neg (by omega)]

theorem FromHex_0x_EncodeToString (d : Bytes) (h : IsBytes d) :
    FromHex (ascii "0x" ++ EncodeToString d) = d := by
  have h0 : ascii "0x" ++ EncodeToString d = 0x30 :: 0x78 :: EncodeToString d := rfl
  rw [h0, FromHex_eq, fromHexDigits_0x _ (by rw [EncodeToString_length]; omega)]
  unfold Hex2Bytes
  rw [DecodeString_EncodeToString d h]

/-- C7: with the default markers, for every 66-byte value `d` and all noise texts `n1`,
`n2` such that the first occurrence of `vvvvvvvv` in the text is the one that follows
`n1`, the text `n1 ++ "vvvvvvvv" ++ "0x" ++ hex(d) ++ "^^^^^^^^" ++ n2` extracts `d`. -/
theorem extractDigest_end_to_end (d n1 n2 : Bytes) (hd : d.length = 66) (hb : IsBytes d)
    (hfirst : ∀ a' b',
      n1 ++ ascii "vvvvvvvv" ++ ascii "0x" ++ EncodeToString d ++ ascii "^^^^^^^^" ++ n2
        = a' ++ ascii "vvvvvvvv" ++ b' → n1.length ≤ a'.length) :
    extractDigest
        (n1 ++ ascii "vvvvvvvv" ++ ascii "0x" ++ EncodeToString d ++ ascii "^^^^^^^^" ++ n2)
        Flags.defaults.prefix_ Flags.defaults.suffix_
      = ⟨[.stdout .blank], .ok d⟩ := by
  have hassoc : n1 ++ ascii "vvvvvvvv" ++ ascii "0x" ++ EncodeToString d ++ ascii "^^^^^^^^" ++ n2
      = n1 ++ ascii "vvvvvvvv" ++ ((ascii "0x" ++ EncodeToString d) ++ ascii "^^^^^^^^" ++ n2) := by
    simp only [List.append_assoc]
  have hpre : Flags.defaults.prefix_ = ascii "vvvvvvvv" := rfl
  have hsuf : Flags.defaults.suffix_ = ascii "^^^^^^^^" := rfl
  rw [hassoc] at hfirst
  have h1 : cutPrefix (n1 ++ ascii "vvvvvvvv" ++
      ((ascii "0x" ++ EncodeToString d) ++ ascii "^^^^^^^^" ++ n2)) (ascii "vvvvvvvv")
      = (ascii "0x" ++ EncodeToString d) ++ ascii "^^^^^^^^" ++ n2 :=
    cutPrefix_of_first n1 _ _ (by decide) hfirst
  have hnot : (94 : Nat) ∉ ascii "0x" ++ EncodeToString d := by
    have h0 : ascii "0x" ++ EncodeToString d = 0x30 :: 0x78 :: EncodeToString d := rfl
    rw [h0]
    simp only [List.mem_cons, not_or]
    exact ⟨by decide, by decide, EncodeToString_ne 94 (Or.inr (by decide)) d⟩
  have h2 : cutSuffix ((ascii "0x" ++ EncodeToString d) ++ ascii "^^^^^^^^" ++ n2)
      (ascii "^^^^^^^^") = ascii "0x" ++ EncodeToString d :=
    cutSuffix_of_first _ _ n2 (by decide)
      (first_of_not_mem (ascii "0x" ++ EncodeToString d) n2 (List.replicate 7 94) 94 hnot)
  have h3 : TrimSpace (ascii "0x" ++ EncodeToString d) = ascii "0x" ++ EncodeToString d := by
    apply TrimSpace_ascii
    intro x hx
    have h0 : ascii "0x" ++ EncodeToString d = 0x30 :: 0x78 :: EncodeToString d := rfl
    rw [h0] at hx
    simp only [List.mem_cons] at hx
    rcases hx with hx | hx | hx
    · subst hx; decide
    · subst hx; decide
    · exact EncodeToString_ascii d hb x hx
  rw [extractDigest_eq, hassoc, hpre, hsuf, h1, h2, h3, FromHex_0x_EncodeToString d hb,
    if_neg (by rw [hd]; simp)]

theorem extractDigest_end_to_end_witness :
    extractDigest
        (ascii "noise " ++ ascii "vvvvvvvv" ++ ascii "0x" ++ EncodeToString sampleDigest
          ++ ascii "^^^^^^^^" ++ ascii "noise")
        Flags.defaults.prefix_ Flags.defaults.suffix_
      = ⟨[.stdout .blank], .ok sampleDigest⟩ :=
  extractDigest_end_to_end sampleDigest (ascii "noise ") (ascii "noise") (by decide)
    (by decide)
    (fun a' b' h => first_of_not_mem (ascii "noise ")
      (ascii "0x" ++ EncodeToString sampleDigest ++ ascii "^^^^^^^^" ++ ascii "noise")
      (List.replicate 7 118) 118 (by decide) a' b' ((by decide :
        ascii "noise " ++ 118 :: List.replicate 7 118
          ++ (ascii "0x" ++ EncodeToString sampleDigest ++ ascii "^^^^^^^^" ++ ascii "noise")
        = ascii "noise " ++ ascii "vvvvvvvv" ++ ascii "0x" ++ EncodeToString sampleDigest
          ++ ascii "^^^^^^^^" ++ ascii "noise").trans h))

/-! ## Text that is not hexadecimal -/

theorem DecodeString_length_first_non_hex :
    ∀ (h : Bytes) (i c : Nat), h[i]? = some c → fromHexChar c = none →
      IsHexDigits (h.take i) → (DecodeString h).1.length = i / 2
  | [], i, c, hi, _, _ => by simp at hi
  | [p], i, c, hi, _, _ => by
    have h0 : i = 0 := by
      cases i with
      | zero => rfl
      | succ n => simp at hi
    subst h0
    unfold DecodeString
    cases fromHexChar p <;> simp
  | p :: q :: rest, i, c, hi, hc, hb => by
    unfold DecodeString
    match i, hi, hb with
    | 0, hi, _ =>
      simp at hi; subst hi; rw [hc]; simp
    | 1, hi, hb =>
      simp at hi; subst hi
      have hp : (fromHexChar p).isSome = true := hb p (by simp)
      cases hp' : fromHexChar p with
      | none => rw [hp'] at hp; cases hp
      | some a => rw [hc]; simp
    | i + 2, hi, hb =>
      have hp : (fromHexChar p).isSome = true := hb p (by simp)
      have hq : (fromHexChar q).isSome = true := hb q (by simp)
      have hrest : IsHexDigits (rest.take i) := fun x hx => hb x (by simp [hx])
      have ih := DecodeString_length_first_non_hex rest i c (by simpa using hi) hc hrest
      cases hp' : fromHexChar p with
      | none => rw [hp'] at hp; cases hp
      | some a =>
        cases hq' : fromHexChar q with
        | none => rw [hq'] at hq; cases hq
        | some b =>
          simp only [List.length_cons, ih]
          omega

set_option maxRecDepth 1000000 in
/-- C3: the text `0x`, 132 digits `0`, `zz` is not a hexadecimal string (the digit string
that is decoded has a character that is no hex digit, and `hex.DecodeString` reports the
invalid byte `z`), and digest extraction does not fail on it: it returns the 66 zero
bytes decoded before the error as the digest. -/
theorem extractDigest_accepts_trailing_non_hex :
    (∃ c ∈ fromHexDigits (TrimSpace (cutSuffix (cutPrefix
        (ascii "0x" ++ List.replicate 132 0x30 ++ ascii "zz") (ascii "vvvvvvvv"))
        (ascii "^^^^^^^^"))), fromHexChar c = none) ∧
    (DecodeString (fromHexDigits (TrimSpace (cutSuffix (cutPrefix
        (ascii "0x" ++ List.replicate 132 0x30 ++ ascii "zz") (ascii "vvvvvvvv"))
        (ascii "^^^^^^^^"))))).2 = some (.invalidByte 0x7a) ∧
    extractDigest (ascii "0x" ++ List.replicate 132 0x30 ++ ascii "zz") (ascii "vvvvvvvv")
        (ascii "^^^^^^^^")
      = ⟨[.stdout .blank], .ok (List.replicate 66 0)⟩ := by
  refine ⟨⟨0x7a, by decide, by decide⟩, by decide, by decide⟩

/-- The extent of the acceptance of text that is not hexadecimal. Let the digit string
be what `common.FromHex` decodes (the trimmed remainder without a leading `0x`,
left-padded with `0` when its length is odd), and let its first character that is not a
hex digit be at index `i`. Then the decoded value has `i / 2` bytes: digest extraction
returns it as the digest when `i` is 132 or 133, and fails with the fatal error of
line 79 for every other `i`. -/
theorem extractDigest_first_non_hex (input prefix_ suffix_ : Bytes) (i c : Nat)
    (hc : (fromHexDigits (TrimSpace (cutSuffix (cutPrefix input prefix_) suffix_)))[i]?
      = some c)
    (hx : fromHexChar c = none)
    (hb : IsHexDigits
      ((fromHexDigits (TrimSpace (cutSuffix (cutPrefix input prefix_) suffix_))).take i)) :
    (FromHex (TrimSpace (cutSuffix (cutPrefix input prefix_) suffix_))).length = i / 2 ∧
    (i = 132 ∨ i = 133 →
      extractDigest input prefix_ suffix_ =
        ⟨[.stdout .blank],
         .ok (FromHex (TrimSpace (cutSuffix (cutPrefix input prefix_) suffix_)))⟩) ∧
    (i ≠ 132 → i ≠ 133 →
      extractDigest input prefix_ suffix_ =
        ⟨[.stdout .blank], .fatal (.digestLength
          (cutSuffix (cutPrefix input prefix_) suffix_).length
          (cutSuffix (cutPrefix input prefix_) suffix_))⟩) := by
  have hlen : (FromHex (TrimSpace (cutSuffix (cutPrefix input prefix_) suffix_))).length
      = i / 2 := by
    rw [FromHex_eq]
    unfold Hex2Bytes
    exact DecodeString_length_first_non_hex _ i c hc hx hb
  refine ⟨hlen, ?_, ?_⟩
  · intro hi
    rw [extractDigest_eq, if_neg]
    rw [hlen]
    omega
  · intro h1 h2
    rw [extractDigest_eq, if_pos]
    rw [hlen]
    omega

set_option maxRecDepth 1000000 in
theorem extractDigest_first_non_hex_witness :
    extractDigest (ascii "log vvvvvvvv 0x19z1 ^^^^^^^^ end") (ascii "vvvvvvvv")
        (ascii "^^^^^^^^")
      = ⟨[.stdout .blank], .fatal (.digestLength (ascii " 0x19z1 ").length
          (ascii " 0x19z1 "))⟩ ∧
    extractDigest (ascii "0x" ++ List.replicate 134 0x30 ++ ascii "zz") (ascii "vvvvvvvv")
        (ascii "^^^^^^^^")
      = ⟨[.stdout .blank], .fatal (.digestLength 138
          (ascii "0x" ++ List.replicate 134 0x30 ++ ascii "zz"))⟩ ∧
    extractDigest (ascii "0x" ++ List.replicate 133 0x30 ++ ascii "z") (ascii "vvvvvvvv")
        (ascii "^^^^^^^^")
      = ⟨[.stdout .blank], .ok (List.replicate 66 0)⟩ :=
  ⟨(extractDigest_first_non_hex (ascii "log vvvvvvvv 0x19z1 ^^^^^^^^ end")
      (ascii "vvvvvvvv") (ascii "^^^^^^^^") 2 0x7a (by decide) (by decide) (by decide)).2.2
      (by decide) (by decide),
   (extractDigest_first_non_hex (ascii "0x" ++ List.replicate 134 0x30 ++ ascii "zz")
      (ascii "vvvvvvvv") (ascii "^^^^^^^^") 134 0x7a (by decide) (by decide) (by decide)).2.2
      (by decide) (by decide),
   ((extractDigest_first_non_hex (ascii "0x" ++ List.replicate 133 0x30 ++ ascii "z")
      (ascii "vvvvvvvv") (ascii "^^^^^^^^") 133 0x7a (by decide) (by decide) (by decide)).2.1
      (Or.inr rfl)).trans (by decide)⟩

/-! ## The signature bytes of `ecdsaSigner.sign` -/

/-- C11: when the signing primitive succeeds with 65 bytes, `ecdsaSigner.sign` makes one
call of the primitive, with the held key and `Keccak256` of the whole data, and returns
without error 65 bytes that agree with the primitive's bytes at every index but 64; in
particular the first 64 bytes (r and s) are the primitive's, and byte 64 differs. -/
theorem ecdsaSigner_sign_keeps_r_s (env : Env) (s : ecdsaSigner) (data sig : Bytes)
    (hs : env.Sign (env.Keccak256 data) s.PrivateKey = .ok sig) (hlen : sig.length = 65) :
    ∃ out : Bytes,
      s.sign env data
        = ⟨[.cryptoSign (env.Keccak256 data) s.PrivateKey], .ok (out, none)⟩ ∧
      out.length = 65 ∧ out.take 64 = sig.take 64 ∧
      (∀ i, i ≠ 64 → out[i]? = sig[i]?) ∧ out[64]? ≠ sig[64]? := by
  have hlt : RecoveryIDOffset < sig.length := by rw [hlen]; decide
  refine ⟨_, ecdsaSigner_sign_ok env s data sig hs hlt, ?_, ?_, ?_, ?_⟩
  · rw [List.length_set, hlen]
  · show (sig.set 64 _).take 64 = sig.take 64
    apply List.ext_getElem?
    intro i
    by_cases hi : i < 64
    · rw [List.getElem?_take_of_lt hi, List.getElem?_take_of_lt hi,
        List.getElem?_set_ne (by omega)]
    · rw [List.getElem?_take_eq_none (by omega), List.getElem?_take_eq_none (by omega)]
  · intro i hi
    show (sig.set 64 _)[i]? = sig[i]?
    rw [List.getElem?_set_ne (Ne.symm hi)]
  · show (sig.set 64 _)[64]? ≠ sig[64]?
    have h64 : 64 < sig.length := by rw [hlen]; decide
    rw [List.getElem?_set_self h64, List.getElem?_eq_getElem h64]
    intro h
    have h' := Option.some.inj h
    have hg : sig.getD RecoveryIDOffset 0 = sig[64] := List.getD_eq_getElem _ _ h64
    rw [hg] at h'
    omega

theorem ecdsaSigner_sign_keeps_r_s_witness :
    ∃ out : Bytes,
      ecdsaSigner.sign Env.sample ⟨⟨⟨2, 2⟩, 1⟩⟩ sampleDigest
        = ⟨[.cryptoSign (Env.sample.Keccak256 sampleDigest) ⟨⟨2, 2⟩, 1⟩], .ok (out, none)⟩ ∧
      out.length = 65 ∧ out.take 64 = (List.replicate 64 7 ++ [1]).take 64 ∧
      (∀ i, i ≠ 64 → out[i]? = (List.replicate 64 7 ++ [1])[i]?) ∧
      out[64]? ≠ (List.replicate 64 7 ++ [1])[64]? :=
  ecdsaSigner_sign_keeps_r_s Env.sample ⟨⟨⟨2, 2⟩, 1⟩⟩ sampleDigest
    (List.replicate 64 7 ++ [1]) rfl (by decide)

/-- C12: let `SigToPub` be the public-key recovery of the curve library, which on the
hash and the primitive's signature gives the public key of the signing key. For a
primitive signature of 65 bytes with recovery id 0 or 1, the signature returned by
`ecdsaSigner.sign`, with 27 subtracted from its byte 64, is the primitive's signature,
so recovery over `Keccak256` of the data gives a public key whose address is
`ecdsaSigner.address`. -/
theorem ecdsaSigner_sign_recover_address (env : Env) (s : ecdsaSigner) (data sig : Bytes)
    (v : Nat) (SigToPub : Bytes → Bytes → Except GoError PublicKey)
    (hs : env.Sign (env.Keccak256 data) s.PrivateKey = .ok sig)
    (hlen : sig.length = 65) (hv : sig[64]? = some v) (h01 : v = 0 ∨ v = 1)
    (hrec : SigToPub (env.Keccak256 data) sig = .ok s.PrivateKey.PublicKey) :
    ∃ (out : Bytes) (w : Nat) (pub : PublicKey),
      (s.sign env data).out = .ok (out, none) ∧ out[64]? = some w ∧
      out.set 64 (w - 27) = sig ∧
      SigToPub (env.Keccak256 data) (out.set 64 (w - 27)) = .ok pub ∧
      env.PubkeyToAddress pub = s.address env := by
  have hlt : RecoveryIDOffset < sig.length := by rw [hlen]; decide
  have h64 : 64 < sig.length := by rw [hlen]; decide
  have hget : sig.getD RecoveryIDOffset 0 = v := by
    rw [List.getD_eq_getElem?_getD]
    show (sig[64]?).getD 0 = v
    rw [hv]; rfl
  have hmod : (v + 27) % 256 = v + 27 := by
    rcases h01 with h | h <;> subst h <;> rfl
  have hback : (sig.set 64 (v + 27)).set 64 (v + 27 - 27) = sig := by
    rw [List.set_set, Nat.add_sub_cancel]
    apply List.ext_getElem?
    intro i
    by_cases hi : i = 64
    · subst hi
      rw [List.getElem?_set_self h64, hv]
    · rw [List.getElem?_set_ne (Ne.symm hi)]
  refine ⟨sig.set 64 (v + 27), v + 27, s.PrivateKey.PublicKey, ?_, ?_, hback, ?_, rfl⟩
  · rw [ecdsaSigner_sign_ok env s data sig hs hlt, hget, hmod]
    rfl
  · rw [List.getElem?_set_self h64]
  · rw [hback]; exact hrec

theorem ecdsaSigner_sign_recover_address_witness :
    ∃ (out : Bytes) (w : Nat) (pub : PublicKey),
      (ecdsaSigner.sign Env.sample ⟨⟨⟨2, 2⟩, 1⟩⟩ sampleDigest).out = .ok (out, none) ∧
      out[64]? = some w ∧ out.set 64 (w - 27) = List.replicate 64 7 ++ [1] ∧
      (fun (_ _ : Bytes) => (Except.ok ⟨2, 2⟩ : Except GoError PublicKey))
        (Env.sample.Keccak256 sampleDigest) (out.set 64 (w - 27)) = .ok pub ∧
      Env.sample.PubkeyToAddress pub = ecdsaSigner.address Env.sample ⟨⟨⟨2, 2⟩, 1⟩⟩ :=
  ecdsaSigner_sign_recover_address Env.sample ⟨⟨⟨2, 2⟩, 1⟩⟩ sampleDigest
    (List.replicate 64 7 ++ [1]) 1 (fun _ _ => .ok ⟨2, 2⟩) rfl (by decide) (by decide)
    (Or.inr rfl) rfl

/-! ## The device signer -/

/-- C20: `walletSigner.sign` makes exactly one call, `SignData` on the held wallet with
the held account, the MIME type `data/typed` and the given bytes, and returns the
signature and the error of that call as they are; `walletSigner.address` is the address
of the held account. The methods of the interface value do the same. -/
theorem walletSigner_sign_forwards (env : Env) (s : walletSigner) (data : Bytes) :
    s.sign env data
      = ⟨[.signData s.wallet s.account (ascii "data/typed") data],
         .ok (env.SignData s.wallet s.account (ascii "data/typed") data)⟩ ∧
    s.address = s.account.Address ∧
    signer.sign env (.wallet s) data = s.sign env data ∧
    signer.address env (.wallet s) = s.account.Address := by
  refine ⟨rfl, rfl, rfl, rfl⟩

/-! ## `createSigner` and `derivePrivateKey`: the branches -/

theorem createSigner_parse_error (env : Env) (privateKey mnemonic hdPath : Bytes)
    (err : GoError) (hp : env.ParseDerivationPath hdPath = .error err) :
    createSigner env privateKey mnemonic hdPath
      = ⟨[.parseDerivationPath hdPath], .ok (.error err)⟩ := by
  unfold createSigner
  simp [hp, emit, Run.bind]

theorem createSigner_raw (env : Env) (privateKey mnemonic hdPath : Bytes)
    (path : DerivationPath) (hp : env.ParseDerivationPath hdPath = .ok path)
    (hk : privateKey ≠ []) :
    createSigner env privateKey mnemonic hdPath
      = ⟨[.parseDerivationPath hdPath, .hexToECDSA privateKey],
         .ok (match env.HexToECDSA privateKey with
              | .error err => .error (.errorf .parsingPrivateKey err)
              | .ok key => .ok (.ecdsa ⟨key⟩))⟩ := by
  unfold createSigner
  simp only [hp, emit, Run.bind_def, Run.bind_ok, if_pos hk]
  cases env.HexToECDSA privateKey <;> rfl

theorem createSigner_mnemonic (env : Env) (mnemonic hdPath : Bytes)
    (path : DerivationPath) (hp : env.ParseDerivationPath hdPath = .ok path)
    (hm : mnemonic ≠ []) :
    createSigner env [] mnemonic hdPath
      = ⟨.parseDerivationPath hdPath :: (derivePrivateKey env mnemonic path).trace,
         match (derivePrivateKey env mnemonic path).out with
         | .ok (.ok key) => .ok (.ok (.ecdsa ⟨key⟩))
         | .ok (.error err) => .ok (.error (.errorf .derivingKeyFromMnemonic err))
         | .fatal f => .fatal f
         | .panic p => .panic p⟩ := by
  unfold createSigner
  have hne : ¬ (([] : Bytes) ≠ []) := fun h => h rfl
  simp only [hp, emit, Run.bind_def, Run.bind_ok, if_neg hne, if_pos hm]
  rcases derivePrivateKey env mnemonic path with ⟨tr, o⟩
  cases o with
  | fatal f => rfl
  | panic p => rfl
  | ok r => cases r <;> simp [Run.bind]

theorem createSigner_ledger (env : Env) (hdPath : Bytes)
    (path : DerivationPath) (hp : env.ParseDerivationPath hdPath = .ok path) :
    createSigner env [] [] hdPath
      = ⟨.parseDerivationPath hdPath :: (createLedgerSigner env path).trace,
         (createLedgerSigner env path).out⟩ := by
  unfold createSigner
  have hne : ¬ (([] : Bytes) ≠ []) := fun h => h rfl
  simp only [hp, emit, Run.bind_def, Run.bind_ok, if_neg hne]
  rfl

theorem derivePath_eq (env : Env) (path : DerivationPath) :
    ∀ key : ExtendedKey, derivePath env key path
      = ⟨childCalls env key path, .ok (path.foldlM (fun k i => env.Child k i) key)⟩ := by
  induction path with
  | nil => intro key; rfl
  | cons i path ih =>
    intro key
    unfold derivePath childCalls
    cases hc : env.Child key i with
    | error err => simp [emit, Run.bind, List.foldlM, hc]; rfl
    | ok next => simp [emit, Run.bind, List.foldlM, hc, ih next]; rfl

theorem derivePrivateKey_seed_error (env : Env) (mnemonic : Bytes) (path : DerivationPath)
    (err : GoError) (h : env.NewSeedWithErrorChecking mnemonic [] = .error err) :
    derivePrivateKey env mnemonic path = ⟨[.newSeed mnemonic []], .ok (.error err)⟩ := by
  unfold derivePrivateKey
  simp [h, emit, Run.bind]

theorem derivePrivateKey_eq (env : Env) (mnemonic : Bytes) (path : DerivationPath)
    (seed : Bytes) (master : ExtendedKey)
    (h1 : env.NewSeedWithErrorChecking mnemonic [] = .ok seed)
    (h2 : env.NewMaster seed [0, 0, 0, 0] [0, 0, 0, 0] = .ok master) :
    derivePrivateKey env mnemonic path
      = ⟨[.newSeed mnemonic [], .newMaster seed] ++ childCalls env master path ++
          (match path.foldlM (fun k i => env.Child k i) master with
           | .error _ => []
           | .ok key =>
             .serializedPrivKey key ::
               (match env.SerializedPrivKey key with
                | .error _ => []
                | .ok raw => [.toECDSA raw])),
         .ok (derivePrivateKeySpec env mnemonic path)⟩ := by
  have h2' : env.NewMaster seed fakeNetworkParams.HDPrivKeyVersion
      fakeNetworkParams.HDPubKeyVersion = .ok master := h2
  unfold derivePrivateKey derivePrivateKeySpec
  simp only [h1, h2, h2', emit, Run.bind_def, Run.bind_ok, derivePath_eq]
  cases hf : path.foldlM (fun k i => env.Child k i) master with
  | error err => simp
  | ok key =>
    cases hs : env.SerializedPrivKey key with
    | error err => simp [hs]
    | ok raw => simp [hs]

theorem derivePrivateKey_out (env : Env) (mnemonic : Bytes) (path : DerivationPath) :
    (derivePrivateKey env mnemonic path).out = .ok (derivePrivateKeySpec env mnemonic path) := by
  cases h1 : env.NewSeedWithErrorChecking mnemonic [] with
  | error err =>
    rw [derivePrivateKey_seed_error env mnemonic path err h1]
    simp [derivePrivateKeySpec, h1]
  | ok seed =>
    cases h2 : env.NewMaster seed [0, 0, 0, 0] [0, 0, 0, 0] with
    | error err =>
      have h2' : env.NewMaster seed fakeNetworkParams.HDPrivKeyVersion
          fakeNetworkParams.HDPubKeyVersion = .error err := h2
      unfold derivePrivateKey derivePrivateKeySpec
      simp [h1, h2, h2', emit, Run.bind]
    | ok master => rw [derivePrivateKey_eq env mnemonic path seed master h1 h2]

/-! ## The two key backends -/

/-- C13: if the raw key string parses to the key that `derivePrivateKey` gives for a
mnemonic and the parsed path, then `createSigner` builds, from the raw key and from the
mnemonic, signers with the same address whose `sign` gives the same result, byte for
byte, on every digest. -/
theorem createSigner_backends_equivalent (env : Env)
    (privateKey mnemonic0 mnemonic hdPath1 hdPath2 : Bytes) (path1 path2 : DerivationPath)
    (key : PrivateKey) (hk : privateKey ≠ []) (hm : mnemonic ≠ [])
    (hp1 : env.ParseDerivationPath hdPath1 = .ok path1)
    (hp2 : env.ParseDerivationPath hdPath2 = .ok path2)
    (hraw : env.HexToECDSA privateKey = .ok key)
    (hder : (derivePrivateKey env mnemonic path2).out = .ok (.ok key)) :
    ∃ s1 s2 : signer,
      (createSigner env privateKey mnemonic0 hdPath1).out = .ok (.ok s1) ∧
      (createSigner env [] mnemonic hdPath2).out = .ok (.ok s2) ∧
      s1.address env = s2.address env ∧
      ∀ digest : Bytes, s1.sign env digest = s2.sign env digest := by
  refine ⟨.ecdsa ⟨key⟩, .ecdsa ⟨key⟩, ?_, ?_, rfl, fun _ => rfl⟩
  · rw [createSigner_raw env privateKey mnemonic0 hdPath1 path1 hp1 hk, hraw]
  · rw [createSigner_mnemonic env mnemonic hdPath2 path2 hp2 hm]
    simp only [hder]

theorem createSigner_backends_equivalent_witness :
    ∃ s1 s2 : signer,
      (createSigner Env.sameKey (ascii "0c") [] (ascii "m/0")).out = .ok (.ok s1) ∧
      (createSigner Env.sameKey [] (ascii "abandon") (ascii "m/0")).out = .ok (.ok s2) ∧
      s1.address Env.sameKey = s2.address Env.sameKey ∧
      ∀ digest : Bytes, s1.sign Env.sameKey digest = s2.sign Env.sameKey digest :=
  createSigner_backends_equivalent Env.sameKey (ascii "0c") [] (ascii "abandon")
    (ascii "m/0") (ascii "m/0") [0x8000002C, 0x8000003C, 0x80000000, 0, 0]
    [0x8000002C, 0x8000003C, 0x80000000, 0, 0] ⟨⟨12, 3⟩, 12⟩ (by decide) (by decide)
    rfl rfl rfl rfl

/-! ## Derivation -/

theorem childCalls_congr (env env' : Env) (h : env'.Child = env.Child)
    (path : DerivationPath) :
    ∀ key : ExtendedKey, childCalls env' key path = childCalls env key path := by
  induction path with
  | nil => intro key; rfl
  | cons i path ih =>
    intro key
    unfold childCalls
    rw [h]
    cases env.Child key i with
    | error err => rfl
    | ok next => simp only [ih next]

/-- C14: `derivePrivateKey` is a function of the mnemonic and the path: it calls the
seed function with the empty passphrase first, its result is the derivation of the
specification, and two environments with the same key libraries (seed, master, child,
serialisation, conversion), whatever else differs in them, give the same run, events
and outcome, error or key. -/
theorem derivePrivateKey_deterministic (env env' : Env) (mnemonic : Bytes)
    (path : DerivationPath)
    (h1 : env'.NewSeedWithErrorChecking = env.NewSeedWithErrorChecking)
    (h2 : env'.NewMaster = env.NewMaster) (h3 : env'.Child = env.Child)
    (h4 : env'.SerializedPrivKey = env.SerializedPrivKey) (h5 : env'.ToECDSA = env.ToECDSA) :
    derivePrivateKey env' mnemonic path = derivePrivateKey env mnemonic path ∧
    (derivePrivateKey env mnemonic path).out
      = .ok (derivePrivateKeySpec env mnemonic path) ∧
    ∃ tr, (derivePrivateKey env mnemonic path).trace = .newSeed mnemonic [] :: tr := by
  refine ⟨?_, derivePrivateKey_out env mnemonic path, ?_⟩
  · unfold derivePrivateKey
    simp only [h1, h2, h3, h4, h5, derivePath_eq, childCalls_congr env env' h3]
  · unfold derivePrivateKey
    cases env.NewSeedWithErrorChecking mnemonic [] with
    | error err => exact ⟨[], rfl⟩
    | ok seed => exact ⟨_, rfl⟩

theorem derivePrivateKey_deterministic_witness :
    derivePrivateKey Env.sameKey (ascii "abandon") [0x8000002C, 0]
      = derivePrivateKey Env.sample (ascii "abandon") [0x8000002C, 0] :=
  (derivePrivateKey_deterministic Env.sample Env.sameKey (ascii "abandon")
    [0x8000002C, 0] rfl rfl rfl rfl rfl).1

theorem foldlM_child_stops (env : Env) (pre : DerivationPath) :
    ∀ (key reached : ExtendedKey) (i : Nat) (post : DerivationPath) (err : GoError),
      pre.foldlM (fun k j => env.Child k j) key = .ok reached →
      env.Child reached i = .error err →
      (pre ++ i :: post).foldlM (fun k j => env.Child k j) key = .error err ∧
      childCalls env key (pre ++ i :: post) = childCalls env key pre ++ [.child reached i] := by
  induction pre with
  | nil =>
    intro key reached i post err h1 h2
    have hk : key = reached := by
      have : (Except.ok key : Except GoError ExtendedKey) = .ok reached := h1
      exact Except.ok.inj this
    subst hk
    simp [List.foldlM, childCalls, h2]
    rfl
  | cons j pre ih =>
    intro key reached i post err h1 h2
    cases hc : env.Child key j with
    | error e =>
      simp [List.foldlM, hc] at h1
      cases h1
    | ok next =>
      have h1' : pre.foldlM (fun k j => env.Child k j) next = .ok reached := by
        simpa [List.foldlM, hc] using h1
      obtain ⟨ha, hb⟩ := ih next reached i post err h1' h2
      refine ⟨?_, ?_⟩
      · simpa [List.foldlM, hc] using ha
      · show childCalls env key (j :: (pre ++ i :: post)) = _
        unfold childCalls
        rw [hc]
        simp only [hb, List.cons_append]

/-- C15: the outcome of `derivePrivateKey` is the derivation of the specification, the
left-to-right fold of `Child` from the master key in the error monad followed by the
conversion of the serialised private scalar of the final key. The `Child` calls are
made on the indices as given, in order, and end with the first one that fails, whose
error is the result. -/
theorem derivePrivateKey_path_walk (env : Env) (mnemonic : Bytes) (path : DerivationPath) :
    (derivePrivateKey env mnemonic path).out
      = .ok (derivePrivateKeySpec env mnemonic path) ∧
    (∀ key : ExtendedKey, derivePath env key path
      = ⟨childCalls env key path, .ok (path.foldlM (fun k i => env.Child k i) key)⟩) ∧
    (∀ (seed : Bytes) (master : ExtendedKey),
      env.NewSeedWithErrorChecking mnemonic [] = .ok seed →
      env.NewMaster seed [0, 0, 0, 0] [0, 0, 0, 0] = .ok master →
      (∃ rest, (derivePrivateKey env mnemonic path).trace
          = [.newSeed mnemonic [], .newMaster seed] ++ childCalls env master path ++ rest ∧
        ∀ k i, Event.child k i ∉ rest) ∧
      ∀ (pre post : DerivationPath) (i : Nat) (reached : ExtendedKey) (err : GoError),
        path = pre ++ i :: post →
        pre.foldlM (fun k j => env.Child k j) master = .ok reached →
        env.Child reached i = .error err →
        (derivePrivateKey env mnemonic path).out = .ok (.error err) ∧
        (derivePrivateKey env mnemonic path).trace
          = [.newSeed mnemonic [], .newMaster seed] ++ childCalls env master pre
              ++ [.child reached i]) := by
  refine ⟨derivePrivateKey_out env mnemonic path, derivePath_eq env path, ?_⟩
  intro seed master h1 h2
  have heq := derivePrivateKey_eq env mnemonic path seed master h1 h2
  refine ⟨?_, ?_⟩
  · refine ⟨_, by rw [heq], ?_⟩
    intro k i hmem
    cases hf : path.foldlM (fun k i => env.Child k i) master with
    | error e => simp [hf] at hmem
    | ok key =>
      cases hs : env.SerializedPrivKey key with
      | error e => simp [hf, hs] at hmem
      | ok raw => simp [hf, hs] at hmem
  · intro pre post i reached err hpath hpre herr
    obtain ⟨ha, hb⟩ := foldlM_child_stops env pre master reached i post err hpre herr
    subst hpath
    rw [heq]
    refine ⟨?_, ?_⟩
    · simp [derivePrivateKeySpec, h1, h2, ha]
    · simp [ha, hb]

theorem derivePrivateKey_path_walk_witness :
    ∃ rest, (derivePrivateKey Env.sample (ascii "abandon") [0x8000002C, 0]).trace
        = [.newSeed (ascii "abandon") [], .newMaster (ascii "abandon")]
          ++ childCalls Env.sample ⟨ascii "abandon"⟩ [0x8000002C, 0] ++ rest ∧
      ∀ k i, Event.child k i ∉ rest :=
  ((derivePrivateKey_path_walk Env.sample (ascii "abandon") [0x8000002C, 0]).2.2
    (ascii "abandon") ⟨ascii "abandon"⟩ rfl rfl).1

/-! ## A mnemonic that fails validation -/

/-- C16: for every mnemonic that fails validation, `derivePrivateKey` returns the
validation error and no key, for every path, after the seed call alone; and
`createSigner` called with that mnemonic (a supplied one: the value of the flag is not
the empty string, which is the default of the flag and stands for no mnemonic) and no raw
key returns an error and no signer, for every path string. -/
theorem invalid_mnemonic_no_key (env : Env) (mnemonic : Bytes) (err : GoError)
    (h : env.NewSeedWithErrorChecking mnemonic [] = .error err) :
    (∀ path : DerivationPath,
      derivePrivateKey env mnemonic path = ⟨[.newSeed mnemonic []], .ok (.error err)⟩) ∧
    (mnemonic ≠ [] → ∀ hdPath : Bytes,
      (∃ e, (createSigner env [] mnemonic hdPath).out = .ok (.error e)) ∧
      ∀ path, env.ParseDerivationPath hdPath = .ok path →
        createSigner env [] mnemonic hdPath
          = ⟨[.parseDerivationPath hdPath, .newSeed mnemonic []],
             .ok (.error (.errorf .derivingKeyFromMnemonic err))⟩) := by
  refine ⟨fun path => derivePrivateKey_seed_error env mnemonic path err h, ?_⟩
  intro hm hdPath
  have hpath : ∀ path, env.ParseDerivationPath hdPath = .ok path →
      createSigner env [] mnemonic hdPath
        = ⟨[.parseDerivationPath hdPath, .newSeed mnemonic []],
           .ok (.error (.errorf .derivingKeyFromMnemonic err))⟩ := by
    intro path hp
    rw [createSigner_mnemonic env mnemonic hdPath path hp hm,
      derivePrivateKey_seed_error env mnemonic path err h]
  refine ⟨?_, hpath⟩
  cases hp : env.ParseDerivationPath hdPath with
  | error e => exact ⟨e, by rw [createSigner_parse_error env [] mnemonic hdPath e hp]⟩
  | ok path => exact ⟨_, by rw [hpath path hp]⟩

theorem invalid_mnemonic_no_key_witness :
    derivePrivateKey Env.checked badChecksumMnemonic
        [0x8000002C, 0x8000003C, 0x80000000, 0, 0]
      = ⟨[.newSeed badChecksumMnemonic []], .ok (.error (.lib 2))⟩ ∧
    createSigner Env.checked [] badChecksumMnemonic (ascii "m/44'/60'/0'/0/0")
      = ⟨[.parseDerivationPath (ascii "m/44'/60'/0'/0/0"), .newSeed badChecksumMnemonic []],
         .ok (.error (.errorf .derivingKeyFromMnemonic (.lib 2)))⟩ :=
  ⟨(invalid_mnemonic_no_key Env.checked badChecksumMnemonic (.lib 2) rfl).1 _,
   ((invalid_mnemonic_no_key Env.checked badChecksumMnemonic (.lib 2) rfl).2 (by decide)
      (ascii "m/44'/60'/0'/0/0")).2 [0x8000002C, 0x8000003C, 0x80000000, 0, 0] rfl⟩

/-! ## The empty derivation path -/

/-- C17, counterexample: for the twelve-word test phrase, which passes validation, and
the empty path, `derivePrivateKey` returns a private key, the one converted from the
master key, and no error. -/
theorem derivePrivateKey_accepts_empty_path :
    derivePrivateKey Env.checked testMnemonic []
      = ⟨[.newSeed testMnemonic [], .newMaster (List.replicate 64 0x5e),
          .serializedPrivKey ⟨List.replicate 32 0x5e⟩, .toECDSA (List.replicate 32 0x5e)],
         .ok (.ok ⟨⟨32, 3⟩, 32⟩)⟩ := by
  rfl

/-- C17, amended: `derivePrivateKey` does not reject the empty path. For a mnemonic
whose seed and master key are computed, with the empty path it makes no `Child` call
and returns the conversion of the serialised private scalar of the master key; a
non-empty path is accepted as input to the walk, which starts with `Child` of the
master key at the first index. -/
theorem derivePrivateKey_empty_path (env : Env) (mnemonic seed : Bytes)
    (master : ExtendedKey)
    (h1 : env.NewSeedWithErrorChecking mnemonic [] = .ok seed)
    (h2 : env.NewMaster seed [0, 0, 0, 0] [0, 0, 0, 0] = .ok master) :
    derivePrivateKey env mnemonic []
      = ⟨[.newSeed mnemonic [], .newMaster seed, .serializedPrivKey master] ++
          (match env.SerializedPrivKey master with
           | .error _ => []
           | .ok raw => [.toECDSA raw]),
         .ok (match env.SerializedPrivKey master with
              | .error err => .error err
              | .ok raw => env.ToECDSA raw)⟩ ∧
    ∀ (i : Nat) (rest : DerivationPath), ∃ tr,
      (derivePrivateKey env mnemonic (i :: rest)).trace
        = [.newSeed mnemonic [], .newMaster seed, .child master i] ++ tr := by
  refine ⟨?_, ?_⟩
  · rw [derivePrivateKey_eq env mnemonic [] seed master h1 h2]
    simp only [derivePrivateKeySpec, h1, h2, childCalls, List.foldlM, pure, Except.pure,
      List.append_nil]
    rfl
  · intro i rest
    rw [derivePrivateKey_eq env mnemonic (i :: rest) seed master h1 h2]
    refine ⟨(childCalls env master (i :: rest)).tail ++
      (match (i :: rest).foldlM (fun k j => env.Child k j) master with
       | .error _ => []
       | .ok key =>
         .serializedPrivKey key ::
           (match env.SerializedPrivKey key with
            | .error _ => []
            | .ok raw => [.toECDSA raw])), ?_⟩
    simp [childCalls]

theorem derivePrivateKey_empty_path_witness :
    derivePrivateKey Env.checked testMnemonic []
      = ⟨[.newSeed testMnemonic [], .newMaster (List.replicate 64 0x5e),
          .serializedPrivKey ⟨List.replicate 32 0x5e⟩] ++
          (match Env.checked.SerializedPrivKey ⟨List.replicate 32 0x5e⟩ with
           | .error _ => []
           | .ok raw => [.toECDSA raw]),
         .ok (match Env.checked.SerializedPrivKey ⟨List.replicate 32 0x5e⟩ with
              | .error err => .error err
              | .ok raw => Env.checked.ToECDSA raw)⟩ ∧
    ∃ tr, (derivePrivateKey Env.checked testMnemonic
        [0x8000002C, 0x8000003C, 0x80000000, 0, 0]).trace
      = [.newSeed testMnemonic [], .newMaster (List.replicate 64 0x5e),
         .child ⟨List.replicate 32 0x5e⟩ 0x8000002C] ++ tr :=
  ⟨(derivePrivateKey_empty_path Env.checked testMnemonic (List.replicate 64 0x5e)
      ⟨List.replicate 32 0x5e⟩ rfl rfl).1,
   (derivePrivateKey_empty_path Env.checked testMnemonic (List.replicate 64 0x5e)
      ⟨List.replicate 32 0x5e⟩ rfl rfl).2 0x8000002C [0x8000003C, 0x80000000, 0, 0]⟩

/-! ## The raw key and the path string -/

/-- C18, counterexample: in the strict sample environment the key string `01` parses,
and `createSigner` called with it returns a signer for the default path string and the
path error, with no signer and no look at the key, for the path string `m/x`. -/
theorem createSigner_path_error_with_raw_key :
    Env.strict.HexToECDSA (ascii "01") = .ok ⟨⟨2, 2⟩, 1⟩ ∧
    createSigner Env.strict (ascii "01") [] (ascii "m/44'/60'/0'/0/0")
      = ⟨[.parseDerivationPath (ascii "m/44'/60'/0'/0/0"), .hexToECDSA (ascii "01")],
         .ok (.ok (.ecdsa ⟨⟨⟨2, 2⟩, 1⟩⟩))⟩ ∧
    createSigner Env.strict (ascii "01") [] (ascii "m/x")
      = ⟨[.parseDerivationPath (ascii "m/x")], .ok (.error (.lib 1))⟩ := by
  refine ⟨rfl, rfl, rfl⟩

/-- C18, amended: when a non-empty raw key string is supplied and the path string
parses, `createSigner` parses the key and returns an `ecdsaSigner` holding it if it
parses, and the invalid-private-key error otherwise, whatever the parsed path and the
mnemonic; when the path string does not parse, it returns the path error before it
looks at the key. -/
theorem createSigner_raw_key (env : Env) (privateKey mnemonic hdPath : Bytes)
    (hk : privateKey ≠ []) :
    (∀ path, env.ParseDerivationPath hdPath = .ok path →
      createSigner env privateKey mnemonic hdPath
        = ⟨[.parseDerivationPath hdPath, .hexToECDSA privateKey],
           .ok (match env.HexToECDSA privateKey with
                | .error err => .error (.errorf .parsingPrivateKey err)
                | .ok key => .ok (.ecdsa ⟨key⟩))⟩) ∧
    (∀ err, env.ParseDerivationPath hdPath = .error err →
      createSigner env privateKey mnemonic hdPath
        = ⟨[.parseDerivationPath hdPath], .ok (.error err)⟩) :=
  ⟨fun path hp => createSigner_raw env privateKey mnemonic hdPath path hp hk,
   fun err hp => createSigner_parse_error env privateKey mnemonic hdPath err hp⟩

theorem createSigner_raw_key_witness :
    createSigner Env.strict (ascii "01") (ascii "abandon") (ascii "m/44'/60'/0'/0/0")
      = ⟨[.parseDerivationPath (ascii "m/44'/60'/0'/0/0"), .hexToECDSA (ascii "01")],
         .ok (match Env.strict.HexToECDSA (ascii "01") with
              | .error err => .error (.errorf .parsingPrivateKey err)
              | .ok key => .ok (.ecdsa ⟨key⟩))⟩ :=
  (createSigner_raw_key Env.strict (ascii "01") (ascii "abandon")
    (ascii "m/44'/60'/0'/0/0") (by decide)).1 _ rfl

/-! ## Device discovery -/

theorem createLedgerSigner_one (env : Env) (path : DerivationPath) (w : Wallet)
    (hh : env.NewLedgerHub = .ok [w]) :
    ∃ tr, (createLedgerSigner env path).trace
        = [.newLedgerHub, .wallets, .walletOpen w []] ++ tr ∧
      ∀ w' p, Event.walletOpen w' p ∉ tr := by
  unfold createLedgerSigner
  cases h2 : env.Open w [] with
  | some err =>
    refine ⟨[], by simp [hh, h2, emit, Run.bind], by simp⟩
  | none =>
    cases h3 : env.Derive w path true with
    | error err =>
      refine ⟨[.walletDerive w path true], by simp [hh, h2, h3, emit, Run.bind], by simp⟩
    | ok account =>
      refine ⟨[.walletDerive w path true], by simp [hh, h2, h3, emit, Run.bind], by simp⟩

/-- C19: in device mode, once the path string is parsed and the hub is started,
`createSigner` fails with the no-ledgers error if no wallet is discovered and with the
multiple-ledgers error if two or more are, in both cases with no `Open` call; with
exactly one wallet it calls `Open` once, on that wallet. An `Open` call on a wallet
therefore means that this wallet is the only one discovered. -/
theorem createSigner_device_discovery (env : Env) (hdPath : Bytes) (path : DerivationPath)
    (ws : List Wallet) (hp : env.ParseDerivationPath hdPath = .ok path)
    (hh : env.NewLedgerHub = .ok ws) :
    (ws = [] → createSigner env [] [] hdPath
      = ⟨[.parseDerivationPath hdPath, .newLedgerHub, .wallets], .ok (.error .noLedgers)⟩) ∧
    (2 ≤ ws.length → createSigner env [] [] hdPath
      = ⟨[.parseDerivationPath hdPath, .newLedgerHub, .wallets],
         .ok (.error .multipleLedgers)⟩) ∧
    (∀ w, ws = [w] → ∃ tr, (createSigner env [] [] hdPath).trace
        = [.parseDerivationPath hdPath, .newLedgerHub, .wallets, .walletOpen w []] ++ tr ∧
      ∀ w' p, Event.walletOpen w' p ∉ tr) ∧
    (∀ w p, Event.walletOpen w p ∈ (createSigner env [] [] hdPath).trace →
      ws = [w] ∧ p = []) := by
  have hnone : ws = [] → createSigner env [] [] hdPath
      = ⟨[.parseDerivationPath hdPath, .newLedgerHub, .wallets], .ok (.error .noLedgers)⟩ := by
    intro h
    subst h
    rw [createSigner_ledger env hdPath path hp]
    unfold createLedgerSigner
    simp [hh, emit, Run.bind]
  have hmany : 2 ≤ ws.length → createSigner env [] [] hdPath
      = ⟨[.parseDerivationPath hdPath, .newLedgerHub, .wallets],
         .ok (.error .multipleLedgers)⟩ := by
    intro h
    rw [createSigner_ledger env hdPath path hp]
    unfold createLedgerSigner
    have h0 : ¬ ws.length = 0 := by omega
    have h1 : ws.length > 1 := by omega
    simp [hh, emit, Run.bind, h0, h1]
  have hone : ∀ w, ws = [w] → ∃ tr, (createSigner env [] [] hdPath).trace
        = [.parseDerivationPath hdPath, .newLedgerHub, .wallets, .walletOpen w []] ++ tr ∧
      ∀ w' p, Event.walletOpen w' p ∉ tr := by
    intro w h
    subst h
    obtain ⟨tr, htr, hno⟩ := createLedgerSigner_one env path w hh
    refine ⟨tr, ?_, hno⟩
    rw [createSigner_ledger env hdPath path hp]
    simp only [htr]
    rfl
  refine ⟨hnone, hmany, hone, ?_⟩
  intro w p hmem
  match ws, hh, hnone, hmany, hone with
  | [], _, hnone, _, _ =>
    rw [hnone rfl] at hmem
    simp at hmem
  | [w0], _, _, _, hone =>
    obtain ⟨tr, htr, hno⟩ := hone w0 rfl
    rw [htr] at hmem
    simp only [List.mem_append, List.mem_cons, List.mem_singleton, List.not_mem_nil,
      or_false, reduceCtorEq, false_or] at hmem
    rcases hmem with h | h
    · cases h; exact ⟨rfl, rfl⟩
    · exact absurd h (hno w p)
  | _ :: _ :: _, _, _, hmany, _ =>
    rw [hmany (by simp)] at hmem
    simp at hmem

theorem createSigner_device_discovery_witness :
    ∃ tr, (createSigner Env.sample [] [] (ascii "m/0")).trace
        = [.parseDerivationPath (ascii "m/0"), .newLedgerHub, .wallets,
           .walletOpen ⟨1⟩ []] ++ tr ∧
      ∀ w' p, Event.walletOpen w' p ∉ tr :=
  (createSigner_device_discovery Env.sample (ascii "m/0")
    [0x8000002C, 0x8000003C, 0x80000000, 0, 0] [⟨1⟩] rfl rfl).2.2.1 ⟨1⟩ rfl

/-! ## The shape of a run of `main` -/

theorem readInput_cases (env : Env) (fl : Flags) :
    (∃ input, readInput env fl = ⟨[.readStdin], .ok input⟩) ∨
    (∃ err, readInput env fl = ⟨[.readStdin], .fatal (.readingStdin err)⟩) ∨
    (∃ name args out,
      readInput env fl = ⟨[.runCommand fl.workdir name args, .stdout (.subprocess out),
        .stdout (.exited name)], .ok out⟩) ∨
    (∃ name args out err,
      readInput env fl = ⟨[.runCommand fl.workdir name args, .stdout (.subprocess out)],
        .fatal (.runningProcess err)⟩) := by
  unfold readInput run
  by_cases h0 : fl.args.length = 0
  · simp only [h0, if_true]
    cases hr : env.readAllStdin with
    | error err => exact Or.inr (Or.inl ⟨err, by simp [emit, fatalf, Run.bind]⟩)
    | ok input => exact Or.inl ⟨input, by simp [emit, Run.bind]⟩
  · simp only [h0, if_false]
    generalize env.cmdRun fl.workdir (fl.args.getD 0 []) (List.drop 1 fl.args) = res
    obtain ⟨out, err⟩ := res
    cases err with
    | none =>
      exact Or.inr (Or.inr (Or.inl ⟨fl.args.getD 0 [], fl.args.drop 1, out, by
        simp [emit, Run.bind]⟩))
    | some err =>
      exact Or.inr (Or.inr (Or.inr ⟨fl.args.getD 0 [], fl.args.drop 1, out, err, by
        simp [emit, fatalf, Run.bind]⟩))

theorem signer_sign_cases (env : Env) (s : signer) (data : Bytes) :
    ∃ e : Event, e.isSignCall = true ∧
      (e = .cryptoSign (env.Keccak256 data) (match s with
            | .ecdsa k => k.PrivateKey
            | .wallet _ => ⟨⟨0, 0⟩, 0⟩) ∨
       ∃ w a, e = .signData w a MimetypeTypedData data) ∧
      ((∃ sig, s.sign env data = ⟨[e], .ok (sig, none)⟩) ∨
       (∃ sig err, s.sign env data = ⟨[e], .ok (sig, some err)⟩) ∨
       (∃ p, s.sign env data = ⟨[e], .panic p⟩)) := by
  cases s with
  | ecdsa k =>
    refine ⟨.cryptoSign (env.Keccak256 data) k.PrivateKey, rfl, Or.inl rfl, ?_⟩
    show (∃ sig, k.sign env data = _) ∨ (∃ sig err, k.sign env data = _) ∨
      (∃ p, k.sign env data = _)
    unfold ecdsaSigner.sign
    cases hs : env.Sign (env.Keccak256 data) k.PrivateKey with
    | error err =>
      exact Or.inr (Or.inl ⟨[], err, by simp [emit, Run.bind]⟩)
    | ok sig =>
      by_cases hl : RecoveryIDOffset < sig.length
      · exact Or.inl ⟨_, by simp only [emit, Run.bind_def, Run.bind_ok, dif_pos hl]; rfl⟩
      · exact Or.inr (Or.inr ⟨.indexOutOfRange, by
          simp only [emit, Run.bind_def, Run.bind_ok, dif_neg hl]; rfl⟩)
  | wallet w =>
    refine ⟨.signData w.wallet w.account MimetypeTypedData data, rfl,
      Or.inr ⟨_, _, rfl⟩, ?_⟩
    show (∃ sig, w.sign env data = _) ∨ (∃ sig err, w.sign env data = _) ∨
      (∃ p, w.sign env data = _)
    unfold walletSigner.sign
    rcases hr : env.SignData w.wallet w.account MimetypeTypedData data with ⟨sig, err⟩
    cases err with
    | none => exact Or.inl ⟨sig, by simp [emit, Run.bind]⟩
    | some err => exact Or.inr (Or.inl ⟨sig, err, by simp [emit, Run.bind]⟩)

theorem signAndReport_of_signer (env : Env) (fl : Flags) (hash : Bytes) (tr : List Event)
    (s : signer) (hs : createSigner env fl.privateKey fl.mnemonic fl.hdPath = ⟨tr, .ok (.ok s)⟩) :
    signAndReport env fl hash
      = ⟨tr ++ ([.stdout (.domainHash (EncodeToString (slice hash 2 34))),
                 .stdout (.messageHash (EncodeToString (slice hash 34 66)))]
          ++ (ledgerNote fl.ledger .awaitingLedger ++ ((s.sign env hash).trace ++
            (match (s.sign env hash).out with
             | .ok (sig, none) =>
               ledgerNote fl.ledger .done ++
                 [.stdout (.data (EncodeToString hash)),
                  .stdout (.signerLine (env.AddressString (s.address env))),
                  .stdout (.signature (EncodeToString sig))]
             | .ok (_, some _) => ledgerNote fl.ledger .done
             | _ => [])))),
         match (s.sign env hash).out with
         | .ok (_, none) => .ok ()
         | .ok (_, some err) => .fatal (.signingData err)
         | .fatal f => .fatal f
         | .panic p => .panic p⟩ := by
  unfold signAndReport
  rw [Run.bind_def, hs, Run.bind_ok]
  rcases hsign : s.sign env hash with ⟨tr3, o3⟩
  cases hl : fl.ledger <;> cases o3 with
  | fatal f => simp [emit, Run.bind, ledgerNote, hsign]
  | panic p => simp [emit, Run.bind, ledgerNote, hsign]
  | ok r =>
    obtain ⟨sig, err⟩ := r
    cases err <;> simp [emit, fatalf, Run.bind, ledgerNote, hsign]

theorem signAndReport_of_error (env : Env) (fl : Flags) (hash : Bytes) (tr : List Event)
    (err : GoError)
    (hs : createSigner env fl.privateKey fl.mnemonic fl.hdPath = ⟨tr, .ok (.error err)⟩) :
    signAndReport env fl hash = ⟨tr, .fatal (.creatingSigner err)⟩ := by
  unfold signAndReport
  rw [Run.bind_def, hs, Run.bind_ok]
  simp [fatalf]

theorem signAndReport_of_panic (env : Env) (fl : Flags) (hash : Bytes) (tr : List Event)
    (p : Panic)
    (hs : createSigner env fl.privateKey fl.mnemonic fl.hdPath = ⟨tr, .panic p⟩) :
    signAndReport env fl hash = ⟨tr, .panic p⟩ := by
  unfold signAndReport
  rw [Run.bind_def, hs, Run.bind_panic]

theorem signAndReport_of_fatal (env : Env) (fl : Flags) (hash : Bytes) (tr : List Event)
    (f : Fatal)
    (hs : createSigner env fl.privateKey fl.mnemonic fl.hdPath = ⟨tr, .fatal f⟩) :
    signAndReport env fl hash = ⟨tr, .fatal f⟩ := by
  unfold signAndReport
  rw [Run.bind_def, hs, Run.bind_fatal]

theorem createLedgerSigner_out (env : Env) (path : DerivationPath) :
    ∃ r, (createLedgerSigner env path).out = .ok r := by
  unfold createLedgerSigner
  cases h1 : env.NewLedgerHub with
  | error err => exact ⟨.error (.errorf .startingLedger err), by simp [emit, Run.bind]⟩
  | ok ws =>
    match ws with
    | [] => exact ⟨.error .noLedgers, by simp [emit, Run.bind]⟩
    | [w] =>
      cases h2 : env.Open w [] with
      | some err => exact ⟨.error (.errorf .openingLedger err), by simp [h2, emit, Run.bind]⟩
      | none =>
        cases h3 : env.Derive w path true with
        | error err =>
          exact ⟨.error (.errorf .derivingLedgerAccount err), by
            simp [h2, h3, emit, Run.bind]⟩
        | ok account =>
          exact ⟨.ok (.wallet ⟨w, account⟩), by simp [h2, h3, emit, Run.bind]⟩
    | w :: w2 :: ws => exact ⟨.error .multipleLedgers, by simp [emit, Run.bind]⟩

theorem createSigner_out (env : Env) (privateKey mnemonic hdPath : Bytes) :
    ∃ r, (createSigner env privateKey mnemonic hdPath).out = .ok r := by
  cases hp : env.ParseDerivationPath hdPath with
  | error err =>
    exact ⟨_, by rw [createSigner_parse_error env privateKey mnemonic hdPath err hp]⟩
  | ok path =>
    by_cases hk : privateKey ≠ []
    · exact ⟨_, by rw [createSigner_raw env privateKey mnemonic hdPath path hp hk]⟩
    · have hk' : privateKey = [] := not_not.mp hk
      subst hk'
      by_cases hm : mnemonic ≠ []
      · rw [createSigner_mnemonic env mnemonic hdPath path hp hm,
          derivePrivateKey_out env mnemonic path]
        cases derivePrivateKeySpec env mnemonic path with
        | error err => exact ⟨_, rfl⟩
        | ok key => exact ⟨_, rfl⟩
      · have hm' : mnemonic = [] := not_not.mp hm
        subst hm'
        rw [createSigner_ledger env hdPath path hp]
        exact createLedgerSigner_out env path

theorem signAndReport_cases (env : Env) (fl : Flags) (hash : Bytes) :
    ∃ tr, (∀ e ∈ tr, e.ofCreateSigner = true) ∧
      ((∃ err, signAndReport env fl hash = ⟨tr, .fatal (.creatingSigner err)⟩) ∨
       (∃ s, createSigner env fl.privateKey fl.mnemonic fl.hdPath = ⟨tr, .ok (.ok s)⟩)) := by
  obtain ⟨r, hr⟩ := createSigner_out env fl.privateKey fl.mnemonic fl.hdPath
  have htr := (createSigner_trace env fl.privateKey fl.mnemonic fl.hdPath).2
  rcases hc : createSigner env fl.privateKey fl.mnemonic fl.hdPath with ⟨tr, o⟩
  rw [hc] at hr htr
  have ho : o = .ok r := hr
  subst ho
  refine ⟨tr, htr, ?_⟩
  cases r with
  | error err => exact Or.inl ⟨err, signAndReport_of_error env fl hash tr err hc⟩
  | ok s => exact Or.inr ⟨s, rfl⟩

theorem main_cases (env : Env) (fl : Flags) :
    main env fl = ⟨[], .fatal .credentials⟩ ∨
    (∃ tr f, readInput env fl = ⟨tr, .fatal f⟩ ∧ main env fl = ⟨tr, .fatal f⟩ ∧
      ∀ err, f ≠ .signingData err) ∨
    (∃ tr input, readInput env fl = ⟨tr, .ok input⟩ ∧
      (FromHex (TrimSpace (cutSuffix (cutPrefix input fl.prefix_) fl.suffix_))).length ≠ 66 ∧
      main env fl = ⟨tr ++ [.stdout .blank], .fatal (.digestLength
        (cutSuffix (cutPrefix input fl.prefix_) fl.suffix_).length
        (cutSuffix (cutPrefix input fl.prefix_) fl.suffix_))⟩) ∨
    (∃ tr input, readInput env fl = ⟨tr, .ok input⟩ ∧
      (FromHex (TrimSpace (cutSuffix (cutPrefix input fl.prefix_) fl.suffix_))).length = 66 ∧
      main env fl = ⟨tr ++ ([.stdout .blank] ++ (signAndReport env fl
          (FromHex (TrimSpace (cutSuffix (cutPrefix input fl.prefix_) fl.suffix_)))).trace),
        (signAndReport env fl
          (FromHex (TrimSpace (cutSuffix (cutPrefix input fl.prefix_) fl.suffix_)))).out⟩) := by
  by_cases hc : countOptions fl.privateKey fl.ledger fl.mnemonic = 1
  · have hfat : ∀ tr f, readInput env fl = ⟨tr, .fatal f⟩ → main env fl = ⟨tr, .fatal f⟩ := by
      intro tr f h
      unfold main checkCredentials
      simp [hc, h]
    have hok : ∀ tr input, readInput env fl = ⟨tr, .ok input⟩ →
        (∃ tr input, readInput env fl = ⟨tr, .ok input⟩ ∧
          (FromHex (TrimSpace (cutSuffix (cutPrefix input fl.prefix_) fl.suffix_))).length ≠ 66 ∧
          main env fl = ⟨tr ++ [.stdout .blank], .fatal (.digestLength
            (cutSuffix (cutPrefix input fl.prefix_) fl.suffix_).length
            (cutSuffix (cutPrefix input fl.prefix_) fl.suffix_))⟩) ∨
        (∃ tr input, readInput env fl = ⟨tr, .ok input⟩ ∧
          (FromHex (TrimSpace (cutSuffix (cutPrefix input fl.prefix_) fl.suffix_))).length = 66 ∧
          main env fl = ⟨tr ++ ([.stdout .blank] ++ (signAndReport env fl
              (FromHex (TrimSpace (cutSuffix (cutPrefix input fl.prefix_) fl.suffix_)))).trace),
            (signAndReport env fl
              (FromHex (TrimSpace (cutSuffix (cutPrefix input fl.prefix_) fl.suffix_)))).out⟩) := by
      intro tr input h
      by_cases hl : (FromHex (TrimSpace (cutSuffix (cutPrefix input fl.prefix_)
          fl.suffix_))).length = 66
      · refine Or.inr ⟨tr, input, h, hl, ?_⟩
        rw [main_eq_of_input env fl tr input hc h, Run.bind_ok, extractDigest_eq,
          if_neg (not_not.mpr hl), Run.bind_ok]
      · refine Or.inl ⟨tr, input, h, hl, ?_⟩
        rw [main_eq_of_input env fl tr input hc h, Run.bind_ok, extractDigest_eq, if_pos hl]
        rfl
    rcases readInput_cases env fl with ⟨input, h⟩ | ⟨err, h⟩ | ⟨n, a, out, h⟩ | ⟨n, a, out, err, h⟩
    · exact Or.inr (Or.inr (hok _ _ h))
    · exact Or.inr (Or.inl ⟨_, _, h, hfat _ _ h, by intro e he; cases he⟩)
    · exact Or.inr (Or.inr (hok _ _ h))
    · exact Or.inr (Or.inl ⟨_, _, h, hfat _ _ h, by intro e he; cases he⟩)
  · left
    unfold main checkCredentials
    simp [hc, fatalf]

theorem readInput_resultLines (env : Env) (fl : Flags) :
    resultLines (readInput env fl).trace = [] ∧
    (∀ e ∈ (readInput env fl).trace, e.isSignCall = false ∧ e.isWalletClose = false) := by
  rcases readInput_cases env fl with ⟨input, h⟩ | ⟨err, h⟩ | ⟨n, a, out, h⟩ | ⟨n, a, out, err, h⟩ <;>
    rw [h] <;> refine ⟨rfl, ?_⟩ <;> intro e he <;> simp at he
  · subst he; exact ⟨rfl, rfl⟩
  · subst he; exact ⟨rfl, rfl⟩
  · rcases he with he | he | he <;> subst he <;> exact ⟨rfl, rfl⟩
  · rcases he with he | he <;> subst he <;> exact ⟨rfl, rfl⟩

theorem ofCreateSigner_others (e : Event) (h : e.ofCreateSigner = true) :
    e.resultLine = none ∧ e.isSignCall = false ∧ e.isWalletClose = false := by
  cases e <;> first | exact ⟨rfl, rfl, rfl⟩ | cases h

theorem resultLines_of_createSigner (tr : List Event)
    (h : ∀ e ∈ tr, e.ofCreateSigner = true) : resultLines tr = [] := by
  unfold resultLines
  rw [List.filterMap_eq_nil_iff]
  intro e he
  exact (ofCreateSigner_others e (h e he)).1

theorem resultLines_append (a b : List Event) :
    resultLines (a ++ b) = resultLines a ++ resultLines b := by
  unfold resultLines
  rw [List.filterMap_append]

theorem resultLines_ledgerNote (ledger : Bool) :
    resultLines (ledgerNote ledger .awaitingLedger) = [] ∧
    resultLines (ledgerNote ledger .done) = [] := by
  cases ledger <;> exact ⟨rfl, rfl⟩

theorem quiet_of_createSigner (e : Event) (h : e.ofCreateSigner = true) : e.quiet = true := by
  cases e <;> first | rfl | cases h

theorem readInput_quiet (env : Env) (fl : Flags) :
    ∀ e ∈ (readInput env fl).trace, e.quiet = true := by
  rcases readInput_cases env fl with ⟨input, h⟩ | ⟨err, h⟩ | ⟨n, a, out, h⟩ | ⟨n, a, out, err, h⟩ <;>
    rw [h] <;> intro e he <;> simp at he
  · subst he; rfl
  · subst he; rfl
  · rcases he with he | he | he <;> subst he <;> rfl
  · rcases he with he | he <;> subst he <;> rfl

theorem ledgerNote_quiet (ledger : Bool) (o : Output)
    (ho : (Event.stdout o).quiet = true) : ∀ e ∈ ledgerNote ledger o, e.quiet = true := by
  intro e he
  cases ledger
  · simp [ledgerNote] at he
  · simp [ledgerNote] at he; subst he; exact ho

/-- The shape of every run of `main`: it ends before signing, with quiet events only,
or it reaches the sign call after the two hash lines. -/
theorem main_shape (env : Env) (fl : Flags) :
    (∃ f, (main env fl).out = .fatal f ∧ (∀ err, f ≠ .signingData err) ∧
      ∀ e ∈ (main env fl).trace, e.quiet = true) ∨
    (∃ (front : List Event) (hash : Bytes) (s : signer) (e0 : Event) (tail : List Event),
      (∀ e ∈ front, e.quiet = true) ∧ hash.length = 66 ∧
      (∃ tr input, readInput env fl = ⟨tr, .ok input⟩ ∧
        hash = FromHex (TrimSpace (cutSuffix (cutPrefix input fl.prefix_) fl.suffix_))) ∧
      (∃ tr, createSigner env fl.privateKey fl.mnemonic fl.hdPath = ⟨tr, .ok (.ok s)⟩) ∧
      e0.isSignCall = true ∧ (s.sign env hash).trace = [e0] ∧
      ((∃ k, e0 = .cryptoSign (env.Keccak256 hash) k) ∨
       (∃ w a, e0 = .signData w a MimetypeTypedData hash)) ∧
      (main env fl).trace
        = front ++ ([.stdout (.domainHash (EncodeToString (slice hash 2 34))),
                     .stdout (.messageHash (EncodeToString (slice hash 34 66)))]
            ++ (ledgerNote fl.ledger .awaitingLedger ++ (e0 :: tail))) ∧
      ((∃ sig, (s.sign env hash).out = .ok (sig, none) ∧ (main env fl).out = .ok () ∧
          tail = ledgerNote fl.ledger .done ++
            [.stdout (.data (EncodeToString hash)),
             .stdout (.signerLine (env.AddressString (s.address env))),
             .stdout (.signature (EncodeToString sig))]) ∨
       (∃ sig err, (s.sign env hash).out = .ok (sig, some err) ∧
          (main env fl).out = .fatal (.signingData err) ∧ tail = ledgerNote fl.ledger .done) ∨
       (∃ p, (main env fl).out = .panic p ∧ tail = []))) := by
  rcases main_cases env fl with h | ⟨tr, f, hr, hm, hf⟩ | ⟨tr, input, hr, hl, hm⟩ |
      ⟨tr, input, hr, hl, hm⟩
  · left
    refine ⟨.credentials, by rw [h], (by intro e he; cases he), ?_⟩
    rw [h]; intro e he; simp at he
  · left
    refine ⟨f, by rw [hm], hf, ?_⟩
    rw [hm]
    have := readInput_quiet env fl
    rw [hr] at this
    exact this
  · left
    refine ⟨_, by rw [hm], (by intro e he; cases he), ?_⟩
    rw [hm]
    have hq := readInput_quiet env fl
    rw [hr] at hq
    intro e he
    simp only [List.mem_append, List.mem_singleton] at he
    rcases he with he | he
    · exact hq e he
    · subst he; rfl
  · have hq := readInput_quiet env fl
    rw [hr] at hq
    simp only at hq
    obtain ⟨tr2, htr2, hsar⟩ := signAndReport_cases env fl
      (FromHex (TrimSpace (cutSuffix (cutPrefix input fl.prefix_) fl.suffix_)))
    rcases hsar with ⟨err, hsar⟩ | ⟨s, hs⟩
    · left
      rw [hsar] at hm
      refine ⟨_, by rw [hm], (by intro e he; cases he), ?_⟩
      rw [hm]
      intro e he
      simp only [List.mem_append, List.mem_singleton] at he
      rcases he with he | he | he
      · exact hq e he
      · subst he; rfl
      · exact quiet_of_createSigner e (htr2 e he)
    · right
      rw [signAndReport_of_signer env fl _ tr2 s hs] at hm
      obtain ⟨e0, he0, hform, hsign⟩ := signer_sign_cases env s
        (FromHex (TrimSpace (cutSuffix (cutPrefix input fl.prefix_) fl.suffix_)))
      have hfront : ∀ e ∈ tr ++ ([.stdout .blank] ++ tr2), e.quiet = true := by
        intro e he
        simp only [List.mem_append, List.mem_singleton] at he
        rcases he with he | he | he
        · exact hq e he
        · subst he; rfl
        · exact quiet_of_createSigner e (htr2 e he)
      have hform' : (∃ k, e0 = .cryptoSign (env.Keccak256
            (FromHex (TrimSpace (cutSuffix (cutPrefix input fl.prefix_) fl.suffix_)))) k) ∨
          (∃ w a, e0 = .signData w a MimetypeTypedData
            (FromHex (TrimSpace (cutSuffix (cutPrefix input fl.prefix_) fl.suffix_)))) := by
        rcases hform with h | h
        · exact Or.inl ⟨_, h⟩
        · exact Or.inr h
      rcases hsign with ⟨sig, hsg⟩ | ⟨sig, err, hsg⟩ | ⟨p, hsg⟩
      · rw [hsg] at hm
        refine ⟨tr ++ ([.stdout .blank] ++ tr2), _, s, e0, _, hfront, hl, ⟨tr, input, hr, rfl⟩,
          ⟨tr2, hs⟩, he0, by rw [hsg], hform', ?_, Or.inl ⟨sig, by rw [hsg], by rw [hm], rfl⟩⟩
        rw [hm]
        simp only [List.append_assoc, List.singleton_append, List.cons_append,
          List.nil_append]
      · rw [hsg] at hm
        refine ⟨tr ++ ([.stdout .blank] ++ tr2), _, s, e0, _, hfront, hl, ⟨tr, input, hr, rfl⟩,
          ⟨tr2, hs⟩, he0, by rw [hsg], hform', ?_,
          Or.inr (Or.inl ⟨sig, err, by rw [hsg], by rw [hm], rfl⟩)⟩
        rw [hm]
        simp only [List.append_assoc, List.singleton_append, List.cons_append,
          List.nil_append]
      · rw [hsg] at hm
        refine ⟨tr ++ ([.stdout .blank] ++ tr2), _, s, e0, _, hfront, hl, ⟨tr, input, hr, rfl⟩,
          ⟨tr2, hs⟩, he0, by rw [hsg], hform', ?_, Or.inr (Or.inr ⟨p, by rw [hm], rfl⟩)⟩
        rw [hm]
        simp only [List.append_assoc, List.singleton_append, List.cons_append,
          List.nil_append, List.append_nil]

theorem quiet_facts (e : Event) (h : e.quiet = true) :
    e.resultLine = none ∧ e.isSignCall = false ∧ e.isWalletClose = false := by
  unfold Event.quiet at h
  simp only [Bool.and_eq_true, Bool.not_eq_true', Option.isNone_iff_eq_none] at h
  exact ⟨h.1.1, h.1.2, h.2⟩

theorem resultLines_quiet (tr : List Event) (h : ∀ e ∈ tr, e.quiet = true) :
    resultLines tr = [] := by
  unfold resultLines
  rw [List.filterMap_eq_nil_iff]
  intro e he
  exact (quiet_facts e (h e he)).1

theorem signCall_facts (e : Event) (h : e.isSignCall = true) :
    e.resultLine = none ∧ e.isWalletClose = false := by
  cases e <;> first | exact ⟨rfl, rfl⟩ | cases h

theorem ledgerNote_facts (ledger : Bool) :
    (∀ e ∈ ledgerNote ledger .awaitingLedger, e.quiet = true ∧ e = .stdout .awaitingLedger) ∧
    (∀ e ∈ ledgerNote ledger .done, e.quiet = true) := by
  cases ledger
  · exact ⟨by intro e he; simp [ledgerNote] at he, by intro e he; simp [ledgerNote] at he⟩
  · refine ⟨?_, ?_⟩ <;> intro e he <;> simp [ledgerNote] at he <;> subst he
    · exact ⟨rfl, rfl⟩
    · rfl

/-! ## The wallet session -/

set_option maxRecDepth 1000000 in
/-- C21, counterexample: the sample run in ledger mode opens the wallet session, ends
normally, and makes no `Close` call. -/
theorem main_ledger_run_without_close :
    Event.walletOpen ⟨1⟩ [] ∈ (main Env.sample Flags.sampleLedger).trace ∧
    (main Env.sample Flags.sampleLedger).out = .ok () ∧
    (main Env.sample Flags.sampleLedger).trace.filter Event.isWalletClose = [] := by
  decide

/-- C21, amended: no run of `main` closes a wallet session: whether or not
`createSigner` opens one, and on every exit path, the run makes no `Close` call. -/
theorem main_never_closes_wallet (env : Env) (fl : Flags) :
    (main env fl).trace.filter Event.isWalletClose = [] := by
  rw [List.filter_eq_nil_iff]
  intro e he
  have hgoal : e.isWalletClose = false := by
    rcases main_shape env fl with ⟨f, _, _, hq⟩ |
        ⟨front, hash, s, e0, tail, hfront, _, _, _, he0, _, _, htrace, hend⟩
    · exact (quiet_facts e (hq e he)).2.2
    · rw [htrace] at he
      simp only [List.mem_append, List.mem_cons, List.not_mem_nil, or_false] at he
      rcases he with he | (he | he) | he | he | he
      · exact (quiet_facts e (hfront e he)).2.2
      · subst he; rfl
      · subst he; rfl
      · exact (quiet_facts e ((ledgerNote_facts fl.ledger).1 e he).1).2.2
      · subst he; exact (signCall_facts e he0).2
      · rcases hend with ⟨sig, _, _, ht⟩ | ⟨sig, err, _, _, ht⟩ | ⟨p, _, ht⟩
        · rw [ht] at he
          simp only [List.mem_append, List.mem_cons, List.not_mem_nil, or_false] at he
          rcases he with he | he | he | he
          · exact (quiet_facts e ((ledgerNote_facts fl.ledger).2 e he)).2.2
          · subst he; rfl
          · subst he; rfl
          · subst he; rfl
        · rw [ht] at he
          exact (quiet_facts e ((ledgerNote_facts fl.ledger).2 e he)).2.2
        · rw [ht] at he; simp at he
  simp [hgoal]

/-! ## The result lines -/

/-- C22: on every run of `main` that ends normally, the result lines written are, in
this order and once each, the domain hash (hex of `hash[2:34]`), the message hash (hex
of `hash[34:66]`), the full digest (hex of the 66 bytes), the signer address and the
signature (hex of the bytes returned by `sign`), for the extracted digest `hash` and the
signer that `createSigner` returned. -/
theorem main_output_order (env : Env) (fl : Flags) (h : (main env fl).out = .ok ()) :
    ∃ (hash sig : Bytes) (s : signer),
      hash.length = 66 ∧
      (∃ tr input, readInput env fl = ⟨tr, .ok input⟩ ∧
        hash = FromHex (TrimSpace (cutSuffix (cutPrefix input fl.prefix_) fl.suffix_))) ∧
      (∃ tr, createSigner env fl.privateKey fl.mnemonic fl.hdPath = ⟨tr, .ok (.ok s)⟩) ∧
      (s.sign env hash).out = .ok (sig, none) ∧
      resultLines (main env fl).trace
        = [.domainHash (EncodeToString (slice hash 2 34)),
           .messageHash (EncodeToString (slice hash 34 66)),
           .data (EncodeToString hash),
           .signerLine (env.AddressString (s.address env)),
           .signature (EncodeToString sig)] := by
  rcases main_shape env fl with ⟨f, hf, _, _⟩ |
      ⟨front, hash, s, e0, tail, hfront, hlen, hin, hcs, he0, _, _, htrace, hend⟩
  · rw [h] at hf; cases hf
  · rcases hend with ⟨sig, hsig, _, ht⟩ | ⟨sig, err, _, ho, _⟩ | ⟨p, ho, _⟩
    · refine ⟨hash, sig, s, hlen, hin, hcs, hsig, ?_⟩
      rw [htrace, ht]
      simp only [resultLines_append, resultLines_quiet front hfront,
        resultLines_quiet _ (fun e he => ((ledgerNote_facts fl.ledger).1 e he).1),
        resultLines_quiet _ (ledgerNote_facts fl.ledger).2, List.nil_append]
      have hcons : resultLines (e0 :: (ledgerNote fl.ledger .done ++
          [.stdout (.data (EncodeToString hash)),
           .stdout (.signerLine (env.AddressString (s.address env))),
           .stdout (.signature (EncodeToString sig))]))
          = resultLines (ledgerNote fl.ledger .done ++
          [.stdout (.data (EncodeToString hash)),
           .stdout (.signerLine (env.AddressString (s.address env))),
           .stdout (.signature (EncodeToString sig))]) := by
        unfold resultLines
        rw [List.filterMap_cons, (signCall_facts e0 he0).1]
      rw [hcons, resultLines_append, resultLines_quiet _ (ledgerNote_facts fl.ledger).2]
      rfl
    · rw [h] at ho; cases ho
    · rw [h] at ho; cases ho

set_option maxRecDepth 1000000 in
theorem main_output_order_witness :
    ∃ (hash sig : Bytes) (s : signer),
      hash.length = 66 ∧
      (∃ tr input, readInput Env.sample Flags.sampleStdin = ⟨tr, .ok input⟩ ∧
        hash = FromHex (TrimSpace (cutSuffix (cutPrefix input Flags.sampleStdin.prefix_)
          Flags.sampleStdin.suffix_))) ∧
      (∃ tr, createSigner Env.sample Flags.sampleStdin.privateKey Flags.sampleStdin.mnemonic
        Flags.sampleStdin.hdPath = ⟨tr, .ok (.ok s)⟩) ∧
      (s.sign Env.sample hash).out = .ok (sig, none) ∧
      resultLines (main Env.sample Flags.sampleStdin).trace
        = [.domainHash (EncodeToString (slice hash 2 34)),
           .messageHash (EncodeToString (slice hash 34 66)),
           .data (EncodeToString hash),
           .signerLine (Env.sample.AddressString (s.address Env.sample)),
           .signature (EncodeToString sig)] :=
  main_output_order Env.sample Flags.sampleStdin (by decide)

set_option maxRecDepth 1000000 in
/-- C23, counterexample: in ledger mode, with a 66-byte digest on standard input and one
connected ledger that refuses to sign, the run ends in the fatal error of line 100 after
it has written the domain hash and the message hash lines. -/
theorem main_signing_failure_after_hash_lines :
    createSigner Env.refusingLedger Flags.sampleLedger.privateKey
        Flags.sampleLedger.mnemonic Flags.sampleLedger.hdPath
      = ⟨[.parseDerivationPath (ascii "m/44'/60'/0'/0/0"), .newLedgerHub, .wallets,
          .walletOpen ⟨1⟩ [],
          .walletDerive ⟨1⟩ [0x8000002C, 0x8000003C, 0x80000000, 0, 0] true],
         .ok (.ok (.wallet ⟨⟨1⟩, ⟨List.replicate 20 1, 1⟩⟩))⟩ ∧
    (main Env.refusingLedger Flags.sampleLedger).out = .fatal (.signingData (.lib 5)) ∧
    resultLines (main Env.refusingLedger Flags.sampleLedger).trace
      = [.domainHash (List.replicate 64 0x61), .messageHash (List.replicate 64 0x61)] := by
  refine ⟨rfl, by decide, by decide⟩

/-- C23, amended: on a run of `main` that ends in a fatal error other than the signing
error (credential check, input acquisition, digest extraction, signer construction), no
result line has been written; on a run that ends in the signing error, the domain hash
and the message hash lines of the digest have been written, and no other result line. -/
theorem main_failure_result_lines (env : Env) (fl : Flags) (f : Fatal)
    (h : (main env fl).out = .fatal f) :
    ((∀ err, f ≠ .signingData err) → resultLines (main env fl).trace = []) ∧
    (∀ err, f = .signingData err →
      ∃ hash : Bytes,
        (∃ tr input, readInput env fl = ⟨tr, .ok input⟩ ∧
          hash = FromHex (TrimSpace (cutSuffix (cutPrefix input fl.prefix_) fl.suffix_))) ∧
        resultLines (main env fl).trace
          = [.domainHash (EncodeToString (slice hash 2 34)),
             .messageHash (EncodeToString (slice hash 34 66))]) := by
  rcases main_shape env fl with ⟨f', hf', hne, hq⟩ |
      ⟨front, hash, s, e0, tail, hfront, hlen, hin, hcs, he0, _, _, htrace, hend⟩
  · rw [h] at hf'
    have hff : f = f' := by injection hf'
    subst hff
    refine ⟨fun _ => resultLines_quiet _ hq, ?_⟩
    intro err he
    exact absurd he (hne err)
  · rcases hend with ⟨sig, _, ho, _⟩ | ⟨sig, err, _, ho, ht⟩ | ⟨p, ho, _⟩
    · rw [h] at ho; cases ho
    · rw [h] at ho
      have hff : f = .signingData err := by injection ho
      subst hff
      refine ⟨fun hn => absurd rfl (hn err), ?_⟩
      intro err' _
      refine ⟨hash, hin, ?_⟩
      rw [htrace, ht]
      simp only [resultLines_append, resultLines_quiet front hfront,
        resultLines_quiet _ (fun e he => ((ledgerNote_facts fl.ledger).1 e he).1),
        List.nil_append]
      have hcons : resultLines (e0 :: ledgerNote fl.ledger .done) = [] := by
        unfold resultLines
        rw [List.filterMap_cons, (signCall_facts e0 he0).1]
        exact resultLines_quiet _ (ledgerNote_facts fl.ledger).2
      rw [hcons]
      rfl
    · rw [h] at ho; cases ho

set_option maxRecDepth 1000000 in
theorem main_failure_result_lines_witness :
    resultLines (main Env.sample Flags.sampleCommand).trace = [] ∧
    ∃ hash : Bytes,
      (∃ tr input, readInput Env.refusingLedger Flags.sampleLedger = ⟨tr, .ok input⟩ ∧
        hash = FromHex (TrimSpace (cutSuffix (cutPrefix input Flags.sampleLedger.prefix_)
          Flags.sampleLedger.suffix_))) ∧
      resultLines (main Env.refusingLedger Flags.sampleLedger).trace
        = [.domainHash (EncodeToString (slice hash 2 34)),
           .messageHash (EncodeToString (slice hash 34 66))] :=
  ⟨(main_failure_result_lines Env.sample Flags.sampleCommand
      (.digestLength 6 (ascii "0x1901")) (by decide)).1 (by intro err h; cases h),
   (main_failure_result_lines Env.refusingLedger Flags.sampleLedger
      (.signingData (.lib 5)) (by decide)).2 (.lib 5) rfl⟩

/-! ## Display before signing -/

theorem split_unique {α : Type} (p : α → Bool) :
    ∀ (a pre : List α) (e0 e : α) (b post : List α),
      a ++ e0 :: b = pre ++ e :: post → (∀ x ∈ a, p x = false) → p e = true →
      p e0 = true → (∀ x ∈ b, p x = false) → pre = a ∧ e = e0 ∧ post = b := by
  intro a
  induction a with
  | nil =>
    intro pre e0 e b post h _ he _ hb
    cases pre with
    | nil =>
      simp only [List.nil_append, List.cons.injEq] at h
      exact ⟨rfl, h.1.symm, h.2.symm⟩
    | cons x pre =>
      simp only [List.nil_append, List.cons_append, List.cons.injEq] at h
      have hmem : e ∈ b := by rw [h.2]; simp
      rw [hb e hmem] at he
      cases he
  | cons x a ih =>
    intro pre e0 e b post h ha he he0 hb
    cases pre with
    | nil =>
      simp only [List.nil_append, List.cons_append, List.cons.injEq] at h
      have hx := ha x (List.mem_cons_self _ _)
      rw [h.1, he] at hx
      cases hx
    | cons y pre =>
      simp only [List.cons_append, List.cons.injEq] at h
      obtain ⟨h1, h2, h3⟩ := ih pre e0 e b post h.2
        (fun z hz => ha z (List.mem_cons_of_mem _ hz)) he he0 hb
      exact ⟨by rw [h.1, h1], h2, h3⟩

/-- C24: on every run of `main`, a sign call (`crypto.Sign` or `Wallet.SignData`, so
whatever the backend) is on the extracted digest `hash`, hashed with `Keccak256` for a
key signer and as it is for the device, and the events before it end with the domain
hash line and the message hash line of that same `hash`, followed only by the ledger
note; there is no other sign call in the run. -/
theorem main_display_before_sign (env : Env) (fl : Flags) (pre post : List Event)
    (e : Event) (hsplit : (main env fl).trace = pre ++ e :: post)
    (he : e.isSignCall = true) :
    ∃ (hash : Bytes) (front : List Event),
      ((∃ k, e = .cryptoSign (env.Keccak256 hash) k) ∨
       (∃ w a, e = .signData w a MimetypeTypedData hash)) ∧
      pre = front ++ ([.stdout (.domainHash (EncodeToString (slice hash 2 34))),
                       .stdout (.messageHash (EncodeToString (slice hash 34 66)))]
              ++ ledgerNote fl.ledger .awaitingLedger) ∧
      (∀ x ∈ pre, x.isSignCall = false) ∧ (∀ x ∈ post, x.isSignCall = false) := by
  rcases main_shape env fl with ⟨f, _, _, hq⟩ |
      ⟨front, hash, s, e0, tail, hfront, hlen, hin, hcs, he0, _, hform, htrace, hend⟩
  · have hmem : e ∈ (main env fl).trace := by rw [hsplit]; simp
    have := (quiet_facts e (hq e hmem)).2.1
    rw [this] at he
    cases he
  · have htail : ∀ x ∈ tail, x.isSignCall = false := by
      intro x hx
      rcases hend with ⟨sig, _, _, ht⟩ | ⟨sig, err, _, _, ht⟩ | ⟨p, _, ht⟩
      · rw [ht] at hx
        simp only [List.mem_append, List.mem_cons, List.not_mem_nil, or_false] at hx
        rcases hx with hx | hx | hx | hx
        · exact (quiet_facts x ((ledgerNote_facts fl.ledger).2 x hx)).2.1
        · subst hx; rfl
        · subst hx; rfl
        · subst hx; rfl
      · rw [ht] at hx
        exact (quiet_facts x ((ledgerNote_facts fl.ledger).2 x hx)).2.1
      · rw [ht] at hx; simp at hx
    have hbefore : ∀ x ∈ front ++ ([.stdout (.domainHash (EncodeToString (slice hash 2 34))),
        .stdout (.messageHash (EncodeToString (slice hash 34 66)))]
        ++ ledgerNote fl.ledger .awaitingLedger), x.isSignCall = false := by
      intro x hx
      simp only [List.mem_append, List.mem_cons, List.not_mem_nil, or_false] at hx
      rcases hx with hx | (hx | hx) | hx
      · exact (quiet_facts x (hfront x hx)).2.1
      · subst hx; rfl
      · subst hx; rfl
      · exact (quiet_facts x ((ledgerNote_facts fl.ledger).1 x hx).1).2.1
    have heq : (front ++ ([.stdout (.domainHash (EncodeToString (slice hash 2 34))),
        .stdout (.messageHash (EncodeToString (slice hash 34 66)))]
        ++ ledgerNote fl.ledger .awaitingLedger)) ++ e0 :: tail = pre ++ e :: post := by
      rw [← hsplit, htrace]
      simp only [List.append_assoc]
    obtain ⟨h1, h2, h3⟩ := split_unique Event.isSignCall _ pre e0 e tail post heq hbefore he
      he0 htail
    refine ⟨hash, front, ?_, h1, ?_, ?_⟩
    · rw [h2]; exact hform
    · rw [h1]; exact hbefore
    · rw [h3]; exact htail

set_option maxRecDepth 1000000 in
theorem main_display_before_sign_witness :
    ∃ (hash : Bytes) (front : List Event),
      ((∃ k, Event.signData ⟨1⟩ ⟨List.replicate 20 1, 1⟩ MimetypeTypedData
          (List.replicate 66 0xaa) = .cryptoSign (Env.sample.Keccak256 hash) k) ∨
       (∃ w a, Event.signData ⟨1⟩ ⟨List.replicate 20 1, 1⟩ MimetypeTypedData
          (List.replicate 66 0xaa) = .signData w a MimetypeTypedData hash)) ∧
      (main Env.sample Flags.sampleLedger).trace.take 10
        = front ++ ([.stdout (.domainHash (EncodeToString (slice hash 2 34))),
                     .stdout (.messageHash (EncodeToString (slice hash 34 66)))]
              ++ ledgerNote Flags.sampleLedger.ledger .awaitingLedger) ∧
      (∀ x ∈ (main Env.sample Flags.sampleLedger).trace.take 10, x.isSignCall = false) ∧
      (∀ x ∈ (main Env.sample Flags.sampleLedger).trace.drop 11, x.isSignCall = false) :=
  main_display_before_sign Env.sample Flags.sampleLedger
    ((main Env.sample Flags.sampleLedger).trace.take 10)
    ((main Env.sample Flags.sampleLedger).trace.drop 11)
    (.signData ⟨1⟩ ⟨List.replicate 20 1, 1⟩ MimetypeTypedData (List.replicate 66 0xaa))
    (by decide) rfl

/-! ## No fallback between credential sources -/

theorem derivePath_ofDerivation (env : Env) (path : DerivationPath) :
    ∀ (k : ExtendedKey), ∀ e ∈ (derivePath env k path).trace, e.ofDerivation = true := by
  intro k e he
  rw [derivePath_eq] at he
  simp only at he
  induction path generalizing k with
  | nil => simp [childCalls] at he
  | cons i path ih =>
    unfold childCalls at he
    simp only [List.mem_cons] at he
    rcases he with he | he
    · subst he; rfl
    · cases hc : env.Child k i with
      | error err => rw [hc] at he; simp at he
      | ok next => rw [hc] at he; exact ih next he

theorem derivePrivateKey_ofDerivation (env : Env) (mnemonic : Bytes) (path : DerivationPath) :
    ∀ e ∈ (derivePrivateKey env mnemonic path).trace, e.ofDerivation = true := by
  intro e he
  cases h1 : env.NewSeedWithErrorChecking mnemonic [] with
  | error err =>
    rw [derivePrivateKey_seed_error env mnemonic path err h1] at he
    simp at he; subst he; rfl
  | ok seed =>
    cases h2 : env.NewMaster seed [0, 0, 0, 0] [0, 0, 0, 0] with
    | error err =>
      have h2' : env.NewMaster seed fakeNetworkParams.HDPrivKeyVersion
          fakeNetworkParams.HDPubKeyVersion = .error err := h2
      unfold derivePrivateKey at he
      simp [h1, h2', emit, Run.bind] at he
      rcases he with he | he <;> subst he <;> rfl
    | ok master =>
      rw [derivePrivateKey_eq env mnemonic path seed master h1 h2] at he
      simp only [List.mem_append, List.mem_cons, List.not_mem_nil, or_false] at he
      rcases he with ((he | he) | he) | he
      · subst he; rfl
      · subst he; rfl
      · have := derivePath_ofDerivation env path master e
        rw [derivePath_eq] at this
        exact this he
      · cases hf : path.foldlM (fun k i => env.Child k i) master with
        | error err => rw [hf] at he; simp at he
        | ok key =>
          rw [hf] at he
          cases hs : env.SerializedPrivKey key with
          | error err => simp [hs] at he; subst he; rfl
          | ok raw =>
            simp [hs] at he
            rcases he with he | he <;> subst he <;> rfl

theorem ofDerivation_not_ledger (e : Event) (h : e.ofDerivation = true) :
    e.ofLedger = false := by
  cases e <;> first | rfl | cases h

/-- C25: `createSigner` called with a non-empty raw key that fails to parse returns the
wrapped parse error after the path parsing and the key parsing alone, with no
derivation and no device call, whatever the mnemonic; called with a mnemonic whose
derivation fails it returns the wrapped derivation error with no device call; and
`ecdsaSigner.sign` returns the nil signature whenever it returns an error. -/
theorem createSigner_no_fallback (env : Env) :
    (∀ (privateKey mnemonic hdPath : Bytes) (path : DerivationPath) (err : GoError),
      privateKey ≠ [] → env.ParseDerivationPath hdPath = .ok path →
      env.HexToECDSA privateKey = .error err →
      createSigner env privateKey mnemonic hdPath
        = ⟨[.parseDerivationPath hdPath, .hexToECDSA privateKey],
           .ok (.error (.errorf .parsingPrivateKey err))⟩) ∧
    (∀ (mnemonic hdPath : Bytes) (path : DerivationPath) (err : GoError),
      mnemonic ≠ [] → env.ParseDerivationPath hdPath = .ok path →
      (derivePrivateKey env mnemonic path).out = .ok (.error err) →
      createSigner env [] mnemonic hdPath
        = ⟨.parseDerivationPath hdPath :: (derivePrivateKey env mnemonic path).trace,
           .ok (.error (.errorf .derivingKeyFromMnemonic err))⟩ ∧
      ∀ e ∈ (createSigner env [] mnemonic hdPath).trace, e.ofLedger = false) ∧
    (∀ (s : ecdsaSigner) (data sig : Bytes) (err : GoError),
      (s.sign env data).out = .ok (sig, some err) → sig = []) := by
  refine ⟨?_, ?_, ?_⟩
  · intro privateKey mnemonic hdPath path err hk hp hx
    rw [createSigner_raw env privateKey mnemonic hdPath path hp hk, hx]
  · intro mnemonic hdPath path err hm hp hd
    have heq : createSigner env [] mnemonic hdPath
        = ⟨.parseDerivationPath hdPath :: (derivePrivateKey env mnemonic path).trace,
           .ok (.error (.errorf .derivingKeyFromMnemonic err))⟩ := by
      rw [createSigner_mnemonic env mnemonic hdPath path hp hm]
      simp only [hd]
    refine ⟨heq, ?_⟩
    rw [heq]
    intro e he
    simp only [List.mem_cons] at he
    rcases he with he | he
    · subst he; rfl
    · exact ofDerivation_not_ledger e (derivePrivateKey_ofDerivation env mnemonic path e he)
  · intro s data sig err h
    unfold ecdsaSigner.sign at h
    cases hs : env.Sign (env.Keccak256 data) s.PrivateKey with
    | error e =>
      simp [hs, emit, Run.bind] at h
      exact h.1
    | ok sg =>
      by_cases hl : RecoveryIDOffset < sg.length
      · simp [hs, emit, Run.bind, hl] at h
      · simp [hs, emit, Run.bind, hl, goPanic] at h

theorem createSigner_no_fallback_witness :
    createSigner Env.badKey (ascii "zz") (ascii "abandon") (ascii "m/0")
      = ⟨[.parseDerivationPath (ascii "m/0"), .hexToECDSA (ascii "zz")],
         .ok (.error (.errorf .parsingPrivateKey (.lib 3)))⟩ :=
  (createSigner_no_fallback Env.badKey).1 (ascii "zz") (ascii "abandon") (ascii "m/0")
    [0x8000002C, 0x8000003C, 0x80000000, 0, 0] (.lib 3) (by decide) rfl rfl

/-! ## The session of the single device -/

/-- C26: when exactly one wallet is discovered, `createSigner` opens it; if the open
fails it returns the wrapped error and no signer; otherwise it derives the account at
the parsed path, pinned, and returns the wrapped error if the device refuses; on
success the `walletSigner` holds that wallet and the derived account, and its address
is the address of that account. -/
theorem createSigner_single_device (env : Env) (hdPath : Bytes) (path : DerivationPath)
    (w : Wallet) (hp : env.ParseDerivationPath hdPath = .ok path)
    (hh : env.NewLedgerHub = .ok [w]) :
    (∀ err, env.Open w [] = some err →
      createSigner env [] [] hdPath
        = ⟨[.parseDerivationPath hdPath, .newLedgerHub, .wallets, .walletOpen w []],
           .ok (.error (.errorf .openingLedger err))⟩) ∧
    (env.Open w [] = none →
      (∀ err, env.Derive w path true = .error err →
        createSigner env [] [] hdPath
          = ⟨[.parseDerivationPath hdPath, .newLedgerHub, .wallets, .walletOpen w [],
              .walletDerive w path true],
             .ok (.error (.errorf .derivingLedgerAccount err))⟩) ∧
      (∀ account, env.Derive w path true = .ok account →
        createSigner env [] [] hdPath
          = ⟨[.parseDerivationPath hdPath, .newLedgerHub, .wallets, .walletOpen w [],
              .walletDerive w path true],
             .ok (.ok (.wallet ⟨w, account⟩))⟩ ∧
        signer.address env (.wallet ⟨w, account⟩) = account.Address)) := by
  refine ⟨?_, ?_⟩
  · intro err ho
    rw [createSigner_ledger env hdPath path hp]
    unfold createLedgerSigner
    simp [hh, ho, emit, Run.bind]
  · intro ho
    refine ⟨?_, ?_⟩
    · intro err hd
      rw [createSigner_ledger env hdPath path hp]
      unfold createLedgerSigner
      simp [hh, ho, hd, emit, Run.bind]
    · intro account hd
      refine ⟨?_, rfl⟩
      rw [createSigner_ledger env hdPath path hp]
      unfold createLedgerSigner
      simp [hh, ho, hd, emit, Run.bind]

theorem createSigner_single_device_witness :
    createSigner Env.sample [] [] (ascii "m/0")
      = ⟨[.parseDerivationPath (ascii "m/0"), .newLedgerHub, .wallets, .walletOpen ⟨1⟩ [],
          .walletDerive ⟨1⟩ [0x8000002C, 0x8000003C, 0x80000000, 0, 0] true],
         .ok (.ok (.wallet ⟨⟨1⟩, ⟨List.replicate 20 1, 1⟩⟩))⟩ ∧
      signer.address Env.sample (.wallet ⟨⟨1⟩, ⟨List.replicate 20 1, 1⟩⟩)
        = (⟨List.replicate 20 1, 1⟩ : Account).Address :=
  ((createSigner_single_device Env.sample (ascii "m/0")
    [0x8000002C, 0x8000003C, 0x80000000, 0, 0] ⟨1⟩ rfl rfl).2 rfl).2
    ⟨List.replicate 20 1, 1⟩ rfl

/-! ## Hex digit strings -/

theorem fromHexChar_some (c v : Nat) (h : fromHexChar c = some v) :
    v < 16 ∧ c < RuneSelf ∧ asciiSpace c = false ∧ c ≠ 0x78 ∧ c ≠ 0x58 ∧ c ≤ 0x66 ∧ 0x30 ≤ c := by
  unfold fromHexChar at h
  have hs : asciiSpace c = false ↔ ¬ (c = 0x09 ∨ c = 0x0A ∨ c = 0x0B ∨ c = 0x0C ∨ c = 0x0D
      ∨ c = 0x20) := by
    unfold asciiSpace
    simp
  unfold RuneSelf
  rw [hs]
  split at h
  · have := Option.some.inj h; omega
  · split at h
    · have := Option.some.inj h; omega
    · split at h
      · have := Option.some.inj h; omega
      · cases h

theorem IsHexDigits_ascii (h : Bytes) (hh : IsHexDigits h) :
    ∀ x ∈ h, x < RuneSelf ∧ asciiSpace x = false := by
  intro x hx
  have := hh x hx
  obtain ⟨v, hv⟩ := Option.isSome_iff_exists.mp this
  have hf := fromHexChar_some x v hv
  exact ⟨hf.2.1, hf.2.2.1⟩

theorem DecodeString_hex :
    ∀ (s : Bytes), IsHexDigits s → s.length % 2 = 0 →
      (DecodeString s).1.length = s.length / 2 ∧ (DecodeString s).2 = none
  | [], _, _ => ⟨rfl, rfl⟩
  | [p], _, h => by simp at h
  | p :: q :: rest, hh, h => by
    obtain ⟨a, ha⟩ := Option.isSome_iff_exists.mp (hh p (by simp))
    obtain ⟨b, hb⟩ := Option.isSome_iff_exists.mp (hh q (by simp))
    have hrest : IsHexDigits rest := fun c hc => hh c (by simp [hc])
    have hlen : rest.length % 2 = 0 := by
      simp only [List.length_cons] at h; omega
    obtain ⟨h1, h2⟩ := DecodeString_hex rest hrest hlen
    unfold DecodeString
    rw [ha, hb]
    simp only [List.length_cons, h1, h2]
    exact ⟨by omega, trivial⟩

theorem has0xPrefix_hex (h : Bytes) (hh : IsHexDigits h) : has0xPrefix h = false := by
  match h, hh with
  | [], _ => rfl
  | [_], _ => rfl
  | p :: q :: rest, hh =>
    obtain ⟨b, hb⟩ := Option.isSome_iff_exists.mp (hh q (by simp))
    have hf := fromHexChar_some q b hb
    simp [has0xPrefix, hf.2.2.2.1, hf.2.2.2.2.1]

theorem has0xPrefix_0x (h : Bytes) : has0xPrefix (0x30 :: 0x78 :: h) = true := by
  simp [has0xPrefix]

theorem FromHex_hex (h : Bytes) (hh : IsHexDigits h) :
    FromHex h = Hex2Bytes (if h.length % 2 = 1 then 0x30 :: h else h) ∧
    FromHex (ascii "0x" ++ h) = Hex2Bytes (if h.length % 2 = 1 then 0x30 :: h else h) := by
  refine ⟨?_, ?_⟩
  · unfold FromHex
    simp only [has0xPrefix_hex h hh, Bool.false_eq_true, if_false]
  · have h0 : ascii "0x" ++ h = 0x30 :: 0x78 :: h := rfl
    rw [h0]
    unfold FromHex
    simp only [has0xPrefix_0x, if_true, List.drop_succ_cons, List.drop_zero]

theorem cut_empty_markers (input : Bytes) : cutSuffix (cutPrefix input []) [] = input := by
  simp [cutSuffix, cutPrefix]

/-! ## Odd-length hex -/

/-- C30: a string `h` of 131 hex digits, with or without a leading `0x`, is decoded as
the 132 digits `0` followed by `h`: the result has 66 bytes, its first byte is below 16
(zero high nibble), and digest extraction accepts it. -/
theorem odd_length_hex_accepted (h : Bytes) (hlen : h.length = 131) (hh : IsHexDigits h) :
    FromHex h = Hex2Bytes (0x30 :: h) ∧
    FromHex (ascii "0x" ++ h) = Hex2Bytes (0x30 :: h) ∧
    (DecodeString (0x30 :: h)).2 = none ∧
    (Hex2Bytes (0x30 :: h)).length = 66 ∧
    (∃ b rest, Hex2Bytes (0x30 :: h) = b :: rest ∧ b < 16 ∧ b >>> 4 = 0) ∧
    extractDigest h [] [] = ⟨[.stdout .blank], .ok (Hex2Bytes (0x30 :: h))⟩ ∧
    extractDigest (ascii "0x" ++ h) [] [] = ⟨[.stdout .blank], .ok (Hex2Bytes (0x30 :: h))⟩ := by
  have hodd : h.length % 2 = 1 := by rw [hlen]
  have hpad : IsHexDigits (0x30 :: h) := by
    intro c hc
    simp only [List.mem_cons] at hc
    rcases hc with hc | hc
    · subst hc; rfl
    · exact hh c hc
  have hdec := DecodeString_hex (0x30 :: h) hpad (by simp only [List.length_cons]; omega)
  have hF := FromHex_hex h hh
  rw [if_pos hodd] at hF
  have h66 : (Hex2Bytes (0x30 :: h)).length = 66 := by
    unfold Hex2Bytes
    rw [hdec.1]
    simp only [List.length_cons, hlen]
  have hfirst : ∃ b rest, Hex2Bytes (0x30 :: h) = b :: rest ∧ b < 16 ∧ b >>> 4 = 0 := by
    match h, hlen, hh with
    | q :: rest, _, hh =>
      obtain ⟨b, hb⟩ := Option.isSome_iff_exists.mp (hh q (by simp))
      have hb16 := (fromHexChar_some q b hb).1
      have h0 : fromHexChar 0x30 = some 0 := rfl
      refine ⟨b, (DecodeString rest).1, ?_, hb16, ?_⟩
      · simp only [Hex2Bytes, DecodeString, h0, hb, Nat.zero_shiftLeft, Nat.zero_or]
        rw [Nat.mod_eq_of_lt (by omega)]
      · rw [Nat.shiftRight_eq_div_pow]
        exact Nat.div_eq_of_lt (by omega)
  have hx : ∀ t : Bytes, (∀ x ∈ t, x < RuneSelf ∧ asciiSpace x = false) →
      FromHex t = Hex2Bytes (0x30 :: h) →
      extractDigest t [] [] = ⟨[.stdout .blank], .ok (Hex2Bytes (0x30 :: h))⟩ := by
    intro t ht hf
    rw [extractDigest_eq, cut_empty_markers, TrimSpace_ascii t ht, hf, if_neg (by rw [h66]; simp)]
  refine ⟨hF.1, hF.2, hdec.2, h66, hfirst, hx h (IsHexDigits_ascii h hh) hF.1, ?_⟩
  apply hx _ _ hF.2
  intro x hxm
  have h0 : ascii "0x" ++ h = 0x30 :: 0x78 :: h := rfl
  rw [h0] at hxm
  simp only [List.mem_cons] at hxm
  rcases hxm with hxm | hxm | hxm
  · subst hxm; decide
  · subst hxm; decide
  · exact IsHexDigits_ascii h hh x hxm

set_option maxRecDepth 1000000 in
theorem odd_length_hex_accepted_witness :
    (Hex2Bytes (0x30 :: List.replicate 131 0x66)).length = 66 :=
  (odd_length_hex_accepted (List.replicate 131 0x66) (by decide) (by decide)).2.2.2.1

/-! ## The scheme bytes -/

theorem hextable_range : ∀ n, n < 16 → 0x30 ≤ hextable n ∧ hextable n ≤ 0x66 := by
  decide

theorem EncodeToString_range :
    ∀ (d : Bytes), IsBytes d → ∀ x ∈ EncodeToString d, 0x30 ≤ x ∧ x ≤ 0x66
  | [], _ => by simp [EncodeToString]
  | v :: rest, h => by
    have hv : v < 256 := h v (List.mem_cons_self _ _)
    have hrest : IsBytes rest := fun b hb => h b (List.mem_cons_of_mem _ hb)
    obtain ⟨h1, h2⟩ := nibbles_lt v hv
    intro x hx
    unfold EncodeToString at hx
    simp only [List.mem_cons] at hx
    rcases hx with hx | hx | hx
    · subst hx; exact hextable_range _ h1
    · subst hx; exact hextable_range _ h2
    · exact EncodeToString_range rest hrest x hx

theorem not_occurs_of_not_mem (t p : Bytes) (c : Nat) (hc : c ∉ t) :
    ¬ ∃ a b, t = a ++ (c :: p) ++ b := by
  rintro ⟨a, b, h⟩
  apply hc
  rw [h]
  simp

theorem cut_default_markers_0x_hex (d : Bytes) (hb : IsBytes d) :
    cutSuffix (cutPrefix (ascii "0x" ++ EncodeToString d) Flags.defaults.prefix_)
      Flags.defaults.suffix_ = ascii "0x" ++ EncodeToString d := by
  have h0 : ascii "0x" ++ EncodeToString d = 0x30 :: 0x78 :: EncodeToString d := rfl
  have hnot : ∀ c, c = 118 ∨ c = 94 → c ∉ ascii "0x" ++ EncodeToString d := by
    intro c hc hmem
    rw [h0] at hmem
    rcases hc with hc | hc
    · subst hc
      have hr : 118 ∈ EncodeToString d := by simpa using hmem
      have := (EncodeToString_range d hb 118 hr).2
      omega
    · subst hc
      have hr : 94 ∈ EncodeToString d := by simpa using hmem
      exact EncodeToString_ne 94 (Or.inr (by decide)) d hr
  have hpre : Flags.defaults.prefix_ = 118 :: List.replicate 7 118 := rfl
  have hsuf : Flags.defaults.suffix_ = 94 :: List.replicate 7 94 := rfl
  rw [hpre, hsuf]
  have h1 : cutPrefix (ascii "0x" ++ EncodeToString d) (118 :: List.replicate 7 118)
      = ascii "0x" ++ EncodeToString d := by
    unfold cutPrefix
    rw [Index_absent _ _ (not_occurs_of_not_mem _ (List.replicate 7 118) 118
      (hnot 118 (Or.inl rfl)))]
    simp
  rw [h1]
  unfold cutSuffix
  rw [Index_absent _ _ (not_occurs_of_not_mem _ (List.replicate 7 94) 94
    (hnot 94 (Or.inr rfl)))]
  simp

/-- C29: a decoded value of 66 bytes is accepted whatever its bytes: for every 66-byte
value `d`, the text `0x` followed by the hex of `d` extracts `d` under the default
markers, and so does every text that decodes to `d`; the whole of `d`, its first two
bytes included, is then what the sign call receives, hashed as a whole for a key signer
and as it is for the device. -/
theorem scheme_bytes_not_checked (d : Bytes) (hd : d.length = 66) (hb : IsBytes d) :
    extractDigest (ascii "0x" ++ EncodeToString d) Flags.defaults.prefix_
        Flags.defaults.suffix_ = ⟨[.stdout .blank], .ok d⟩ ∧
    (∀ input prefix_ suffix_ : Bytes,
      FromHex (TrimSpace (cutSuffix (cutPrefix input prefix_) suffix_)) = d →
      extractDigest input prefix_ suffix_ = ⟨[.stdout .blank], .ok d⟩) ∧
    (∀ (env : Env) (fl : Flags) (s : signer) (tr : List Event),
      createSigner env fl.privateKey fl.mnemonic fl.hdPath = ⟨tr, .ok (.ok s)⟩ →
      ∃ (e : Event) (rest : List Event),
        (signAndReport env fl d).trace
          = tr ++ ([.stdout (.domainHash (EncodeToString (slice d 2 34))),
                    .stdout (.messageHash (EncodeToString (slice d 34 66)))]
              ++ (ledgerNote fl.ledger .awaitingLedger ++ e :: rest)) ∧
        ((∃ k, e = .cryptoSign (env.Keccak256 d) k) ∨
         (∃ w a, e = .signData w a MimetypeTypedData d))) := by
  have hgen : ∀ input prefix_ suffix_ : Bytes,
      FromHex (TrimSpace (cutSuffix (cutPrefix input prefix_) suffix_)) = d →
      extractDigest input prefix_ suffix_ = ⟨[.stdout .blank], .ok d⟩ := by
    intro input prefix_ suffix_ h
    rw [extractDigest_eq, h, if_neg (by rw [hd]; simp)]
  refine ⟨?_, hgen, ?_⟩
  · apply hgen
    rw [cut_default_markers_0x_hex d hb]
    have h3 : TrimSpace (ascii "0x" ++ EncodeToString d) = ascii "0x" ++ EncodeToString d := by
      apply TrimSpace_ascii
      intro x hx
      have h0 : ascii "0x" ++ EncodeToString d = 0x30 :: 0x78 :: EncodeToString d := rfl
      rw [h0] at hx
      simp only [List.mem_cons] at hx
      rcases hx with hx | hx | hx
      · subst hx; decide
      · subst hx; decide
      · exact EncodeToString_ascii d hb x hx
    rw [h3, FromHex_0x_EncodeToString d hb]
  · intro env fl s tr hs
    obtain ⟨e0, _, hform, hsign⟩ := signer_sign_cases env s d
    have hform' : (∃ k, e0 = .cryptoSign (env.Keccak256 d) k) ∨
        (∃ w a, e0 = .signData w a MimetypeTypedData d) := by
      rcases hform with h | h
      · exact Or.inl ⟨_, h⟩
      · exact Or.inr h
    rw [signAndReport_of_signer env fl d tr s hs]
    rcases hsign with ⟨sig, hsg⟩ | ⟨sig, err, hsg⟩ | ⟨p, hsg⟩ <;>
      exact ⟨e0, _, by rw [hsg]; rfl, hform'⟩

set_option maxRecDepth 1000000 in
theorem scheme_bytes_not_checked_witness :
    extractDigest (ascii "0x" ++ EncodeToString (List.replicate 66 0xff))
        Flags.defaults.prefix_ Flags.defaults.suffix_
      = ⟨[.stdout .blank], .ok (List.replicate 66 0xff)⟩ :=
  (scheme_bytes_not_checked (List.replicate 66 0xff) (by decide) (by decide)).1

/-! ## Marker collision -/

set_option maxRecDepth 1000000 in
/-- C28: there are a suffix marker and a text `n1 ++ prefix ++ hex(d) ++ suffix ++ n2`,
with `d` a 66-byte digest, such that the marker also occurs inside the hex data: the
cut is made at that first occurrence, and extraction fails instead of returning `d`.
In general, a non-empty marker cuts at its first occurrence, also when the text
holds a later one, and each cut is made once. -/
theorem marker_collision :
    (∃ (d n1 n2 suffix_ : Bytes),
      d.length = 66 ∧ IsBytes d ∧ suffix_ ≠ [] ∧
      (∃ a b, EncodeToString d = a ++ suffix_ ++ b) ∧
      cutPrefix (n1 ++ ascii "vvvvvvvv" ++ EncodeToString d ++ suffix_ ++ n2)
          (ascii "vvvvvvvv") = EncodeToString d ++ suffix_ ++ n2 ∧
      cutSuffix (EncodeToString d ++ suffix_ ++ n2) suffix_ = ascii "1901" ∧
      extractDigest (n1 ++ ascii "vvvvvvvv" ++ EncodeToString d ++ suffix_ ++ n2)
          (ascii "vvvvvvvv") suffix_
        = ⟨[.stdout .blank], .fatal (.digestLength 4 (ascii "1901"))⟩ ∧
      (extractDigest (n1 ++ ascii "vvvvvvvv" ++ EncodeToString d ++ suffix_ ++ n2)
          (ascii "vvvvvvvv") suffix_).out ≠ .ok d) ∧
    (∀ a p b : Bytes, p ≠ [] →
      (∀ a' b', a ++ p ++ b = a' ++ p ++ b' → a.length ≤ a'.length) →
      cutPrefix (a ++ p ++ b) p = b ∧ cutSuffix (a ++ p ++ b) p = a) := by
  refine ⟨⟨sampleDigest, ascii "noise ", ascii " noise", ascii "ab", by decide, by decide,
    by decide, ⟨ascii "1901", EncodeToString (List.replicate 63 0xab), by decide⟩, by decide,
    by decide, by decide, ?_⟩, ?_⟩
  · have h : extractDigest (ascii "noise " ++ ascii "vvvvvvvv" ++ EncodeToString sampleDigest
        ++ ascii "ab" ++ ascii " noise") (ascii "vvvvvvvv") (ascii "ab")
        = ⟨[.stdout .blank], .fatal (.digestLength 4 (ascii "1901"))⟩ := by decide
    rw [h]
    intro hc
    cases hc
  · intro a p b hp hmin
    exact ⟨cutPrefix_of_first a p b hp hmin, cutSuffix_of_first a p b hp hmin⟩

set_option maxRecDepth 1000000 in
theorem marker_collision_witness :
    cutPrefix (ascii "log " ++ ascii "vv" ++ ascii "0x1901 vv") (ascii "vv")
        = ascii "0x1901 vv" ∧
      cutSuffix (ascii "log " ++ ascii "vv" ++ ascii "0x1901 vv") (ascii "vv")
        = ascii "log " :=
  marker_collision.2 (ascii "log ") (ascii "vv") (ascii "0x1901 vv") (by decide)
    (first_of_not_mem (ascii "log ") (ascii "0x1901 vv") [118] 118 (by decide))

/-! ## White space in `strings.TrimSpace` -/

theorem spaceEncodings_decode :
    ∀ r ∈ spaceEncodings, IsSpace (DecodeRuneInString r).1 = true ∧
      (DecodeRuneInString r).2 = r.length ∧ r ≠ [] ∧
      ((r.length = 1 ∧ r.getD 0 0 < RuneSelf ∧ asciiSpace (r.getD 0 0) = true) ∨
       (RuneSelf ≤ r.getD 0 0 ∧ RuneSelf ≤ r.getD (r.length - 1) 0)) := by
  decide

theorem DecodeRuneInString_append :
    ∀ r ∈ spaceEncodings, ∀ rest : Bytes,
      DecodeRuneInString (r ++ rest) = DecodeRuneInString r := by
  intro r hr rest
  simp only [spaceEncodings, List.mem_cons, List.mem_singleton, List.not_mem_nil,
    or_false] at hr
  repeat' (rcases hr with hr | hr)
  all_goals simp [DecodeRuneInString, first, RuneError]

theorem lastRuneScan_hit (s : Bytes) (lim start : Int) (fuel : Nat) (hf : 0 < fuel)
    (h1 : start ≥ lim) (h2 : RuneStart (s.getD start.toNat 0) = true) :
    lastRuneScan s lim fuel start = start := by
  cases fuel with
  | zero => omega
  | succ n =>
    unfold lastRuneScan
    rw [if_pos h1, if_pos h2]

theorem lastRuneScan_miss (s : Bytes) (lim start : Int) (fuel : Nat) (hf : 0 < fuel)
    (h1 : start ≥ lim) (h2 : RuneStart (s.getD start.toNat 0) = false) :
    lastRuneScan s lim fuel start = lastRuneScan s lim (fuel - 1) (start - 1) := by
  cases fuel with
  | zero => omega
  | succ n =>
    conv_lhs => unfold lastRuneScan
    rw [if_pos h1, h2]
    simp

theorem getD_append_at (pre r : Bytes) (j : Nat) :
    (pre ++ r).getD (pre.length + j) 0 = r.getD j 0 := by
  rw [List.getD_eq_getElem?_getD, List.getD_eq_getElem?_getD,
    List.getElem?_append_right (by omega)]
  congr 2
  omega

theorem DecodeLastRuneInString_one (pre : Bytes) (c : Nat) (hc : c < RuneSelf) :
    DecodeLastRuneInString (pre ++ [c]) = (c, 1) := by
  unfold DecodeLastRuneInString
  have hlen : (pre ++ [c]).length = pre.length + 1 := by simp
  have hg : (pre ++ [c]).getD (pre.length + 1 - 1) 0 = c := by
    have := getD_append_at pre [c] 0
    simp
  simp only [hlen, hg]
  rw [if_neg (by omega), if_pos hc]

theorem DecodeLastRuneInString_two (pre : Bytes) (a b : Nat) (hb : RuneSelf ≤ b)
    (ha : RuneStart a = true) (hd : (DecodeRuneInString [a, b]).2 = 2) :
    DecodeLastRuneInString (pre ++ [a, b]) = DecodeRuneInString [a, b] := by
  unfold DecodeLastRuneInString
  have hlen : (pre ++ [a, b]).length = pre.length + 2 := by simp
  have hg : (pre ++ [a, b]).getD (pre.length + 2 - 1) 0 = b := by
    have := getD_append_at pre [a, b] 1
    simpa using this
  have hs0 : ((pre.length + 2 : Nat) : Int) - 1 - 1 = (pre.length : Int) := by omega
  have hlim : (if ((pre.length + 2 : Nat) : Int) - (UTFMax : Nat) < 0 then (0 : Int)
      else ((pre.length + 2 : Nat) : Int) - (UTFMax : Nat)) ≤ (pre.length : Int) := by
    unfold UTFMax
    split <;> omega
  have hga : (pre ++ [a, b]).getD ((pre.length : Int)).toNat 0 = a := by
    have := getD_append_at pre [a, b] 0
    simpa using this
  simp only [hlen, hg, hs0]
  rw [if_neg (by omega), if_neg (by omega)]
  rw [lastRuneScan_hit _ _ _ _ (by decide) hlim (by rw [hga]; exact ha)]
  have hnn : ¬ ((pre.length : Int) < 0) := by omega
  simp only [if_neg hnn, Int.toNat_ofNat, List.drop_left]
  rw [if_neg (by rw [hd]; simp)]

theorem DecodeLastRuneInString_three (pre : Bytes) (a b c : Nat) (hc : RuneSelf ≤ c)
    (hb : RuneStart b = false) (ha : RuneStart a = true)
    (hd : (DecodeRuneInString [a, b, c]).2 = 3) :
    DecodeLastRuneInString (pre ++ [a, b, c]) = DecodeRuneInString [a, b, c] := by
  unfold DecodeLastRuneInString
  have hlen : (pre ++ [a, b, c]).length = pre.length + 3 := by simp
  have hg : (pre ++ [a, b, c]).getD (pre.length + 3 - 1) 0 = c := by
    have := getD_append_at pre [a, b, c] 2
    simpa using this
  have hs0 : ((pre.length + 3 : Nat) : Int) - 1 - 1 = ((pre.length + 1 : Nat) : Int) := by
    omega
  have hs1 : ((pre.length + 1 : Nat) : Int) - 1 = (pre.length : Int) := by omega
  have hlim1 : (if ((pre.length + 3 : Nat) : Int) - (UTFMax : Nat) < 0 then (0 : Int)
      else ((pre.length + 3 : Nat) : Int) - (UTFMax : Nat)) ≤ ((pre.length + 1 : Nat) : Int) := by
    unfold UTFMax
    split <;> omega
  have hlim0 : (if ((pre.length + 3 : Nat) : Int) - (UTFMax : Nat) < 0 then (0 : Int)
      else ((pre.length + 3 : Nat) : Int) - (UTFMax : Nat)) ≤ (pre.length : Int) := by
    unfold UTFMax
    split <;> omega
  have hgb : (pre ++ [a, b, c]).getD (((pre.length + 1 : Nat) : Int)).toNat 0 = b := by
    have := getD_append_at pre [a, b, c] 1
    simpa using this
  have hga : (pre ++ [a, b, c]).getD ((pre.length : Int)).toNat 0 = a := by
    have := getD_append_at pre [a, b, c] 0
    simpa using this
  simp only [hlen, hg, hs0]
  rw [if_neg (by omega), if_neg (by omega)]
  rw [lastRuneScan_miss _ _ _ _ (by decide) hlim1 (by rw [hgb]; exact hb), hs1,
    lastRuneScan_hit _ _ _ _ (by decide) hlim0 (by rw [hga]; exact ha)]
  have hnn : ¬ ((pre.length : Int) < 0) := by omega
  simp only [if_neg hnn, Int.toNat_ofNat, List.drop_left]
  rw [if_neg (by rw [hd]; simp)]

theorem DecodeLastRuneInString_space :
    ∀ r ∈ spaceEncodings, ∀ pre : Bytes,
      DecodeLastRuneInString (pre ++ r) = DecodeRuneInString r := by
  intro r hr pre
  simp only [spaceEncodings, List.mem_cons, List.mem_singleton, List.not_mem_nil,
    or_false] at hr
  repeat' (rcases hr with hr | hr)
  all_goals
    first
    | exact DecodeLastRuneInString_one pre _ (by decide)
    | exact DecodeLastRuneInString_two pre _ _ (by decide) (by decide) (by decide)
    | exact DecodeLastRuneInString_three pre _ _ _ (by decide) (by decide) (by decide)
        (by decide)

theorem DecodeRuneInString_ascii (c : Nat) (rest : Bytes) (hc : c < RuneSelf) :
    DecodeRuneInString (c :: rest) = (c, 1) := by
  unfold RuneSelf at hc
  have hf : first c = .as := by
    unfold first
    rw [if_pos (by omega)]
  simp only [DecodeRuneInString, hf]

theorem IsSpace_ascii (c : Nat) (hc : c < RuneSelf) : IsSpace c = asciiSpace c := by
  unfold RuneSelf at hc
  unfold IsSpace asciiSpace
  rw [if_pos (by omega)]
  have h1 : c ≠ 0x85 := by omega
  have h2 : c ≠ 0xA0 := by omega
  simp [h1, h2]

theorem length_le_flatten (rs : List Bytes) (hv : ∀ r ∈ rs, r ∈ spaceEncodings) :
    rs.length ≤ rs.flatten.length := by
  induction rs with
  | nil => simp
  | cons r rs ih =>
    have hr := (spaceEncodings_decode r (hv r (List.mem_cons_self _ _))).2.2.1
    have hpos : 0 < r.length := List.length_pos.mpr hr
    have := ih (fun x hx => hv x (List.mem_cons_of_mem _ hx))
    simp only [List.flatten_cons, List.length_append, List.length_cons]
    omega

theorem indexFuncLoop_after_space (rs : List Bytes) (hv : ∀ r ∈ rs, r ∈ spaceEncodings) :
    ∀ (fuel i c : Nat) (rest : Bytes), rs.length < fuel → c < RuneSelf →
      asciiSpace c = false →
      indexFuncLoop IsSpace false fuel (rs.flatten ++ c :: rest) i
        = ((i + rs.flatten.length : Nat) : Int) := by
  induction rs with
  | nil =>
    intro fuel i c rest hf hc hs
    cases fuel with
    | zero => simp at hf
    | succ n =>
      simp only [List.flatten_nil, List.nil_append, List.length_nil, Nat.add_zero]
      unfold indexFuncLoop
      rw [if_neg (by simp), DecodeRuneInString_ascii c rest hc]
      simp only [IsSpace_ascii c hc, hs, if_true]
  | cons r rs ih =>
    intro fuel i c rest hf hc hs
    have hr := spaceEncodings_decode r (hv r (List.mem_cons_self _ _))
    cases fuel with
    | zero => simp at hf
    | succ n =>
      have hne : r ++ (rs.flatten ++ c :: rest) ≠ [] := by
        intro h
        have := congrArg List.length h
        simp at this
      simp only [List.flatten_cons, List.append_assoc]
      unfold indexFuncLoop
      rw [if_neg hne,
        DecodeRuneInString_append r (hv r (List.mem_cons_self _ _)) (rs.flatten ++ c :: rest)]
      have hsp : ¬ (IsSpace (DecodeRuneInString r).1 = false) := by rw [hr.1]; simp
      simp only [if_neg hsp, hr.2.1, List.drop_left]
      rw [ih (fun x hx => hv x (List.mem_cons_of_mem _ hx)) n (i + r.length) c rest
        (by simp only [List.length_cons] at hf; omega) hc hs]
      simp only [List.length_append]
      congr 1
      omega

theorem indexFuncLoop_all_space (rs : List Bytes) (hv : ∀ r ∈ rs, r ∈ spaceEncodings) :
    ∀ (fuel i : Nat), indexFuncLoop IsSpace false fuel rs.flatten i = -1 := by
  induction rs with
  | nil =>
    intro fuel i
    cases fuel <;> simp [indexFuncLoop]
  | cons r rs ih =>
    intro fuel i
    have hr := spaceEncodings_decode r (hv r (List.mem_cons_self _ _))
    cases fuel with
    | zero => rfl
    | succ n =>
      have hne : r ++ rs.flatten ≠ [] := by
        intro h
        exact hr.2.2.1 (List.append_eq_nil.mp h).1
      simp only [List.flatten_cons]
      unfold indexFuncLoop
      rw [if_neg hne]
      have hdec := DecodeRuneInString_append r (hv r (List.mem_cons_self _ _)) rs.flatten
      have hsp : ¬ (IsSpace (DecodeRuneInString r).1 = false) := by rw [hr.1]; simp
      simp only [hdec, if_neg hsp, hr.2.1, List.drop_left]
      exact ih (fun x hx => hv x (List.mem_cons_of_mem _ hx)) n _

theorem TrimLeftFunc_after_space (rs : List Bytes) (hv : ∀ r ∈ rs, r ∈ spaceEncodings)
    (c : Nat) (rest : Bytes) (hc : c < RuneSelf) (hs : asciiSpace c = false) :
    TrimLeftFunc (rs.flatten ++ c :: rest) IsSpace = c :: rest := by
  unfold TrimLeftFunc indexFunc
  have hfuel : rs.length < (rs.flatten ++ c :: rest).length := by
    have := length_le_flatten rs hv
    simp only [List.length_append, List.length_cons]
    omega
  rw [indexFuncLoop_after_space rs hv _ 0 c rest hfuel hc hs]
  simp only [Nat.zero_add]
  rw [if_neg (by omega), Int.toNat_ofNat, List.drop_left]

theorem TrimLeftFunc_all_space (rs : List Bytes) (hv : ∀ r ∈ rs, r ∈ spaceEncodings) :
    TrimLeftFunc rs.flatten IsSpace = [] := by
  unfold TrimLeftFunc indexFunc
  rw [indexFuncLoop_all_space rs hv]
  simp

theorem lastIndexFuncLoop_before_space (rs : List Bytes) :
    (∀ r ∈ rs, r ∈ spaceEncodings) →
    ∀ (pre : Bytes) (c : Nat) (z : Bytes) (fuel : Nat), rs.length < fuel → c < RuneSelf →
      asciiSpace c = false →
      lastIndexFuncLoop ((pre ++ [c]) ++ rs.flatten ++ z) IsSpace false fuel
          ((pre ++ [c]) ++ rs.flatten).length
        = (pre.length : Int) := by
  induction rs using List.reverseRecOn with
  | nil =>
    intro _ pre c z fuel hf hc hs
    cases fuel with
    | zero => simp at hf
    | succ n =>
      simp only [List.flatten_nil, List.append_nil]
      unfold lastIndexFuncLoop
      rw [if_neg (by simp)]
      have htake : ((pre ++ [c]) ++ z).take (pre ++ [c]).length = pre ++ [c] :=
        List.take_left' rfl
      simp only [htake, DecodeLastRuneInString_one pre c hc, IsSpace_ascii c hc, hs, if_true]
      simp
  | append_singleton rs r ih =>
    intro hv pre c z fuel hf hc hs
    have hrm : r ∈ spaceEncodings := hv r (by simp)
    have hvs : ∀ x ∈ rs, x ∈ spaceEncodings := fun x hx => hv x (by simp [hx])
    have hr := spaceEncodings_decode r hrm
    cases fuel with
    | zero => simp at hf
    | succ n =>
      have hfl : (rs ++ [r]).flatten = rs.flatten ++ r := by simp
      have hpos : 0 < r.length := List.length_pos.mpr hr.2.2.1
      rw [hfl]
      unfold lastIndexFuncLoop
      rw [if_neg (by simp only [List.length_append]; omega)]
      have htake : ((pre ++ [c]) ++ (rs.flatten ++ r) ++ z).take
          ((pre ++ [c]) ++ (rs.flatten ++ r)).length = ((pre ++ [c]) ++ rs.flatten) ++ r := by
        rw [List.take_left' rfl]
        simp only [List.append_assoc]
      have hsp : ¬ (IsSpace (DecodeRuneInString r).1 = false) := by rw [hr.1]; simp
      simp only [htake, DecodeLastRuneInString_space r hrm, if_neg hsp, hr.2.1]
      have hi : ((pre ++ [c]) ++ (rs.flatten ++ r)).length - r.length
          = ((pre ++ [c]) ++ rs.flatten).length := by
        simp only [List.length_append]; omega
      have hx : (pre ++ [c]) ++ (rs.flatten ++ r) ++ z
          = (pre ++ [c]) ++ rs.flatten ++ (r ++ z) := by
        simp only [List.append_assoc]
      rw [hi, hx]
      exact ih hvs pre c (r ++ z) n (by simp only [List.length_append, List.length_singleton] at hf; omega) hc hs

theorem TrimRightFunc_before_space (rs : List Bytes) (hv : ∀ r ∈ rs, r ∈ spaceEncodings)
    (pre : Bytes) (c : Nat) (hc : c < RuneSelf) (hs : asciiSpace c = false) :
    TrimRightFunc ((pre ++ [c]) ++ rs.flatten) IsSpace = pre ++ [c] := by
  unfold TrimRightFunc lastIndexFunc
  have hfuel : rs.length < ((pre ++ [c]) ++ rs.flatten).length := by
    have := length_le_flatten rs hv
    simp only [List.length_append, List.length_singleton]
    omega
  have h := lastIndexFuncLoop_before_space rs hv pre c [] _ hfuel hc hs
  rw [List.append_nil] at h
  rw [h]
  have hg : ((pre ++ [c]) ++ rs.flatten).getD ((pre.length : Int)).toNat 0 = c := by
    rw [Int.toNat_ofNat, List.append_assoc]
    have := getD_append_at pre ([c] ++ rs.flatten) 0
    simpa using this
  simp only [hg]
  rw [if_neg (by intro hh; exact absurd hh.2 (by omega))]
  have : ((pre.length : Int) + 1).toNat = (pre ++ [c]).length := by
    simp only [List.length_append, List.length_singleton]; omega
  rw [this, List.take_left' rfl]

theorem TrimRightFunc_nil : TrimRightFunc [] IsSpace = [] := by
  decide

theorem trimSpaceStop_before_space (rs : List Bytes) :
    (∀ r ∈ rs, r ∈ spaceEncodings) →
    ∀ (pre : Bytes) (c : Nat) (z : Bytes), c < RuneSelf → asciiSpace c = false →
      trimSpaceStop ((pre ++ [c]) ++ rs.flatten ++ z) ((pre ++ [c]) ++ rs.flatten).length
        = pre ++ [c] := by
  induction rs using List.reverseRecOn with
  | nil =>
    intro _ pre c z hc hs
    simp only [List.flatten_nil, List.append_nil]
    have hl : (pre ++ [c]).length = pre.length + 1 := by simp
    rw [hl]
    unfold trimSpaceStop
    have hg : ((pre ++ [c]) ++ z).getD pre.length 0 = c := by
      rw [List.append_assoc]
      have := getD_append_at pre ([c] ++ z) 0
      simpa using this
    simp only [hg]
    rw [if_neg (by omega), hs]
    simp only [Bool.false_eq_true, if_false]
    rw [← hl, List.take_left' rfl]
  | append_singleton rs r ih =>
    intro hv pre c z hc hs
    have hrm : r ∈ spaceEncodings := hv r (by simp)
    have hvs : ∀ x ∈ rs, x ∈ spaceEncodings := fun x hx => hv x (by simp [hx])
    have hr := spaceEncodings_decode r hrm
    have hfl : (rs ++ [r]).flatten = rs.flatten ++ r := by simp
    have hpos : 0 < r.length := List.length_pos.mpr hr.2.2.1
    rw [hfl]
    have hl : ((pre ++ [c]) ++ (rs.flatten ++ r)).length
        = (((pre ++ [c]) ++ rs.flatten).length + (r.length - 1)) + 1 := by
      simp only [List.length_append]; omega
    have hg : ((pre ++ [c]) ++ (rs.flatten ++ r) ++ z).getD
        (((pre ++ [c]) ++ rs.flatten).length + (r.length - 1)) 0 = r.getD (r.length - 1) 0 := by
      have h1 : (pre ++ [c]) ++ (rs.flatten ++ r) ++ z
          = ((pre ++ [c]) ++ rs.flatten) ++ (r ++ z) := by simp only [List.append_assoc]
      rw [h1, getD_append_at]
      rw [List.getD_eq_getElem?_getD, List.getD_eq_getElem?_getD,
        List.getElem?_append_left (by omega)]
    rw [hl]
    unfold trimSpaceStop
    simp only [hg]
    rcases hr.2.2.2 with ⟨h1, h2, h3⟩ | ⟨_, h2⟩
    · have hr1 : r.length - 1 = 0 := by omega
      rw [hr1] at *
      rw [if_neg (by omega), h3]
      simp only [if_true, Nat.add_zero]
      have hx : (pre ++ [c]) ++ (rs.flatten ++ r) ++ z
          = (pre ++ [c]) ++ rs.flatten ++ (r ++ z) := by
        simp only [List.append_assoc]
      rw [hx]
      exact ih hvs pre c (r ++ z) hc hs
    · rw [if_pos h2, ← hl, List.take_left' rfl]
      have hx : (pre ++ [c]) ++ (rs.flatten ++ r) = (pre ++ [c]) ++ (rs ++ [r]).flatten := by
        rw [hfl]
      rw [hx]
      exact TrimRightFunc_before_space (rs ++ [r]) hv pre c hc hs

theorem trimSpaceStart_all_space (rs : List Bytes) (hv : ∀ r ∈ rs, r ∈ spaceEncodings) :
    trimSpaceStart rs.flatten = [] := by
  induction rs with
  | nil => rfl
  | cons r rs ih =>
    have hrm : r ∈ spaceEncodings := hv r (List.mem_cons_self _ _)
    have hvs : ∀ x ∈ rs, x ∈ spaceEncodings := fun x hx => hv x (List.mem_cons_of_mem _ hx)
    have hr := spaceEncodings_decode r hrm
    match r, hr, hv with
    | [], hr, _ => exact absurd rfl hr.2.2.1
    | b :: t, hr, hv =>
      simp only [List.flatten_cons, List.cons_append]
      unfold trimSpaceStart
      rcases hr.2.2.2 with ⟨h1, h2, h3⟩ | ⟨h1, _⟩
      · have ht : t = [] := by
          simp only [List.length_cons] at h1
          exact List.length_eq_zero.mp (by omega)
        subst ht
        simp only [List.getD_cons_zero] at h2 h3
        rw [if_neg (by omega), h3]
        simp only [if_true, List.nil_append]
        exact ih hvs
      · simp only [List.getD_cons_zero] at h1
        rw [if_pos h1]
        unfold TrimFunc
        have hx : b :: (t ++ rs.flatten) = ((b :: t) :: rs).flatten := by simp
        rw [hx, TrimLeftFunc_all_space _ hv, TrimRightFunc_nil]

theorem trimSpaceStart_core (rs1 : List Bytes) (hv1 : ∀ r ∈ rs1, r ∈ spaceEncodings)
    (rs2 : List Bytes) (hv2 : ∀ r ∈ rs2, r ∈ spaceEncodings)
    (c0 : Nat) (mid : Bytes) (c1 : Nat) (pre : Bytes) (hcore : c0 :: mid = pre ++ [c1])
    (h0 : c0 < RuneSelf) (hs0 : asciiSpace c0 = false)
    (h1 : c1 < RuneSelf) (hs1 : asciiSpace c1 = false) :
    trimSpaceStart (rs1.flatten ++ (c0 :: mid) ++ rs2.flatten) = c0 :: mid := by
  induction rs1 with
  | nil =>
    simp only [List.flatten_nil, List.nil_append, List.cons_append]
    unfold trimSpaceStart
    rw [if_neg (by omega), hs0]
    simp only [Bool.false_eq_true, if_false]
    have hx : c0 :: (mid ++ rs2.flatten) = (pre ++ [c1]) ++ rs2.flatten ++ [] := by
      rw [← hcore]; simp
    have hl : (c0 :: (mid ++ rs2.flatten)).length = ((pre ++ [c1]) ++ rs2.flatten).length := by
      rw [← hcore]; simp
    rw [hl, hx, trimSpaceStop_before_space rs2 hv2 pre c1 [] h1 hs1, hcore]
  | cons r rs ih =>
    have hrm : r ∈ spaceEncodings := hv1 r (List.mem_cons_self _ _)
    have hvs : ∀ x ∈ rs, x ∈ spaceEncodings := fun x hx => hv1 x (List.mem_cons_of_mem _ hx)
    have hr := spaceEncodings_decode r hrm
    match r, hr, hv1 with
    | [], hr, _ => exact absurd rfl hr.2.2.1
    | b :: t, hr, hv1 =>
      simp only [List.flatten_cons, List.cons_append, List.append_assoc]
      unfold trimSpaceStart
      rcases hr.2.2.2 with ⟨hh1, hh2, hh3⟩ | ⟨hh1, _⟩
      · have ht : t = [] := by
          simp only [List.length_cons] at hh1
          exact List.length_eq_zero.mp (by omega)
        subst ht
        simp only [List.getD_cons_zero] at hh2 hh3
        rw [if_neg (by omega), hh3]
        simp only [if_true, List.nil_append]
        have := ih hvs
        simpa only [List.append_assoc, List.cons_append] using this
      · simp only [List.getD_cons_zero] at hh1
        rw [if_pos hh1]
        unfold TrimFunc
        have hx : b :: (t ++ (rs.flatten ++ (c0 :: (mid ++ rs2.flatten))))
            = ((b :: t) :: rs).flatten ++ c0 :: (mid ++ rs2.flatten) := by simp
        rw [hx, TrimLeftFunc_after_space _ hv1 c0 _ h0 hs0]
        have hy : c0 :: (mid ++ rs2.flatten) = (pre ++ [c1]) ++ rs2.flatten := by
          rw [← hcore]; simp
        rw [hy, TrimRightFunc_before_space rs2 hv2 pre c1 h1 hs1, hcore]

theorem TrimSpace_core (w1 core w2 : Bytes) (hw1 : IsWhiteSpace w1) (hw2 : IsWhiteSpace w2)
    (hcore : ∀ x ∈ core, x < RuneSelf ∧ asciiSpace x = false) :
    TrimSpace (w1 ++ core ++ w2) = core := by
  obtain ⟨rs1, hv1, rfl⟩ := hw1
  obtain ⟨rs2, hv2, rfl⟩ := hw2
  unfold TrimSpace
  cases core with
  | nil =>
    have hx : rs1.flatten ++ [] ++ rs2.flatten = (rs1 ++ rs2).flatten := by simp
    rw [hx]
    apply trimSpaceStart_all_space
    intro r hr
    rcases List.mem_append.mp hr with h | h
    · exact hv1 r h
    · exact hv2 r h
  | cons c0 mid =>
    have hne : c0 :: mid ≠ [] := by simp
    have hsplit : c0 :: mid = (c0 :: mid).dropLast ++ [(c0 :: mid).getLast hne] :=
      (List.dropLast_append_getLast hne).symm
    have hlast := hcore _ (List.getLast_mem hne)
    have hfirst := hcore c0 (List.mem_cons_self _ _)
    exact trimSpaceStart_core rs1 hv1 rs2 hv2 c0 mid _ _ hsplit hfirst.1 hfirst.2
      hlast.1 hlast.2

/-! ## Decoding normalization -/

/-- C27: for every hex digit string `h` and all white-space strings `w1`, `w2`
(concatenations of the UTF-8 encoded code points that `strings.TrimSpace` removes),
`w1 ++ h ++ w2` is trimmed to `h` and `w1 ++ "0x" ++ h ++ w2` to `"0x" ++ h`, and both
decode to the byte string that `h` alone decodes to; so the two texts are accepted or
rejected together, with the same digest. -/
theorem decoding_normalization (h w1 w2 : Bytes) (hh : IsHexDigits h)
    (hw1 : IsWhiteSpace w1) (hw2 : IsWhiteSpace w2) :
    TrimSpace (w1 ++ h ++ w2) = h ∧
    TrimSpace (w1 ++ ascii "0x" ++ h ++ w2) = ascii "0x" ++ h ∧
    FromHex (TrimSpace (w1 ++ h ++ w2)) = FromHex (TrimSpace (w1 ++ ascii "0x" ++ h ++ w2)) ∧
    FromHex (TrimSpace (w1 ++ h ++ w2)) = FromHex h ∧
    (∀ d : Bytes, (extractDigest (w1 ++ h ++ w2) [] []).out = .ok d ↔
      (extractDigest (w1 ++ ascii "0x" ++ h ++ w2) [] []).out = .ok d) := by
  have hsolid := IsHexDigits_ascii h hh
  have h1 : TrimSpace (w1 ++ h ++ w2) = h := TrimSpace_core w1 h w2 hw1 hw2 hsolid
  have h2 : TrimSpace (w1 ++ ascii "0x" ++ h ++ w2) = ascii "0x" ++ h := by
    have hx : w1 ++ ascii "0x" ++ h ++ w2 = w1 ++ (ascii "0x" ++ h) ++ w2 := by
      simp only [List.append_assoc]
    rw [hx]
    apply TrimSpace_core w1 _ w2 hw1 hw2
    intro x hxm
    have h0 : ascii "0x" ++ h = 0x30 :: 0x78 :: h := rfl
    rw [h0] at hxm
    simp only [List.mem_cons] at hxm
    rcases hxm with hxm | hxm | hxm
    · subst hxm; decide
    · subst hxm; decide
    · exact hsolid x hxm
  have hF := FromHex_hex h hh
  have h3 : FromHex (TrimSpace (w1 ++ h ++ w2))
      = FromHex (TrimSpace (w1 ++ ascii "0x" ++ h ++ w2)) := by
    rw [h1, h2, hF.1, hF.2]
  refine ⟨h1, h2, h3, by rw [h1], ?_⟩
  intro d
  rw [extractDigest_eq, extractDigest_eq, cut_empty_markers, cut_empty_markers, ← h3]
  by_cases hl : (FromHex (TrimSpace (w1 ++ h ++ w2))).length ≠ 66
  · simp only [if_pos hl]
    constructor <;> intro hc <;> cases hc
  · simp only [if_neg hl]

set_option maxRecDepth 1000000 in
theorem decoding_normalization_witness :
    FromHex (TrimSpace ([0x20, 0xC2, 0xA0] ++ ascii "1901" ++ [0xE2, 0x80, 0x83, 0x0A]))
      = FromHex (TrimSpace ([0x20, 0xC2, 0xA0] ++ ascii "0x" ++ ascii "1901"
          ++ [0xE2, 0x80, 0x83, 0x0A])) :=
  (decoding_normalization (ascii "1901") [0x20, 0xC2, 0xA0] [0xE2, 0x80, 0x83, 0x0A]
    (by decide) ⟨[[0x20], [0xC2, 0xA0]], by decide, rfl⟩
    ⟨[[0xE2, 0x80, 0x83], [0x0A]], by decide, rfl⟩).2.2.1

end Sign
